import Mathlib

/-!
# Bitmap index (`utils/bitmap.go`): shallow embedding and verification

The Go type `BitmapIndex` is embedded as a structure over lists; a `*BitmapIndex`
is an `Option BitmapIndex` (`none` is the nil pointer, the empty-index sentinel).

Modelling conventions

* A `byte` is a `Nat`; the predicate `IsBytes` records that every element is below 256.
* A Go `int` (block indices `Start`, `End`, decoded values) is an `Int` on a 64-bit
  target. Where the source multiplies a block index by 8 (`Slices`, `Bytes`,
  `NewBitmapIndex`) the result is wrapped to 64 bits by `wrap64`, and so is the length
  `end - start + 1` that `Or` hands to `make`; `ReadIntFromBytes` is embedded on 64-bit
  words. The other differences of block indices inside `And`, `Or` and `Not` are exact: on
  well-formed operands they lie between 0 and a data length, or between 0 and the exact
  union length, and then a slice expression that receives one the wrap-around would change
  fails its bounds check either way.
* A slice is a list whose capacity is its length. Slice expressions, indexing and
  `make` are embedded with their run-time checks: a failed check is `Fail.crash`.
* The runtime refuses an allocation above `maxAlloc` bytes. This is embedded where the
  requested length comes from block indices or values (`make` in `Or`, the shift in
  `NewBitmapIndex`). Running out of physical memory below that limit is a property of the
  machine and is not embedded.
* A returned `error` is `Fail.error`.
* `Not` writes into the receiver's `Data` in place while it reads the operand's `Data`.
  Its embedding takes the memory relation of the two slices as the argument `shared`, and
  returns the updated index.
-/

namespace Bitmap

/-- Errors returned by the package (`fmt.Errorf` values), named after their message. -/
inductive GoError where
  | cantRead
  | indexDataEmpty
  | notFoundItem
deriving DecidableEq, Repr

/-- Go run-time aborts that the source can reach. -/
inductive Crash where
  | nilDereference
  | sliceBounds
  | indexOutOfRange
  | makeLength
deriving DecidableEq, Repr

/-- Outcome of a call that does not produce its value: a returned error or an abort. -/
inductive Fail where
  | error (e : GoError)
  | crash (c : Crash)
deriving DecidableEq, Repr

/-- The Go struct `BitmapIndex`. -/
structure BitmapIndex where
  Data : List Nat
  Ext : List Nat
  Start : Int
  End : Int
deriving DecidableEq, Repr

/-- Typing of `[]byte`: every element is a byte. -/
def IsBytes (l : List Nat) : Prop := ∀ b ∈ l, b < 256

/-- Data-model invariant of the specification: `Start ≤ End` and `len(Data) = End-Start+1`. -/
def WellFormed (x : BitmapIndex) : Prop :=
  x.Start ≤ x.End ∧ (x.Data.length : Int) = x.End - x.Start + 1

/-- Go slice expression `xs[lo:hi]`. -/
def slice (xs : List Nat) (lo hi : Int) : Except Fail (List Nat) :=
  if 0 ≤ lo ∧ lo ≤ hi ∧ hi ≤ (xs.length : Int) then
    .ok ((xs.take hi.toNat).drop lo.toNat)
  else .error (.crash .sliceBounds)

/-- Go index expression `xs[i]`. -/
def index (xs : List Nat) (i : Int) : Except Fail Nat :=
  if 0 ≤ i ∧ i < (xs.length : Int) then .ok (xs.getD i.toNat 0)
  else .error (.crash .indexOutOfRange)

/-- Go assignment `xs[i] = v`. -/
def setAt (xs : List Nat) (i : Int) (v : Nat) : Except Fail (List Nat) :=
  if 0 ≤ i ∧ i < (xs.length : Int) then .ok (xs.set i.toNat v)
  else .error (.crash .indexOutOfRange)

/-- Go `make([]byte, n)` in `And` and `Bytes`, where on well-formed operands `n` is the
length of a window of data already held, or 8 more than `len(Data)`: the sign check only. -/
def makeBytes (n : Int) : Except Fail (List Nat) :=
  if 0 ≤ n then .ok (List.replicate n.toNat 0) else .error (.crash .makeLength)

/-- Largest allocation the Go runtime grants on a 64-bit target (`maxAlloc`, 2^48 bytes). -/
def maxAlloc : Nat := 2 ^ 48

/-- Go `make([]byte, n)` for a length taken from block indices (`Or`): the runtime refuses
it ("len out of range") when `n < 0` or `n > maxAlloc`. -/
def makeSlice (n : Int) : Except Fail (List Nat) :=
  if 0 ≤ n ∧ n ≤ (maxAlloc : Int) then .ok (List.replicate n.toNat 0)
  else .error (.crash .makeLength)

/-- Value of a 64-bit `int` computation whose exact result is `x`. -/
def wrap64 (x : Int) : Int := (x + 2 ^ 63) % 2 ^ 64 - 2 ^ 63

/-- Writes `src` over `dst` from position `lo`, as far as both lists reach. -/
def overwrite : List Nat → Nat → List Nat → List Nat
  | [], _, _ => []
  | d :: ds, 0, [] => d :: ds
  | _ :: ds, 0, s :: ss => s :: overwrite ds 0 ss
  | d :: ds, lo + 1, src => d :: overwrite ds lo src

/-- Go `copy(dst[lo:hi], src)`: copies `min (hi-lo) (len src)` elements. -/
def copyInto (dst : List Nat) (lo hi : Int) (src : List Nat) : Except Fail (List Nat) :=
  if 0 ≤ lo ∧ lo ≤ hi ∧ hi ≤ (dst.length : Int) then
    .ok (overwrite dst lo.toNat (src.take (hi - lo).toNat))
  else .error (.crash .sliceBounds)

/-- Conversion `uint(x)` of a Go `int`. -/
def toUint (x : Int) : Nat := (x % 2 ^ 64).toNat

/-- The Go `int` held by a 64-bit word. -/
def toInt64 (u : Nat) : Int :=
  if u % 2 ^ 64 < 2 ^ 63 then ((u % 2 ^ 64 : Nat) : Int) else ((u % 2 ^ 64 : Nat) : Int) - 2 ^ 64

/-- Big-endian bytes of `n` without leading zero bytes, `fuel` bounding the digit count. -/
def bigBytesAux : Nat → Nat → List Nat
  | 0, _ => []
  | fuel + 1, n => if n = 0 then [] else bigBytesAux fuel (n / 256) ++ [n % 256]

/-- `(*big.Int).Bytes` on a value of absolute value `n`. -/
def bigBytes (n : Nat) : List Nat := bigBytesAux n n

/-- Loop of `ReadIntFromBytes`: `r |= int(b) << uint((l-i-1)*8)` on 64-bit words. -/
def readLoop (l : Nat) : List Nat → Nat → Nat → Nat
  | [], _, r => r
  | b :: rest, i, r =>
    let shift := toUint ((((l : Int) - (i : Int) - 1) * 8))
    readLoop l rest (i + 1) (r ||| (if shift < 64 then (b <<< shift) % 2 ^ 64 else 0))

/-- `ReadIntFromBytes`. -/
def ReadIntFromBytes (bs : List Nat) : Int :=
  toInt64 (readLoop bs.length bs 0 0)

/-- Shifts that `rcver.Lsh(one, s)` can carry out: `math/big` asks `make` for the
`s/64 + 2` words of the result and 4 spare words, and the runtime refuses a request above
`maxAlloc` bytes. The request is checked for every shift; storage that an earlier shift
left in `rcver` is not tracked. -/
def LshFits (s : Nat) : Prop := (s / 64 + 6) * 8 ≤ maxAlloc

/-- `rcver.Lsh(one, s)` of `math/big`. -/
def lshOne (s : Nat) : Except Fail Nat :=
  if (s / 64 + 6) * 8 ≤ maxAlloc then .ok (1 <<< s) else .error (.crash .makeLength)

/-- Loop of `NewBitmapIndex`: `offset := sv - bi.Start*8` in 64-bit `int`, then
`b.Or(b, rcver.Lsh(one, uint(offset)))`. -/
def buildLoop (start : Int) : List Int → Nat → Except Fail Nat
  | [], b => .ok b
  | sv :: rest, b => do
    let offset := wrap64 (sv - wrap64 (start * 8))
    let r ← lshOne (toUint offset)
    buildLoop start rest (b ||| r)

/-- `NewBitmapIndex`. -/
def NewBitmapIndex (s : List Int) : Except Fail (Option BitmapIndex) :=
  if s.length = 0 then .ok none
  else
    let s := s.insertionSort (fun a b => a ≤ b)
    let start := (s.headD 0).tdiv 8
    let stop := (s.getLastD 0).tdiv 8
    do
      let b ← buildLoop start s 0
      pure (some ⟨bigBytes b, [], start, stop⟩)

/-- `ReadBitmapIndex`. -/
def ReadBitmapIndex (ib : List Nat) : Except Fail BitmapIndex :=
  let il := ib.length
  if il ≤ 8 then .error (.error .cantRead)
  else do
    let h1 ← slice ib 0 4
    let h2 ← slice ib 4 8
    let start := ReadIntFromBytes h1
    let stop := ReadIntFromBytes h2
    let biStart := start.tdiv 8
    let biEnd := stop.tdiv 8
    let dl := biEnd - biStart + 1
    let data ← slice ib 8 (8 + dl)
    let ext ← slice ib (8 + dl) il
    pure ⟨data, ext, biStart, biEnd⟩

/-- `(*BitmapIndex).Bytes`. -/
def Bytes (bi : Option BitmapIndex) : Except Fail (List Nat) :=
  match bi with
  | none => .error (.crash .nilDereference)
  | some x =>
    let bl := x.Data.length
    if bl ≤ 0 then .error (.error .indexDataEmpty)
    else
      let start := wrap64 (x.Start * 8)
      let stop := wrap64 (x.End * 8)
      let bs := bigBytes start.natAbs
      let be := bigBytes stop.natAbs
      do
        let ib ← makeBytes (8 + (bl : Int))
        let ib ← copyInto ib (4 - (bs.length : Int)) 4 bs
        let ib ← copyInto ib (8 - (be.length : Int)) 8 be
        let ib ← copyInto ib 8 (ib.length : Int) x.Data
        pure ib

/-- Inner loop of `Slices`: the bits `ii = 0..7` of the byte `b` at index `i`. The source
computes `shift` and `bi.Start*8+shift` in 64-bit `int`; wrapping is arithmetic modulo
2^64, so wrapping the exact sum once gives the value the source appends. -/
def bitsLoop (start : Int) (len i : Nat) (b : Nat) (s : List Int) : List Int :=
  (List.range 8).foldl
    (fun s ii =>
      if b &&& (1 <<< ii) > 0 then
        s ++ [wrap64 (start * 8 + (((ii + (len - i - 1) * 8 : Nat)) : Int))]
      else s)
    s

/-- Outer loop of `Slices`: `n` is `i+1`, the indices `n-1, ..., 0` remain. -/
def slicesLoop (start : Int) (data : List Nat) : Nat → List Int → List Int
  | 0, s => s
  | i + 1, s =>
    let b := data.getD i 0
    slicesLoop start data i (if b > 0 then bitsLoop start data.length i b s else s)

/-- The list `Slices` builds for a non-nil index. -/
def slicesList (x : BitmapIndex) : List Int :=
  slicesLoop x.Start x.Data x.Data.length []

/-- Inner loop of `Slices` in exact arithmetic (no wrap-around), used in proofs. -/
def bitsLoopZ (start : Int) (len i : Nat) (b : Nat) (s : List Int) : List Int :=
  (List.range 8).foldl
    (fun s ii =>
      if b &&& (1 <<< ii) > 0 then s ++ [start * 8 + (((ii + (len - i - 1) * 8 : Nat)) : Int)]
      else s)
    s

/-- Outer loop of `Slices` in exact arithmetic, used in proofs. -/
def slicesLoopZ (start : Int) (data : List Nat) : Nat → List Int → List Int
  | 0, s => s
  | i + 1, s =>
    let b := data.getD i 0
    slicesLoopZ start data i (if b > 0 then bitsLoopZ start data.length i b s else s)

/-- The decoded list in exact arithmetic: `slicesList` is its image under `wrap64`. -/
def slicesListZ (x : BitmapIndex) : List Int :=
  slicesLoopZ x.Start x.Data x.Data.length []

/-- `(*BitmapIndex).Slices`. -/
def Slices (bi : Option BitmapIndex) : Except Fail (List Int) :=
  match bi with
  | none => .error (.error .notFoundItem)
  | some x =>
    if x.Data.length ≤ 0 then .error (.error .notFoundItem)
    else .ok (slicesList x)

/-- Loop of `And` over `data1`: result buffer and the `matched` flag. -/
def andLoop (data2 : List Nat) : List Nat → Nat → List Nat → Bool → Except Fail (List Nat × Bool)
  | [], _, buf, m => .ok (buf, m)
  | b1 :: rest, i, buf, m => do
    let b2 ← index data2 i
    if b1 > 0 ∧ b2 > 0 then
      let b3 := b1 &&& b2
      if b3 > 0 then do
        let buf ← setAt buf i b3
        andLoop data2 rest (i + 1) buf true
      else do
        let buf ← setAt buf i 0
        andLoop data2 rest (i + 1) buf m
    else do
      let buf ← setAt buf i 0
      andLoop data2 rest (i + 1) buf m

/-- `(*BitmapIndex).And`. -/
def And (bi obi : Option BitmapIndex) : Except Fail (Option BitmapIndex) :=
  match bi with
  | none => .ok none
  | some a =>
    match obi with
    | none => .error (.crash .nilDereference)
    | some b =>
      if a.End < b.Start ∨ b.End < a.Start then .ok none
      else
        let start := if a.Start < b.Start then b.Start else a.Start
        let stop := if a.End < b.End then a.End else b.End
        do
          let data1 ← slice a.Data (a.End - stop) ((a.Data.length : Int) - (start - a.Start))
          let data2 ← slice b.Data (b.End - stop) ((b.Data.length : Int) - (start - b.Start))
          let len := stop - start + 1
          let buf ← makeBytes len
          let r ← andLoop data2 data1 0 buf false
          if !r.2 then pure none else pure (some ⟨r.1, [], start, stop⟩)

/-- Loop of `AndBreak` over the candidates. -/
def andBreakLoop (bi : Option BitmapIndex) : List (Option BitmapIndex) → Except Fail (Option BitmapIndex)
  | [] => .ok none
  | obi :: rest => do
    let tbi ← And bi obi
    match tbi with
    | some t => pure (some t)
    | none => andBreakLoop bi rest

/-- `(*BitmapIndex).AndBreak`. -/
def AndBreak (bi : Option BitmapIndex) (obis : List (Option BitmapIndex)) :
    Except Fail (Option BitmapIndex) :=
  match bi with
  | none => .ok none
  | some a => andBreakLoop (some a) obis

/-- Bit clear `b1 &^ b2` on bytes. -/
def andNot (b1 b2 : Nat) : Nat := b1 &&& (255 ^^^ (b2 % 256))

/-- Read of `data2[i]` in the loop of `Not` while the receiver's `Data` holds `buf`, where
`data2` is the window `obi.Data[lo : lo+n]`. With `shared = none` the two `Data` slices
have no byte in common. With `shared = some d` they are views of one array, byte `j` of
the operand's `Data` being byte `j + d` of the receiver's: such a byte is read from `buf`;
a byte outside the receiver's view is never written and is read from `odata`. -/
def operandByte (shared : Option Int) (odata : List Nat) (lo : Int) (n : Nat)
    (buf : List Nat) (i : Nat) : Except Fail Nat :=
  if i < n then
    match shared with
    | none => .ok (odata.getD (lo + i).toNat 0)
    | some d =>
      if 0 ≤ lo + i + d ∧ lo + i + d < (buf.length : Int) then
        .ok (buf.getD (lo + i + d).toNat 0)
      else .ok (odata.getD (lo + i).toNat 0)
  else .error (.crash .indexOutOfRange)

/-- Loop of `Not` over `data1`, writing at `base + i` into the receiver's data; `read buf i`
is `data2[i]`. The element `data1[i]` is read before the write at `base + i`, its own
position, so the loop ranges over the values `data1` had at entry. -/
def notLoop (read : List Nat → Nat → Except Fail Nat) (base : Int) :
    List Nat → Nat → List Nat → Except Fail (List Nat)
  | [], _, buf => .ok buf
  | b1 :: rest, i, buf => do
    let b2 ← read buf i
    let offset := base + i
    if b1 > 0 ∧ b2 > 0 then do
      let buf ← setAt buf offset (andNot b1 b2)
      notLoop read base rest (i + 1) buf
    else notLoop read base rest (i + 1) buf

/-- `(*BitmapIndex).Not`; `shared` tells how `obi.Data` lies in memory relative to
`bi.Data` (see `operandByte`). -/
def Not (bi obi : Option BitmapIndex) (shared : Option Int) :
    Except Fail (Option BitmapIndex) :=
  match bi, obi with
  | none, _ => .ok none
  | some a, none => .ok (some a)
  | some a, some b =>
    if a.End < b.Start ∨ b.End < a.Start then .ok (some a)
    else
      let cStart := if a.Start < b.Start then b.Start else a.Start
      let cEnd := if a.End < b.End then a.End else b.End
      do
        let data1 ← slice a.Data (a.End - cEnd) ((a.Data.length : Int) - (cStart - a.Start))
        let data2 ← slice b.Data (b.End - cEnd) ((b.Data.length : Int) - (cStart - b.Start))
        let d ← notLoop (operandByte shared b.Data (b.End - cEnd) data2.length)
          (a.End - cEnd) data1 0 a.Data
        pure (some ⟨d, a.Ext, a.Start, a.End⟩)

/-- Loop of `Or` over `data1`, writing at `base + i` into the result buffer. -/
def orLoop (data2 : List Nat) (base : Int) : List Nat → Nat → List Nat → Except Fail (List Nat)
  | [], _, buf => .ok buf
  | b1 :: rest, i, buf => do
    let b2 ← index data2 i
    let offset := base + i
    if b1 > 0 ∨ b2 > 0 then do
      let buf ← setAt buf offset (b1 ||| b2)
      orLoop data2 base rest (i + 1) buf
    else orLoop data2 base rest (i + 1) buf

/-- `(*BitmapIndex).Or`. -/
def Or (bi obi : Option BitmapIndex) : Except Fail (Option BitmapIndex) :=
  match bi, obi with
  | none, o => .ok o
  | some a, none => .ok (some a)
  | some a, some b =>
    let start := if a.Start < b.Start then a.Start else b.Start
    let cStart := if a.Start < b.Start then b.Start else a.Start
    let stop := if a.End < b.End then b.End else a.End
    let cEnd := if a.End < b.End then a.End else b.End
    let len := wrap64 (stop - start + 1)
    do
      let buf ← makeSlice len
      let buf ← copyInto buf (stop - a.End) (len - (a.Start - start)) a.Data
      let buf ← copyInto buf (stop - b.End) (len - (b.Start - start)) b.Data
      if a.End < b.Start ∨ b.End < a.Start then pure (some ⟨buf, [], start, stop⟩)
      else do
        let data1 ← slice a.Data (a.End - cEnd) ((a.Data.length : Int) - (cStart - a.Start))
        let data2 ← slice b.Data (b.End - cEnd) ((b.Data.length : Int) - (cStart - b.Start))
        let buf ← orLoop data2 (stop - cEnd) data1 0 buf
        pure (some ⟨buf, [], start, stop⟩)

/-- Loop of the N-way `OR`: `obi = obi.Or(bi)` for every element. -/
def orFold : Option BitmapIndex → List (Option BitmapIndex) → Except Fail (Option BitmapIndex)
  | obi, [] => .ok obi
  | obi, bi :: rest => do
    let o ← Or obi bi
    orFold o rest

/-- The package function `OR`. -/
def OR (bis : List (Option BitmapIndex)) : Except Fail (Option BitmapIndex) :=
  if bis.length ≤ 0 then .ok none else orFold none bis

/-- Byte of block `k` in the reversed layout (`Data[End-k]`), zero outside `[Start, End]`. -/
def blockByte (x : BitmapIndex) (k : Int) : Nat :=
  if x.Start ≤ k ∧ k ≤ x.End then x.Data.getD (x.End - k).toNat 0 else 0

/-- Values of a Go `int` that are non-negative. -/
def IsNonNegInt (v : Int) : Prop := 0 ≤ v ∧ v < 2 ^ 63

/-- The values of all blocks of `x` are 64-bit `int` values: no decoded value wraps. -/
def InRange64 (x : BitmapIndex) : Prop :=
  -(2 : Int) ^ 63 ≤ x.Start * 8 ∧ x.End * 8 + 7 < 2 ^ 63

/-- Typing of a `[]byte` held in memory: at most `maxAlloc` bytes. -/
def SliceLen (l : List Nat) : Prop := l.length ≤ maxAlloc

/-- Values of a Go `int` on a 64-bit target. -/
def IsInt64 (v : Int) : Prop := -(2 : Int) ^ 63 ≤ v ∧ v < 2 ^ 63

/-- Typing of an index held in memory: `Start` and `End` are Go `int`s and `Data` is a slice
of at most `maxAlloc` bytes. -/
def GoTyped (x : BitmapIndex) : Prop := IsInt64 x.Start ∧ IsInt64 x.End ∧ SliceLen x.Data

/-- The union range of two indexes is one that `make` grants. -/
def UnionFits (a b : BitmapIndex) : Prop :=
  max a.End b.End - min a.Start b.Start + 1 ≤ (maxAlloc : Int)

/-- Every range from the first block of one operand of the list to the last block of
another is one that `make` grants. -/
def SpanFits (l : List (Option BitmapIndex)) : Prop :=
  ∀ x y : BitmapIndex, some x ∈ l → some y ∈ l → y.End - x.Start + 1 ≤ (maxAlloc : Int)

/-- A pointer that is nil or points to a well-formed index. -/
def WellFormedOpt (o : Option BitmapIndex) : Prop :=
  match o with
  | none => True
  | some x => WellFormed x

/-- Big-endian unsigned 32-bit field of the wire format, written from the specification:
the four bytes of `n`, most significant first. -/
def specBE32 (n : Nat) : List Nat :=
  [n / 2 ^ 24 % 256, n / 2 ^ 16 % 256, n / 2 ^ 8 % 256, n % 256]

/-- Big-endian value of a byte sequence, written from the specification. -/
def specBEValue (bs : List Nat) : Nat :=
  bs.foldl (fun acc b => acc * 256 + b) 0

instance instDecEqExcept {ε α : Type} [DecidableEq ε] [DecidableEq α] : DecidableEq (Except ε α) := fun a b =>
  match a, b with
  | .ok x, .ok y => if h : x = y then isTrue (by rw [h]) else isFalse (fun e => h (by cases e; rfl))
  | .error x, .error y => if h : x = y then isTrue (by rw [h]) else isFalse (fun e => h (by cases e; rfl))
  | .ok _, .error _ => isFalse (fun e => by cases e)
  | .error _, .ok _ => isFalse (fun e => by cases e)

/-! ## Bits of a byte -/

theorem bit_test_iff (b j : Nat) : b &&& (1 <<< j) > 0 ↔ b.testBit j = true := by
  rw [Nat.one_shiftLeft, Nat.and_two_pow]
  cases h : b.testBit j
  · simp
  · simp [Nat.pos_of_ne_zero]

theorem byte_pos_iff (b : Nat) (hb : b < 256) : b > 0 ↔ ∃ j, j < 8 ∧ b.testBit j = true := by
  constructor
  · intro h
    obtain ⟨i, hi⟩ := Nat.ne_zero_implies_bit_true (Nat.pos_iff_ne_zero.mp h)
    refine ⟨i, ?_, hi⟩
    by_contra hge
    have h8 : 8 ≤ i := Nat.le_of_not_lt hge
    have hlt : b < 2 ^ i := lt_of_lt_of_le hb (by
      calc 256 = 2 ^ 8 := by norm_num
        _ ≤ 2 ^ i := Nat.pow_le_pow_right (by norm_num) h8)
    rw [Nat.testBit_lt_two_pow hlt] at hi
    exact Bool.noConfusion hi
  · rintro ⟨j, _, hj⟩
    rcases Nat.eq_zero_or_pos b with h0 | h0
    · subst h0; simp at hj
    · exact h0

/-! ## The loops of `Slices` in exact arithmetic -/

theorem foldl_append_filter {α β : Type} (p : α → Prop) [DecidablePred p] (f : α → β) :
    ∀ (l : List α) (s : List β),
      l.foldl (fun s a => if p a then s ++ [f a] else s) s
        = s ++ (l.filter (fun a => decide (p a))).map f := by
  intro l
  induction l with
  | nil => intro s; simp
  | cons a l ih =>
    intro s
    rw [List.foldl_cons, ih]
    by_cases h : p a
    · simp [h]
    · simp [h]

theorem bitsLoopZ_eq (start : Int) (len i b : Nat) (s : List Int) :
    bitsLoopZ start len i b s
      = s ++ ((List.range 8).filter (fun j => decide (b &&& (1 <<< j) > 0))).map
          (fun j => start * 8 + (((j + (len - i - 1) * 8 : Nat)) : Int)) := by
  unfold bitsLoopZ
  exact foldl_append_filter (fun j => b &&& (1 <<< j) > 0) _ _ s

theorem mem_bitsLoopZ (start : Int) (len i b : Nat) (s : List Int) (v : Int) :
    v ∈ bitsLoopZ start len i b s ↔
      v ∈ s ∨ ∃ j, j < 8 ∧ b.testBit j = true ∧
        v = start * 8 + (((j + (len - i - 1) * 8 : Nat)) : Int) := by
  rw [bitsLoopZ_eq]
  simp only [List.mem_append, List.mem_map, List.mem_filter, List.mem_range, decide_eq_true_eq,
    bit_test_iff]
  constructor
  · rintro (h | ⟨j, ⟨hj, hb⟩, rfl⟩)
    · exact Or.inl h
    · exact Or.inr ⟨j, hj, hb, rfl⟩
  · rintro (h | ⟨j, hj, hb, rfl⟩)
    · exact Or.inl h
    · exact Or.inr ⟨j, ⟨hj, hb⟩, rfl⟩

theorem mem_slicesLoopZ (start : Int) (data : List Nat) (v : Int) :
    ∀ (n : Nat) (s : List Int),
      v ∈ slicesLoopZ start data n s ↔
        v ∈ s ∨ ∃ i j, i < n ∧ j < 8 ∧ (data.getD i 0).testBit j = true ∧
          v = start * 8 + (((j + (data.length - i - 1) * 8 : Nat)) : Int) := by
  intro n
  induction n with
  | zero => intro s; simp [slicesLoopZ]
  | succ n ih =>
    intro s
    rw [slicesLoopZ, ih]
    by_cases hb : data.getD n 0 > 0
    · rw [if_pos hb, mem_bitsLoopZ]
      constructor
      · rintro ((h | ⟨j, hj, ht, hv⟩) | ⟨i, j, hi, hj, ht, hv⟩)
        · exact Or.inl h
        · exact Or.inr ⟨n, j, Nat.lt_succ_self n, hj, ht, hv⟩
        · exact Or.inr ⟨i, j, Nat.lt_succ_of_lt hi, hj, ht, hv⟩
      · rintro (h | ⟨i, j, hi, hj, ht, hv⟩)
        · exact Or.inl (Or.inl h)
        · rcases Nat.lt_succ_iff_lt_or_eq.mp hi with hlt | heq
          · exact Or.inr ⟨i, j, hlt, hj, ht, hv⟩
          · subst heq; exact Or.inl (Or.inr ⟨j, hj, ht, hv⟩)
    · rw [if_neg hb]
      have h0 : data.getD n 0 = 0 := Nat.eq_zero_of_not_pos hb
      constructor
      · rintro (h | ⟨i, j, hi, hj, ht, hv⟩)
        · exact Or.inl h
        · exact Or.inr ⟨i, j, Nat.lt_succ_of_lt hi, hj, ht, hv⟩
      · rintro (h | ⟨i, j, hi, hj, ht, hv⟩)
        · exact Or.inl h
        · rcases Nat.lt_succ_iff_lt_or_eq.mp hi with hlt | heq
          · exact Or.inr ⟨i, j, hlt, hj, ht, hv⟩
          · subst heq; rw [h0] at ht; simp at ht

theorem sorted_bitsLoopZ (start : Int) (len i b : Nat) (s : List Int)
    (hs : s.Sorted (fun a b => a < b))
    (hlt : ∀ x ∈ s, x < start * 8 + (((len - i - 1) * 8 : Nat) : Int)) :
    (bitsLoopZ start len i b s).Sorted (fun a b => a < b) := by
  rw [bitsLoopZ_eq]
  unfold List.Sorted
  rw [List.pairwise_append]
  refine ⟨hs, ?_, ?_⟩
  · apply List.Pairwise.map (R := fun a b => a < b)
    · intro a c hac
      push_cast
      omega
    · exact List.Pairwise.filter _ (List.pairwise_lt_range 8)
  · intro x hx y hy
    simp only [List.mem_map, List.mem_filter, List.mem_range] at hy
    obtain ⟨j, _, rfl⟩ := hy
    have := hlt x hx
    push_cast at this ⊢
    omega

theorem sorted_slicesLoopZ (start : Int) (data : List Nat) :
    ∀ (n : Nat) (s : List Int), n ≤ data.length → s.Sorted (fun a b => a < b) →
      (∀ x ∈ s, x < start * 8 + (((data.length - n) * 8 : Nat) : Int)) →
      (slicesLoopZ start data n s).Sorted (fun a b => a < b) := by
  intro n
  induction n with
  | zero => intro s _ hs _; simpa [slicesLoopZ] using hs
  | succ n ih =>
    intro s hn hs hlt
    rw [slicesLoopZ]
    have e1 : data.length - n - 1 = data.length - (n + 1) := by omega
    apply ih _ (Nat.le_of_succ_le hn)
    · split
      · apply sorted_bitsLoopZ _ _ _ _ _ hs
        intro x hx
        rw [e1]
        exact hlt x hx
      · exact hs
    · intro x hx
      have key : ∀ y ∈ s, y < start * 8 + (((data.length - n) * 8 : Nat) : Int) := by
        intro y hy
        have := hlt y hy
        push_cast at this ⊢
        omega
      split at hx
      · rw [mem_bitsLoopZ] at hx
        rcases hx with hx | ⟨j, hj, _, rfl⟩
        · exact key x hx
        · push_cast
          omega
      · exact key x hx

theorem sorted_slicesListZ (x : BitmapIndex) : (slicesListZ x).Sorted (fun a b => a < b) := by
  unfold slicesListZ
  apply sorted_slicesLoopZ _ _ _ _ (le_refl _) List.sorted_nil
  intro y hy
  cases hy

theorem mem_slicesListZ (x : BitmapIndex) (v : Int) :
    v ∈ slicesListZ x ↔
      ∃ i j, i < x.Data.length ∧ j < 8 ∧ (x.Data.getD i 0).testBit j = true ∧
        v = x.Start * 8 + (((j + (x.Data.length - i - 1) * 8 : Nat)) : Int) := by
  unfold slicesListZ
  rw [mem_slicesLoopZ]
  simp

theorem mem_slicesListZ_iff (x : BitmapIndex) (hx : WellFormed x) (v : Int) :
    v ∈ slicesListZ x ↔ (blockByte x (v / 8)).testBit (v % 8).toNat = true := by
  obtain ⟨h1, h2⟩ := hx
  rw [mem_slicesListZ]
  unfold blockByte
  constructor
  · rintro ⟨i, j, hi, hj, ht, rfl⟩
    have hk : (x.Start * 8 + (((j + (x.Data.length - i - 1) * 8 : Nat)) : Int)) / 8
        = x.Start + ((x.Data.length - i - 1 : Nat) : Int) := by omega
    have hm : (x.Start * 8 + (((j + (x.Data.length - i - 1) * 8 : Nat)) : Int)) % 8
        = (j : Int) := by omega
    rw [hk, hm]
    have hidx : (x.End - (x.Start + ((x.Data.length - i - 1 : Nat) : Int))).toNat = i := by omega
    rw [if_pos (by constructor <;> omega), hidx]
    simpa using ht
  · intro h
    by_cases hr : x.Start ≤ v / 8 ∧ v / 8 ≤ x.End
    · rw [if_pos hr] at h
      refine ⟨(x.End - v / 8).toNat, (v % 8).toNat, by omega, by omega, h, by omega⟩
    · rw [if_neg hr] at h
      simp at h

/-! ## `big.Int.Bytes` -/

theorem bigBytesAux_fuel : ∀ (f1 f2 n : Nat), n ≤ f1 → n ≤ f2 →
    bigBytesAux f1 n = bigBytesAux f2 n := by
  intro f1
  induction f1 with
  | zero =>
    intro f2 n h1 _
    have : n = 0 := by omega
    subst this
    cases f2 <;> simp [bigBytesAux]
  | succ f1 ih =>
    intro f2 n h1 h2
    cases f2 with
    | zero =>
      have : n = 0 := by omega
      subst this
      simp [bigBytesAux]
    | succ f2 =>
      simp only [bigBytesAux]
      by_cases hn : n = 0
      · simp [hn]
      · rw [if_neg hn, if_neg hn, ih f2 (n / 256) (by omega) (by omega)]

theorem bigBytes_zero : bigBytes 0 = [] := by
  simp [bigBytes, bigBytesAux]

theorem bigBytes_pos (n : Nat) (hn : n ≠ 0) :
    bigBytes n = bigBytes (n / 256) ++ [n % 256] := by
  unfold bigBytes
  obtain ⟨m, rfl⟩ := Nat.exists_eq_succ_of_ne_zero hn
  rw [bigBytesAux, if_neg hn]
  rw [bigBytesAux_fuel m ((m + 1) / 256) ((m + 1) / 256) (by omega) (le_refl _)]

theorem bigBytes_lt (n : Nat) : n < 256 ^ (bigBytes n).length := by
  induction n using Nat.strong_induction_on with
  | _ n ih =>
    by_cases hn : n = 0
    · subst hn; simp
    · rw [bigBytes_pos n hn, List.length_append, List.length_singleton, pow_succ]
      have := ih (n / 256) (by omega)
      omega

theorem bigBytes_ne_nil (n : Nat) (hn : n ≠ 0) : bigBytes n ≠ [] := by
  rw [bigBytes_pos n hn]
  simp

theorem bigBytes_ge (n : Nat) (hn : n ≠ 0) : 256 ^ ((bigBytes n).length - 1) ≤ n := by
  induction n using Nat.strong_induction_on with
  | _ n ih =>
    rw [bigBytes_pos n hn, List.length_append, List.length_singleton, Nat.add_sub_cancel]
    by_cases h0 : n / 256 = 0
    · rw [h0, bigBytes_zero]
      simp
      omega
    · have h1 := ih (n / 256) (by omega) h0
      have h2 : (bigBytes (n / 256)).length ≠ 0 := by
        intro h
        exact bigBytes_ne_nil _ h0 (List.length_eq_zero.mp h)
      obtain ⟨m, hm⟩ := Nat.exists_eq_succ_of_ne_zero h2
      rw [hm] at h1 ⊢
      rw [Nat.succ_sub_one] at h1
      rw [pow_succ]
      omega

theorem bigBytes_getD (n : Nat) : ∀ i, i < (bigBytes n).length →
    (bigBytes n).getD i 0 = n / 256 ^ ((bigBytes n).length - 1 - i) % 256 := by
  induction n using Nat.strong_induction_on with
  | _ n ih =>
    intro i hi
    by_cases hn : n = 0
    · subst hn; simp [bigBytes_zero] at hi
    · rw [bigBytes_pos n hn] at hi ⊢
      rw [List.length_append, List.length_singleton] at hi ⊢
      rw [List.getD_eq_getElem?_getD]
      by_cases hlt : i < (bigBytes (n / 256)).length
      · rw [List.getElem?_append_left hlt, ← List.getD_eq_getElem?_getD, ih (n / 256) (by omega) i hlt]
        have e : (bigBytes (n / 256)).length + 1 - 1 - i
            = ((bigBytes (n / 256)).length - 1 - i) + 1 := by omega
        rw [e, pow_succ, Nat.div_div_eq_div_mul, Nat.mul_comm]
      · have e : i = (bigBytes (n / 256)).length := by omega
        subst e
        simp

theorem bigBytes_isBytes (n : Nat) : IsBytes (bigBytes n) := by
  induction n using Nat.strong_induction_on with
  | _ n ih =>
    by_cases hn : n = 0
    · subst hn; rw [bigBytes_zero]; intro b hb; cases hb
    · rw [bigBytes_pos n hn]
      intro b hb
      rcases List.mem_append.mp hb with h | h
      · exact ih (n / 256) (by omega) b h
      · rw [List.mem_singleton] at h
        omega

theorem testBit_byte (n k j : Nat) (hj : j < 8) :
    (n / 256 ^ k % 256).testBit j = n.testBit (8 * k + j) := by
  have e1 : (256 : Nat) = 2 ^ 8 := by norm_num
  rw [e1, ← pow_mul, Nat.testBit_mod_two_pow, ← Nat.shiftRight_eq_div_pow, Nat.testBit_shiftRight]
  simp [hj]

/-! ## 64-bit wrap-around and the decoded list -/

theorem wrap64_of_range (x : Int) (h1 : -(2 : Int) ^ 63 ≤ x) (h2 : x < 2 ^ 63) :
    wrap64 x = x := by
  unfold wrap64
  omega

theorem wrap64_of_alloc (x : Int) (h1 : 0 ≤ x) (h2 : x ≤ (maxAlloc : Int)) : wrap64 x = x := by
  unfold maxAlloc at h2
  unfold wrap64
  omega

theorem wrap64_inj (a b : Int) (h : wrap64 a = wrap64 b) (h1 : a - b < 2 ^ 64)
    (h2 : b - a < 2 ^ 64) : a = b := by
  unfold wrap64 at h
  omega

theorem toUint_wrap64 (x : Int) : toUint (wrap64 x) = toUint x := by
  unfold toUint wrap64
  congr 1
  omega

theorem bitsLoop_eq_wrap (start : Int) (len i b : Nat) (s : List Int) :
    bitsLoop start len i b s
      = s ++ ((List.range 8).filter (fun j => decide (b &&& (1 <<< j) > 0))).map
          (fun j => wrap64 (start * 8 + (((j + (len - i - 1) * 8 : Nat)) : Int))) := by
  unfold bitsLoop
  exact foldl_append_filter (fun j => b &&& (1 <<< j) > 0) _ _ s

theorem bitsLoop_map (start : Int) (len i b : Nat) (s : List Int) :
    bitsLoop start len i b (s.map wrap64) = (bitsLoopZ start len i b s).map wrap64 := by
  rw [bitsLoop_eq_wrap, bitsLoopZ_eq, List.map_append, List.map_map]
  rfl

theorem slicesLoop_map (start : Int) (data : List Nat) :
    ∀ (n : Nat) (s : List Int),
      slicesLoop start data n (s.map wrap64) = (slicesLoopZ start data n s).map wrap64 := by
  intro n
  induction n with
  | zero => intro s; rfl
  | succ n ih =>
    intro s
    rw [slicesLoop, slicesLoopZ]
    by_cases hb : data.getD n 0 > 0
    · simp only [if_pos hb]
      rw [bitsLoop_map, ih]
    · simp only [if_neg hb]
      rw [ih]

theorem slicesList_eq_map (x : BitmapIndex) :
    slicesList x = (slicesListZ x).map wrap64 := by
  unfold slicesList slicesListZ
  exact slicesLoop_map x.Start x.Data x.Data.length []

theorem mem_slicesList (x : BitmapIndex) (v : Int) :
    v ∈ slicesList x ↔ ∃ u, u ∈ slicesListZ x ∧ wrap64 u = v := by
  rw [slicesList_eq_map, List.mem_map]

theorem slicesList_eq_nil_iff (x : BitmapIndex) : slicesList x = [] ↔ slicesListZ x = [] := by
  rw [slicesList_eq_map, List.map_eq_nil_iff]

theorem slicesList_eq_of_bounds (x : BitmapIndex)
    (h : ∀ u ∈ slicesListZ x, -(2 : Int) ^ 63 ≤ u ∧ u < 2 ^ 63) :
    slicesList x = slicesListZ x := by
  rw [slicesList_eq_map]
  conv_rhs => rw [← List.map_id (slicesListZ x)]
  apply List.map_congr_left
  intro u hu
  exact wrap64_of_range u (h u hu).1 (h u hu).2

/-! ## `NewBitmapIndex` -/

theorem testBit_foldl_or (c : Int) : ∀ (s : List Int) (acc m : Nat),
    (s.foldl (fun b sv => b ||| (1 <<< toUint (sv - c))) acc).testBit m = true ↔
      acc.testBit m = true ∨ ∃ sv ∈ s, toUint (sv - c) = m := by
  intro s
  induction s with
  | nil => intro acc m; simp
  | cons a s ih =>
    intro acc m
    rw [List.foldl_cons, ih, Nat.testBit_or, Nat.one_shiftLeft, Nat.testBit_two_pow]
    simp only [Bool.or_eq_true, decide_eq_true_eq, List.mem_cons, exists_eq_or_imp]
    tauto

theorem toUint_of_nonneg (x : Int) (h0 : 0 ≤ x) (h1 : x < 2 ^ 63) : ((toUint x : Nat) : Int) = x := by
  unfold toUint
  have : x % 2 ^ 64 = x := Int.emod_eq_of_lt h0 (by omega)
  rw [this]
  omega

theorem sorted_head_le (s : List Int) (hs : s.Sorted (fun a b => a ≤ b)) :
    ∀ x ∈ s, s.headD 0 ≤ x := by
  cases s with
  | nil => intro x hx; cases hx
  | cons a l =>
    intro x hx
    rcases List.mem_cons.mp hx with h | h
    · subst h; simp
    · exact List.rel_of_sorted_cons hs x h

theorem headD_mem (s : List Int) (hs : s ≠ []) : s.headD 0 ∈ s := by
  cases s with
  | nil => exact absurd rfl hs
  | cons a l => simp

/-- Membership in the decoded list of a built index, before the sort is unfolded. -/
theorem mem_slices_built (s : List Int) (hne : s ≠ []) (hs : ∀ x ∈ s, IsNonNegInt x)
    (hmin : ∀ x ∈ s, s.headD 0 ≤ x) (stop : Int) (v : Int) :
    v ∈ slicesListZ ⟨bigBytes (s.foldl
        (fun b sv => b ||| (1 <<< toUint (sv - (s.headD 0).tdiv 8 * 8))) 0), [],
        (s.headD 0).tdiv 8, stop⟩ ↔ v ∈ s := by
  have hh := hs _ (headD_mem s hne)
  have hdiv : (s.headD 0).tdiv 8 = s.headD 0 / 8 := Int.tdiv_eq_ediv hh.1 (by norm_num)
  rw [hdiv]
  generalize hb : s.foldl (fun b sv => b ||| (1 <<< toUint (sv - s.headD 0 / 8 * 8))) 0 = b
  have hbit : ∀ m, b.testBit m = true ↔ ∃ sv ∈ s, toUint (sv - s.headD 0 / 8 * 8) = m := by
    intro m
    rw [← hb, testBit_foldl_or]
    simp
  have hoff : ∀ sv ∈ s, ((toUint (sv - s.headD 0 / 8 * 8) : Nat) : Int) = sv - s.headD 0 / 8 * 8 := by
    intro sv hsv
    have h1 := hmin sv hsv
    have h2 := hs sv hsv
    apply toUint_of_nonneg
    · omega
    · have h3 := h2.2
      have h4 := hh.1
      omega
  rw [mem_slicesListZ]
  simp only
  constructor
  · rintro ⟨i, j, hi, hj, ht, rfl⟩
    rw [bigBytes_getD b i hi, testBit_byte _ _ _ hj, hbit] at ht
    obtain ⟨sv, hsv, he⟩ := ht
    have := hoff sv hsv
    have e : s.headD 0 / 8 * 8 + (((j + ((bigBytes b).length - i - 1) * 8 : Nat)) : Int) = sv := by
      have e2 : (bigBytes b).length - i - 1 = (bigBytes b).length - 1 - i := by omega
      rw [e2]
      omega
    rw [e]
    exact hsv
  · intro hv
    have hm : b.testBit (toUint (v - s.headD 0 / 8 * 8)) = true := (hbit _).mpr ⟨v, hv, rfl⟩
    have hlt : toUint (v - s.headD 0 / 8 * 8) < 8 * (bigBytes b).length := by
      by_contra hge
      have h1 : b < 2 ^ (toUint (v - s.headD 0 / 8 * 8)) := by
        calc b < 256 ^ (bigBytes b).length := bigBytes_lt b
          _ = 2 ^ (8 * (bigBytes b).length) := by
              rw [show (256 : Nat) = 2 ^ 8 by norm_num, ← pow_mul]
          _ ≤ 2 ^ (toUint (v - s.headD 0 / 8 * 8)) :=
              Nat.pow_le_pow_right (by norm_num) (Nat.le_of_not_lt hge)
      rw [Nat.testBit_lt_two_pow h1] at hm
      exact Bool.noConfusion hm
    have ho := hoff v hv
    generalize toUint (v - s.headD 0 / 8 * 8) = m at hm hlt ho
    refine ⟨(bigBytes b).length - 1 - m / 8, m % 8, by omega, Nat.mod_lt _ (by norm_num), ?_, ?_⟩
    · rw [bigBytes_getD b _ (by omega), testBit_byte _ _ _ (Nat.mod_lt _ (by norm_num))]
      have e : 8 * ((bigBytes b).length - 1 - ((bigBytes b).length - 1 - m / 8)) + m % 8 = m := by
        omega
      rw [e]
      exact hm
    · omega

theorem built_data_ne_nil (s : List Int) (hne : s ≠ []) (c : Int) :
    bigBytes (s.foldl (fun b sv => b ||| (1 <<< toUint (sv - c))) 0) ≠ [] := by
  apply bigBytes_ne_nil
  intro h0
  obtain ⟨a, l, rfl⟩ := List.exists_cons_of_ne_nil hne
  have := (testBit_foldl_or c (a :: l) 0 (toUint (a - c))).mpr (Or.inr ⟨a, by simp, rfl⟩)
  rw [h0] at this
  simp at this

theorem toUint_offset (sv y : Int) : toUint (wrap64 (sv - wrap64 y)) = toUint (sv - y) := by
  unfold toUint wrap64
  congr 1
  omega

theorem lshOne_of_fits (s : Nat) (h : LshFits s) : lshOne s = .ok (1 <<< s) := by
  unfold lshOne
  unfold LshFits at h
  rw [if_pos h]

theorem buildLoop_eq (start : Int) : ∀ (s : List Int) (b : Nat),
    (∀ sv ∈ s, LshFits (toUint (sv - start * 8))) →
    buildLoop start s b
      = .ok (s.foldl (fun b sv => b ||| (1 <<< toUint (sv - start * 8))) b) := by
  intro s
  induction s with
  | nil => intro b _; rfl
  | cons a s ih =>
    intro b h
    rw [buildLoop]
    simp only [toUint_offset]
    rw [lshOne_of_fits _ (h a (List.mem_cons_self a s))]
    simp only [bind, Except.bind]
    rw [ih _ (fun sv hsv => h sv (List.mem_cons_of_mem a hsv)), List.foldl_cons]

/-- Every pair of values of `S` leaves a shift that `Lsh` can carry out. -/
theorem fits_of_pairs (S : List Int) (hS : ∀ x ∈ S, IsNonNegInt x)
    (hfit : ∀ x ∈ S, ∀ y ∈ S, LshFits (y - x / 8 * 8).toNat) (mn : Int) (hmn : mn ∈ S)
    (hmin : ∀ x ∈ S, mn ≤ x) :
    ∀ sv ∈ S, LshFits (toUint (sv - mn / 8 * 8)) := by
  intro sv hsv
  have h0 := (hS mn hmn).1
  have h1 := hmin sv hsv
  have h2 := (hS sv hsv).2
  have e : toUint (sv - mn / 8 * 8) = (sv - mn / 8 * 8).toNat := by
    have := toUint_of_nonneg (sv - mn / 8 * 8) (by omega) (by omega)
    omega
  rw [e]
  exact hfit mn hmn sv hsv

/-- What `NewBitmapIndex` returns on a non-empty collection of non-negative Go integers
whose shifts fit the allocator, with the sort left folded. -/
theorem NewBitmapIndex_eq (S : List Int) (hne : S ≠ []) (hS : ∀ x ∈ S, IsNonNegInt x)
    (hfit : ∀ x ∈ S, ∀ y ∈ S, LshFits (y - x / 8 * 8).toNat) :
    NewBitmapIndex S = .ok (some
      ⟨bigBytes ((S.insertionSort (fun a b => a ≤ b)).foldl
          (fun b sv => b ||| (1 <<< toUint
            (sv - ((S.insertionSort (fun a b => a ≤ b)).headD 0).tdiv 8 * 8))) 0), [],
        ((S.insertionSort (fun a b => a ≤ b)).headD 0).tdiv 8,
        ((S.insertionSort (fun a b => a ≤ b)).getLastD 0).tdiv 8⟩) := by
  have hlen : ¬ S.length = 0 := fun h => hne (List.length_eq_zero.mp h)
  have hperm := List.perm_insertionSort (fun a b : Int => a ≤ b) S
  have hsorted := List.sorted_insertionSort (fun a b : Int => a ≤ b) S
  have hne2 : S.insertionSort (fun a b => a ≤ b) ≠ [] := by
    intro h
    rw [h] at hperm
    exact hne (List.Perm.eq_nil hperm.symm)
  have hhead := hperm.mem_iff.mp (headD_mem _ hne2)
  have hmin : ∀ x ∈ S, (S.insertionSort (fun a b => a ≤ b)).headD 0 ≤ x :=
    fun x hx => sorted_head_le _ hsorted x (hperm.mem_iff.mpr hx)
  have d1 : ((S.insertionSort (fun a b => a ≤ b)).headD 0).tdiv 8
      = (S.insertionSort (fun a b => a ≤ b)).headD 0 / 8 :=
    Int.tdiv_eq_ediv (hS _ hhead).1 (by norm_num)
  have hall : ∀ sv ∈ S.insertionSort (fun a b => a ≤ b),
      LshFits (toUint (sv - ((S.insertionSort (fun a b => a ≤ b)).headD 0).tdiv 8 * 8)) := by
    intro sv hsv
    rw [d1]
    exact fits_of_pairs S hS hfit _ hhead hmin sv (hperm.mem_iff.mp hsv)
  unfold NewBitmapIndex
  rw [if_neg hlen]
  simp only [bind, Except.bind]
  rw [buildLoop_eq _ _ 0 hall]
  rfl

/-- C1 fails as stated: on the non-empty collection `[0, 2^62]` of non-negative integers
the shift by `2^62` is refused by the allocator, so `NewBitmapIndex` aborts and nothing is
decoded. -/
theorem C1_build_aborts_counterexample :
    ([0, 2 ^ 62] : List Int) ≠ [] ∧ (∀ x ∈ ([0, 2 ^ 62] : List Int), IsNonNegInt x) ∧
    NewBitmapIndex [0, 2 ^ 62] = .error (.crash .makeLength) ∧
    (NewBitmapIndex [0, 2 ^ 62]).bind Slices = .error (.crash .makeLength) := by
  refine ⟨by decide, by unfold IsNonNegInt; decide, by decide, by decide⟩

/-- C1, amended. Build then decode: for a non-empty collection `S` of non-negative Go
integers in which every pair of values leaves a shift that the allocator grants,
`NewBitmapIndex S` returns an index on which `Slices` returns the elements of `S` sorted
ascending with duplicates removed. -/
theorem C1_build_decode_roundtrip (S : List Int) (hne : S ≠ [])
    (hS : ∀ x ∈ S, IsNonNegInt x)
    (hfit : ∀ x ∈ S, ∀ y ∈ S, LshFits (y - x / 8 * 8).toNat) :
    ∃ x, NewBitmapIndex S = .ok (some x) ∧
      Slices (some x) = .ok (S.dedup.insertionSort (fun a b => a ≤ b)) := by
  have hperm := List.perm_insertionSort (fun a b : Int => a ≤ b) S
  have hsorted := List.sorted_insertionSort (fun a b : Int => a ≤ b) S
  have hne2 : S.insertionSort (fun a b => a ≤ b) ≠ [] := by
    intro h
    rw [h] at hperm
    exact hne (List.Perm.eq_nil hperm.symm)
  refine ⟨_, NewBitmapIndex_eq S hne hS hfit, ?_⟩
  have hmemZ := mem_slices_built _ hne2 (fun x hx => hS x (hperm.mem_iff.mp hx))
    (sorted_head_le _ hsorted) (((S.insertionSort (fun a b => a ≤ b)).getLastD 0).tdiv 8)
  simp only [Slices]
  rw [if_neg (by
    have := built_data_ne_nil _ hne2
      (((S.insertionSort (fun a b => a ≤ b)).headD 0).tdiv 8 * 8)
    have := List.length_pos.mpr this
    omega)]
  congr 1
  rw [slicesList_eq_of_bounds _ (by
    intro u hu
    have h := hS u (hperm.mem_iff.mp ((hmemZ u).mp hu))
    exact ⟨by have := h.1; omega, h.2⟩)]
  apply List.eq_of_perm_of_sorted (r := fun a b : Int => a ≤ b)
  · apply (List.perm_ext_iff_of_nodup (sorted_slicesListZ _).nodup ?_).mpr
    · intro v
      rw [hmemZ v, hperm.mem_iff, (List.perm_insertionSort _ _).mem_iff, List.mem_dedup]
    · exact (List.perm_insertionSort _ _).nodup_iff.mpr (List.nodup_dedup S)
  · exact (sorted_slicesListZ _).imp (fun h => le_of_lt h)
  · exact List.sorted_insertionSort _ _

/-- C1, amended, at the collection `[18, 3, 10, 3]`. -/
theorem C1_build_decode_roundtrip_witness :
    NewBitmapIndex [18, 3, 10, 3] = .ok (some ⟨[4, 4, 8], [], 0, 2⟩) ∧
    Slices (some ⟨[4, 4, 8], [], 0, 2⟩) = .ok [3, 10, 18] ∧
    ∃ x, NewBitmapIndex [18, 3, 10, 3] = .ok (some x) ∧ Slices (some x) = .ok [3, 10, 18] :=
  ⟨by decide, by decide,
    C1_build_decode_roundtrip [18, 3, 10, 3] (by decide) (by unfold IsNonNegInt; decide)
      (by unfold LshFits maxAlloc; decide)⟩

/-! ## Slice primitives -/

theorem getD_take_drop (xs : List Nat) (lo hi i : Nat) (h : lo + i < hi) :
    ((xs.take hi).drop lo).getD i 0 = xs.getD (lo + i) 0 := by
  simp only [List.getD_eq_getElem?_getD, List.getElem?_drop, List.getElem?_take]
  rw [if_pos h]

theorem length_take_drop (xs : List Nat) (lo hi : Nat) (h : hi ≤ xs.length) :
    ((xs.take hi).drop lo).length = hi - lo := by
  simp [List.length_drop, List.length_take, Nat.min_eq_left h]

theorem getD_set (xs : List Nat) (i p v : Nat) :
    (xs.set i v).getD p 0 = if p = i ∧ i < xs.length then v else xs.getD p 0 := by
  simp only [List.getD_eq_getElem?_getD, List.getElem?_set]
  by_cases h : i = p
  · subst h
    by_cases h2 : i < xs.length
    · simp [h2]
    · simp [h2, List.getElem?_eq_none (Nat.le_of_not_lt h2)]
  · have h' : ¬ p = i := fun e => h e.symm
    simp [h, h']

theorem getD_replicate_zero (n p : Nat) : (List.replicate n 0).getD p 0 = 0 := by
  simp only [List.getD_eq_getElem?_getD, List.getElem?_replicate]
  split <;> rfl

theorem getD_of_le (xs : List Nat) (p : Nat) (h : xs.length ≤ p) : xs.getD p 0 = 0 := by
  simp [List.getD_eq_getElem?_getD, List.getElem?_eq_none h]

theorem length_overwrite : ∀ (dst : List Nat) (lo : Nat) (src : List Nat),
    (overwrite dst lo src).length = dst.length := by
  intro dst
  induction dst with
  | nil => intro lo src; simp [overwrite]
  | cons d ds ih =>
    intro lo src
    cases lo with
    | zero =>
      cases src with
      | nil => simp [overwrite]
      | cons s ss => simp [overwrite, ih]
    | succ lo => simp [overwrite, ih]

theorem getD_overwrite : ∀ (dst : List Nat) (lo : Nat) (src : List Nat) (p : Nat),
    (overwrite dst lo src).getD p 0 =
      if lo ≤ p ∧ p < lo + src.length ∧ p < dst.length then src.getD (p - lo) 0
      else dst.getD p 0 := by
  intro dst
  induction dst with
  | nil =>
    intro lo src p
    simp [overwrite]
  | cons d ds ih =>
    intro lo src p
    cases lo with
    | zero =>
      cases src with
      | nil => simp [overwrite]
      | cons s ss =>
        cases p with
        | zero => simp [overwrite]
        | succ p =>
          simp only [overwrite, List.getD_cons_succ, ih, List.length_cons]
          simp
    | succ lo =>
      cases p with
      | zero => simp [overwrite]
      | succ p =>
        simp only [overwrite, List.getD_cons_succ, ih, List.length_cons]
        simp only [Nat.add_lt_add_iff_right, Nat.succ_le_succ_iff, Nat.succ_sub_succ]
        have e : lo + 1 + src.length = lo + src.length + 1 := by omega
        rw [e]
        simp only [Nat.add_lt_add_iff_right]

theorem index_eq (xs : List Nat) (i : Nat) (h : i < xs.length) :
    index xs (i : Int) = .ok (xs.getD i 0) := by
  unfold index
  rw [if_pos (by omega)]
  simp

theorem setAt_eq (xs : List Nat) (i : Nat) (v : Nat) (h : i < xs.length) :
    setAt xs (i : Int) v = .ok (xs.set i v) := by
  unfold setAt
  rw [if_pos (by omega)]
  simp

/-! ## The byte loops of `And`, `Not` and `Or` -/

theorem and_eq_zero_of_not_pos (b1 b2 : Nat) (h : ¬ (b1 > 0 ∧ b2 > 0)) : b1 &&& b2 = 0 := by
  by_cases h1 : b1 > 0
  · have : b2 = 0 := by
      by_contra h2
      exact h ⟨h1, Nat.pos_of_ne_zero h2⟩
    subst this
    simp
  · have : b1 = 0 := Nat.eq_zero_of_not_pos h1
    subst this
    simp

theorem andLoop_step (data2 : List Nat) (b1 : Nat) (rest : List Nat) (i : Nat) (buf : List Nat)
    (m : Bool) (h2 : i < data2.length) (hb : i < buf.length) :
    andLoop data2 (b1 :: rest) i buf m
      = andLoop data2 rest (i + 1) (buf.set i (b1 &&& data2.getD i 0))
          (m || decide (b1 &&& data2.getD i 0 > 0)) := by
  rw [andLoop, index_eq data2 i h2]
  simp only [bind, Except.bind]
  by_cases hc : b1 > 0 ∧ data2.getD i 0 > 0
  · rw [if_pos hc]
    by_cases h3 : b1 &&& data2.getD i 0 > 0
    · rw [if_pos h3, setAt_eq buf i _ hb]
      have hd : decide (b1 &&& data2.getD i 0 > 0) = true := decide_eq_true h3
      rw [hd, Bool.or_true]
    · rw [if_neg h3, setAt_eq buf i _ hb]
      have h0 : b1 &&& data2.getD i 0 = 0 := Nat.eq_zero_of_not_pos h3
      have hd : decide (b1 &&& data2.getD i 0 > 0) = false := decide_eq_false h3
      rw [hd, Bool.or_false, h0]
  · rw [if_neg hc, setAt_eq buf i _ hb]
    have h0 := and_eq_zero_of_not_pos _ _ hc
    have hd : decide (b1 &&& data2.getD i 0 > 0) = false :=
      decide_eq_false (by rw [h0]; exact Nat.lt_irrefl 0)
    rw [hd, Bool.or_false, h0]

theorem andLoop_spec (data2 : List Nat) :
    ∀ (rest : List Nat) (i : Nat) (buf : List Nat) (m : Bool),
      i + rest.length ≤ data2.length → i + rest.length ≤ buf.length →
      ∃ out flag, andLoop data2 rest i buf m = .ok (out, flag) ∧ out.length = buf.length ∧
        (∀ p, out.getD p 0 =
          if i ≤ p ∧ p < i + rest.length then rest.getD (p - i) 0 &&& data2.getD p 0
          else buf.getD p 0) ∧
        (flag = true ↔
          m = true ∨ ∃ t, t < rest.length ∧ rest.getD t 0 &&& data2.getD (i + t) 0 > 0) := by
  intro rest
  induction rest with
  | nil =>
    intro i buf m _ _
    refine ⟨buf, m, by simp [andLoop], rfl, ?_, by simp⟩
    intro p
    rw [if_neg (by simp only [List.length_nil]; omega)]
  | cons b1 rest ih =>
    intro i buf m h2 hb
    simp only [List.length_cons] at h2 hb
    rw [andLoop_step data2 b1 rest i buf m (by omega) (by omega)]
    obtain ⟨out, flag, he, hl, hg, hf⟩ := ih (i + 1) (buf.set i (b1 &&& data2.getD i 0))
      (m || decide (b1 &&& data2.getD i 0 > 0)) (by omega) (by simp only [List.length_set]; omega)
    refine ⟨out, flag, he, by rw [hl, List.length_set], ?_, ?_⟩
    · intro p
      rw [hg p, getD_set]
      simp only [List.length_cons]
      by_cases hp : p = i
      · subst hp
        rw [if_neg (by omega), if_pos ⟨rfl, by omega⟩, if_pos (by omega)]
        simp
      · by_cases hq : i + 1 ≤ p ∧ p < i + 1 + rest.length
        · rw [if_pos hq, if_pos (by omega)]
          have e : p - i = (p - (i + 1)) + 1 := by omega
          rw [e, List.getD_cons_succ]
        · rw [if_neg hq, if_neg (by omega), if_neg (by omega)]
    · rw [hf]
      simp only [Bool.or_eq_true, decide_eq_true_eq, List.length_cons]
      constructor
      · rintro ((h | h) | ⟨t, ht, hh⟩)
        · exact Or.inl h
        · exact Or.inr ⟨0, by omega, by simpa using h⟩
        · refine Or.inr ⟨t + 1, by omega, ?_⟩
          rw [List.getD_cons_succ]
          have e : i + (t + 1) = i + 1 + t := by omega
          rw [e]
          exact hh
      · rintro (h | ⟨t, ht, hh⟩)
        · exact Or.inl (Or.inl h)
        · cases t with
          | zero => exact Or.inl (Or.inr (by simpa using hh))
          | succ t =>
            refine Or.inr ⟨t, by omega, ?_⟩
            rw [List.getD_cons_succ] at hh
            have e : i + (t + 1) = i + 1 + t := by omega
            rw [e] at hh
            exact hh

theorem orLoop_step (data2 : List Nat) (base : Nat) (b1 : Nat) (rest : List Nat) (i : Nat)
    (buf : List Nat) (h2 : i < data2.length) (hb : base + i < buf.length) :
    orLoop data2 (base : Int) (b1 :: rest) i buf
      = orLoop data2 (base : Int) rest (i + 1)
          (if b1 > 0 ∨ data2.getD i 0 > 0 then buf.set (base + i) (b1 ||| data2.getD i 0)
           else buf) := by
  rw [orLoop, index_eq data2 i h2]
  simp only [bind, Except.bind]
  have e : ((base : Int) + (i : Int)) = ((base + i : Nat) : Int) := by push_cast; rfl
  by_cases hc : b1 > 0 ∨ data2.getD i 0 > 0
  · rw [if_pos hc, if_pos hc, e, setAt_eq buf (base + i) _ hb]
  · rw [if_neg hc, if_neg hc]

theorem orLoop_spec (data2 : List Nat) (base : Nat) :
    ∀ (rest : List Nat) (i : Nat) (buf : List Nat),
      i + rest.length ≤ data2.length → base + i + rest.length ≤ buf.length →
      ∃ out, orLoop data2 (base : Int) rest i buf = .ok out ∧ out.length = buf.length ∧
        (∀ p, out.getD p 0 =
          if base + i ≤ p ∧ p < base + i + rest.length ∧
              (rest.getD (p - base - i) 0 > 0 ∨ data2.getD (p - base) 0 > 0) then
            rest.getD (p - base - i) 0 ||| data2.getD (p - base) 0
          else buf.getD p 0) := by
  intro rest
  induction rest with
  | nil =>
    intro i buf _ _
    refine ⟨buf, by simp [orLoop], rfl, ?_⟩
    intro p
    rw [if_neg (by simp only [List.length_nil]; omega)]
  | cons b1 rest ih =>
    intro i buf h2 hb
    simp only [List.length_cons] at h2 hb
    rw [orLoop_step data2 base b1 rest i buf (by omega) (by omega)]
    obtain ⟨out, he, hl, hg⟩ := ih (i + 1)
      (if b1 > 0 ∨ data2.getD i 0 > 0 then buf.set (base + i) (b1 ||| data2.getD i 0) else buf)
      (by omega) (by split <;> first | (simp only [List.length_set]; omega) | omega)
    refine ⟨out, he, by rw [hl]; split <;> simp only [List.length_set], ?_⟩
    intro p
    rw [hg p]
    simp only [List.length_cons]
    by_cases hp : p = base + i
    · subst hp
      rw [if_neg (by omega)]
      have e1 : base + i - base - i = 0 := by omega
      have e2 : base + i - base = i := by omega
      rw [e1, e2, List.getD_cons_zero]
      by_cases hc : b1 > 0 ∨ data2.getD i 0 > 0
      · rw [if_pos hc, if_pos ⟨le_refl _, by omega, hc⟩, getD_set, if_pos ⟨rfl, by omega⟩]
      · rw [if_neg hc, if_neg (fun h => hc h.2.2)]
    · have hbuf : (if b1 > 0 ∨ data2.getD i 0 > 0 then
          buf.set (base + i) (b1 ||| data2.getD i 0) else buf).getD p 0 = buf.getD p 0 := by
        split
        · rw [getD_set, if_neg (fun h => hp h.1)]
        · rfl
      rw [hbuf]
      by_cases hq : base + (i + 1) ≤ p ∧ p < base + (i + 1) + rest.length
      · have e : p - base - i = (p - base - (i + 1)) + 1 := by omega
        rw [e, List.getD_cons_succ]
        by_cases hc : rest.getD (p - base - (i + 1)) 0 > 0 ∨ data2.getD (p - base) 0 > 0
        · rw [if_pos ⟨hq.1, hq.2, hc⟩, if_pos ⟨by omega, by omega, hc⟩]
        · rw [if_neg (fun h => hc h.2.2), if_neg (fun h => hc h.2.2)]
      · rw [if_neg (fun h => hq ⟨h.1, h.2.1⟩), if_neg (fun h => hq ⟨by omega, by omega⟩)]

theorem operandByte_none (odata : List Nat) (lo : Int) (n : Nat) (buf : List Nat) (i : Nat)
    (h : i < n) :
    operandByte none odata lo n buf i = .ok (odata.getD (lo + i).toNat 0) := by
  unfold operandByte
  rw [if_pos h]

theorem operandByte_ok (shared : Option Int) (odata : List Nat) (lo : Int) (n : Nat)
    (buf : List Nat) (i : Nat) (h : i < n) :
    ∃ b, operandByte shared odata lo n buf i = .ok b := by
  unfold operandByte
  rw [if_pos h]
  cases shared with
  | none => exact ⟨_, rfl⟩
  | some d =>
    simp only
    split
    · exact ⟨_, rfl⟩
    · exact ⟨_, rfl⟩

theorem notLoop_step (read : List Nat → Nat → Except Fail Nat) (base : Nat) (b1 b2 : Nat)
    (rest : List Nat) (i : Nat) (buf : List Nat) (hr : read buf i = .ok b2)
    (hb : base + i < buf.length) :
    notLoop read (base : Int) (b1 :: rest) i buf
      = notLoop read (base : Int) rest (i + 1)
          (if b1 > 0 ∧ b2 > 0 then buf.set (base + i) (andNot b1 b2) else buf) := by
  rw [notLoop, hr]
  simp only [bind, Except.bind]
  have e : ((base : Int) + (i : Int)) = ((base + i : Nat) : Int) := by push_cast; rfl
  by_cases hc : b1 > 0 ∧ b2 > 0
  · rw [if_pos hc, if_pos hc, e, setAt_eq buf (base + i) _ hb]
  · rw [if_neg hc, if_neg hc]

/-- The loop of `Not` returns, whatever the memory relation of the operands, and keeps the
length of the receiver's data. -/
theorem notLoop_length (read : List Nat → Nat → Except Fail Nat) (base : Nat) :
    ∀ (rest : List Nat) (i : Nat) (buf : List Nat),
      (∀ (m : List Nat) (t : Nat), t < i + rest.length → ∃ b, read m t = .ok b) →
      base + i + rest.length ≤ buf.length →
      ∃ out, notLoop read (base : Int) rest i buf = .ok out ∧ out.length = buf.length := by
  intro rest
  induction rest with
  | nil =>
    intro i buf _ _
    exact ⟨buf, by simp [notLoop], rfl⟩
  | cons b1 rest ih =>
    intro i buf hread hb
    simp only [List.length_cons] at hread hb
    obtain ⟨b2, hb2⟩ := hread buf i (by omega)
    rw [notLoop_step read base b1 b2 rest i buf hb2 (by omega)]
    obtain ⟨out, he, hl⟩ := ih (i + 1)
      (if b1 > 0 ∧ b2 > 0 then buf.set (base + i) (andNot b1 b2) else buf)
      (fun m t ht => hread m t (by omega))
      (by split <;> first | (simp only [List.length_set]; omega) | omega)
    refine ⟨out, he, ?_⟩
    rw [hl]
    split
    · simp only [List.length_set]
    · rfl

theorem notLoop_spec (read : List Nat → Nat → Except Fail Nat) (data2 : List Nat)
    (hread : ∀ (m : List Nat) (t : Nat), t < data2.length → read m t = .ok (data2.getD t 0))
    (base : Nat) :
    ∀ (rest : List Nat) (i : Nat) (buf : List Nat),
      i + rest.length ≤ data2.length → base + i + rest.length ≤ buf.length →
      ∃ out, notLoop read (base : Int) rest i buf = .ok out ∧ out.length = buf.length ∧
        (∀ p, out.getD p 0 =
          if base + i ≤ p ∧ p < base + i + rest.length ∧
              (rest.getD (p - base - i) 0 > 0 ∧ data2.getD (p - base) 0 > 0) then
            andNot (rest.getD (p - base - i) 0) (data2.getD (p - base) 0)
          else buf.getD p 0) := by
  intro rest
  induction rest with
  | nil =>
    intro i buf _ _
    refine ⟨buf, by simp [notLoop], rfl, ?_⟩
    intro p
    rw [if_neg (by simp only [List.length_nil]; omega)]
  | cons b1 rest ih =>
    intro i buf h2 hb
    simp only [List.length_cons] at h2 hb
    rw [notLoop_step read base b1 (data2.getD i 0) rest i buf (hread buf i (by omega))
      (by omega)]
    obtain ⟨out, he, hl, hg⟩ := ih (i + 1)
      (if b1 > 0 ∧ data2.getD i 0 > 0 then buf.set (base + i) (andNot b1 (data2.getD i 0))
        else buf)
      (by omega) (by split <;> first | (simp only [List.length_set]; omega) | omega)
    refine ⟨out, he, by rw [hl]; split <;> simp only [List.length_set], ?_⟩
    intro p
    rw [hg p]
    simp only [List.length_cons]
    by_cases hp : p = base + i
    · subst hp
      rw [if_neg (by omega)]
      have e1 : base + i - base - i = 0 := by omega
      have e2 : base + i - base = i := by omega
      rw [e1, e2, List.getD_cons_zero]
      by_cases hc : b1 > 0 ∧ data2.getD i 0 > 0
      · rw [if_pos hc, if_pos ⟨le_refl _, by omega, hc⟩, getD_set, if_pos ⟨rfl, by omega⟩]
      · rw [if_neg hc, if_neg (fun h => hc h.2.2)]
    · have hbuf : (if b1 > 0 ∧ data2.getD i 0 > 0 then
          buf.set (base + i) (andNot b1 (data2.getD i 0)) else buf).getD p 0 = buf.getD p 0 := by
        split
        · rw [getD_set, if_neg (fun h => hp h.1)]
        · rfl
      rw [hbuf]
      by_cases hq : base + (i + 1) ≤ p ∧ p < base + (i + 1) + rest.length
      · have e : p - base - i = (p - base - (i + 1)) + 1 := by omega
        rw [e, List.getD_cons_succ]
        by_cases hc : rest.getD (p - base - (i + 1)) 0 > 0 ∧ data2.getD (p - base) 0 > 0
        · rw [if_pos ⟨hq.1, hq.2, hc⟩, if_pos ⟨by omega, by omega, hc⟩]
        · rw [if_neg (fun h => hc h.2.2), if_neg (fun h => hc h.2.2)]
      · rw [if_neg (fun h => hq ⟨h.1, h.2.1⟩), if_neg (fun h => hq ⟨by omega, by omega⟩)]

/-! ## `And` on well-formed operands -/

theorem slice_ok (xs : List Nat) (lo hi : Int) (h : 0 ≤ lo ∧ lo ≤ hi ∧ hi ≤ (xs.length : Int)) :
    slice xs lo hi = .ok ((xs.take hi.toNat).drop lo.toNat) := by
  unfold slice
  rw [if_pos h]

theorem makeBytes_ok (n : Int) (h : 0 ≤ n) : makeBytes n = .ok (List.replicate n.toNat 0) := by
  unfold makeBytes
  rw [if_pos h]

theorem copyInto_ok (dst : List Nat) (lo hi : Int) (src : List Nat)
    (h : 0 ≤ lo ∧ lo ≤ hi ∧ hi ≤ (dst.length : Int)) :
    copyInto dst lo hi src = .ok (overwrite dst lo.toNat (src.take (hi - lo).toNat)) := by
  unfold copyInto
  rw [if_pos h]

theorem blockByte_of_mem (x : BitmapIndex) (k : Int) (h : x.Start ≤ k ∧ k ≤ x.End) :
    blockByte x k = x.Data.getD (x.End - k).toNat 0 := by
  unfold blockByte
  rw [if_pos h]

theorem blockByte_of_not_mem (x : BitmapIndex) (k : Int) (h : ¬ (x.Start ≤ k ∧ k ≤ x.End)) :
    blockByte x k = 0 := by
  unfold blockByte
  rw [if_neg h]

/-- Bytes of the overlap window `[start, stop]` of a well-formed index. -/
theorem window_spec (x : BitmapIndex) (hx : WellFormed x) (start stop : Int)
    (h1 : x.Start ≤ start) (h2 : start ≤ stop) (h3 : stop ≤ x.End) :
    ∃ w, slice x.Data (x.End - stop) ((x.Data.length : Int) - (start - x.Start)) = .ok w ∧
      w.length = (stop - start + 1).toNat ∧
      ∀ p, p < w.length → w.getD p 0 = blockByte x (stop - p) := by
  obtain ⟨hx1, hx2⟩ := hx
  refine ⟨_, slice_ok _ _ _ (by omega), ?_, ?_⟩
  · rw [length_take_drop _ _ _ (by omega)]
    omega
  · intro p hp
    rw [length_take_drop _ _ _ (by omega)] at hp
    rw [getD_take_drop _ _ _ _ (by omega), blockByte_of_mem _ _ (by omega)]
    congr 1
    omega

theorem And_spec (A B : BitmapIndex) (hA : WellFormed A) (hB : WellFormed B)
    (hov : ¬ (A.End < B.Start ∨ B.End < A.Start)) :
    ∃ r flag, Bitmap.And (some A) (some B) = .ok (if flag = true then some r else none) ∧
      r.Start = max A.Start B.Start ∧ r.End = min A.End B.End ∧ r.Ext = [] ∧ WellFormed r ∧
      (∀ k, blockByte r k = blockByte A k &&& blockByte B k) ∧
      (flag = true ↔ ∃ k, blockByte A k &&& blockByte B k > 0) := by
  have hs : (if A.Start < B.Start then B.Start else A.Start) = max A.Start B.Start := by
    split <;> omega
  have he : (if A.End < B.End then A.End else B.End) = min A.End B.End := by
    split <;> omega
  unfold Bitmap.And
  simp only [if_neg hov, hs, he]
  generalize hstart : max A.Start B.Start = start
  generalize hstop : min A.End B.End = stop
  have b1 : A.Start ≤ start := by omega
  have b2 : B.Start ≤ start := by omega
  have b3 : stop ≤ A.End := by omega
  have b4 : stop ≤ B.End := by omega
  have b5 : start ≤ stop := by
    have h1 := hA.1
    have h2 := hB.1
    omega
  obtain ⟨w1, hw1, hl1, hg1⟩ := window_spec A hA start stop b1 b5 b3
  obtain ⟨w2, hw2, hl2, hg2⟩ := window_spec B hB start stop b2 b5 b4
  rw [hw1, hw2, makeBytes_ok _ (by omega)]
  obtain ⟨out, flag, hrun, hlen, hget, hflag⟩ :=
    andLoop_spec w2 w1 0 (List.replicate (stop - start + 1).toNat 0) false
      (by omega) (by rw [List.length_replicate]; omega)
  simp only [bind, Except.bind, hrun, pure, Except.pure]
  rw [List.length_replicate] at hlen
  have hblock : ∀ k, blockByte ⟨out, [], start, stop⟩ k = blockByte A k &&& blockByte B k := by
    intro k
    by_cases hk : start ≤ k ∧ k ≤ stop
    · rw [blockByte_of_mem _ _ hk]
      simp only
      rw [hget, if_pos (by omega), Nat.sub_zero, hg1 _ (by omega), hg2 _ (by omega)]
      have e : stop - (((stop - k).toNat : Nat) : Int) = k := by omega
      rw [e]
    · rw [blockByte_of_not_mem _ _ hk]
      by_cases hkA : A.Start ≤ k ∧ k ≤ A.End
      · rw [blockByte_of_not_mem B k (by omega)]
        simp
      · rw [blockByte_of_not_mem A k hkA]
        simp
  refine ⟨⟨out, [], start, stop⟩, flag, ?_, rfl, rfl, rfl, ⟨b5, by simp only; omega⟩, hblock, ?_⟩
  · cases flag <;> simp
  · rw [hflag]
    simp only [Bool.false_eq_true, false_or, Nat.zero_add]
    constructor
    · rintro ⟨t, ht, hh⟩
      refine ⟨stop - t, ?_⟩
      rw [← hg1 t ht, ← hg2 t (by omega)]
      exact hh
    · rintro ⟨k, hk⟩
      have hin : start ≤ k ∧ k ≤ stop := by
        by_contra hn
        rw [← hblock k, blockByte_of_not_mem _ _ hn] at hk
        exact Nat.lt_irrefl 0 hk
      refine ⟨(stop - k).toNat, by omega, ?_⟩
      rw [hg1 _ (by omega), hg2 _ (by omega)]
      have e : stop - (((stop - k).toNat : Nat) : Int) = k := by omega
      rw [e]
      exact hk

/-! ## Decoded sets and blocks -/

theorem wf_data_pos (x : BitmapIndex) (hx : WellFormed x) : 0 < x.Data.length := by
  obtain ⟨h1, h2⟩ := hx
  omega

theorem Slices_of_wf (x : BitmapIndex) (hx : WellFormed x) :
    Slices (some x) = .ok (slicesList x) := by
  have := wf_data_pos x hx
  simp only [Slices]
  rw [if_neg (by omega)]

theorem getD_lt_of_isBytes (l : List Nat) (hl : IsBytes l) (i : Nat) : l.getD i 0 < 256 := by
  by_cases h : i < l.length
  · rw [List.getD_eq_getElem _ _ h]
    exact hl _ (List.getElem_mem h)
  · rw [getD_of_le _ _ (Nat.le_of_not_lt h)]
    norm_num

theorem blockByte_lt (x : BitmapIndex) (hx : IsBytes x.Data) (k : Int) : blockByte x k < 256 := by
  unfold blockByte
  split
  · exact getD_lt_of_isBytes _ hx _
  · norm_num

theorem mem_slicesListZ_block (x : BitmapIndex) (hx : WellFormed x) (v : Int)
    (h : v ∈ slicesListZ x) : x.Start ≤ v / 8 ∧ v / 8 ≤ x.End := by
  rw [mem_slicesListZ_iff x hx] at h
  by_contra hn
  rw [blockByte_of_not_mem _ _ hn] at h
  simp at h

theorem and_pos_iff_common (b1 b2 : Nat) (h1 : b1 < 256) :
    b1 &&& b2 > 0 ↔ ∃ j, j < 8 ∧ b1.testBit j = true ∧ b2.testBit j = true := by
  have hlt : b1 &&& b2 < 256 := lt_of_le_of_lt Nat.and_le_left h1
  rw [byte_pos_iff _ hlt]
  simp only [Nat.testBit_and, Bool.and_eq_true]

theorem common_block_iff (A B : BitmapIndex) (hA : WellFormed A) (hB : WellFormed B)
    (hbA : IsBytes A.Data) :
    (∃ k, blockByte A k &&& blockByte B k > 0) ↔ ∃ v, v ∈ slicesListZ A ∧ v ∈ slicesListZ B := by
  constructor
  · rintro ⟨k, hk⟩
    obtain ⟨j, hj, h1, h2⟩ := (and_pos_iff_common _ _ (blockByte_lt A hbA k)).mp hk
    refine ⟨k * 8 + j, ?_, ?_⟩
    · rw [mem_slicesListZ_iff A hA]
      have e1 : (k * 8 + (j : Int)) / 8 = k := by omega
      have e2 : ((k * 8 + (j : Int)) % 8).toNat = j := by omega
      rw [e1, e2]
      exact h1
    · rw [mem_slicesListZ_iff B hB]
      have e1 : (k * 8 + (j : Int)) / 8 = k := by omega
      have e2 : ((k * 8 + (j : Int)) % 8).toNat = j := by omega
      rw [e1, e2]
      exact h2
  · rintro ⟨v, h1, h2⟩
    rw [mem_slicesListZ_iff A hA] at h1
    rw [mem_slicesListZ_iff B hB] at h2
    refine ⟨v / 8, (and_pos_iff_common _ _ (blockByte_lt A hbA _)).mpr
      ⟨(v % 8).toNat, by omega, h1, h2⟩⟩

theorem makeSlice_ok (n : Int) (h : 0 ≤ n ∧ n ≤ (maxAlloc : Int)) :
    makeSlice n = .ok (List.replicate n.toNat 0) := by
  unfold makeSlice
  rw [if_pos h]

/-- Inside the 64-bit range no decoded value wraps. -/
theorem slicesList_of_range (x : BitmapIndex) (hx : WellFormed x) (hr : InRange64 x) :
    slicesList x = slicesListZ x := by
  apply slicesList_eq_of_bounds
  intro u hu
  have h := mem_slicesListZ_block x hx u hu
  obtain ⟨r1, r2⟩ := hr
  constructor <;> omega

theorem and_semantics (A B : BitmapIndex) (hA : WellFormed A) (hB : WellFormed B)
    (hbA : IsBytes A.Data) :
    ∃ o, Bitmap.And (some A) (some B) = .ok o ∧
      (o = none ↔ ¬ ∃ v, v ∈ slicesListZ A ∧ v ∈ slicesListZ B) ∧
      (∀ r, o = some r →
        r.Start = max A.Start B.Start ∧ r.End = min A.End B.End ∧ WellFormed r ∧
        ∀ v, v ∈ slicesListZ r ↔ v ∈ slicesListZ A ∧ v ∈ slicesListZ B) := by
  by_cases hov : A.End < B.Start ∨ B.End < A.Start
  · refine ⟨none, ?_, ?_, ?_⟩
    · unfold Bitmap.And
      simp only [if_pos hov]
    · simp only [true_iff]
      rintro ⟨v, h1, h2⟩
      have := mem_slicesListZ_block A hA v h1
      have := mem_slicesListZ_block B hB v h2
      omega
    · intro r hr
      cases hr
  · obtain ⟨r, flag, hrun, hs, he, _, hwf, hblock, hflag⟩ := And_spec A B hA hB hov
    refine ⟨_, hrun, ?_, ?_⟩
    · rw [← common_block_iff A B hA hB hbA, ← hflag]
      cases flag <;> simp
    · intro r2 hr2
      cases flag with
      | false => simp at hr2
      | true =>
        simp only [if_true, Option.some.injEq] at hr2
        subst hr2
        refine ⟨hs, he, hwf, ?_⟩
        intro v
        rw [mem_slicesListZ_iff r hwf, mem_slicesListZ_iff A hA, mem_slicesListZ_iff B hB, hblock,
          Nat.testBit_and, Bool.and_eq_true]

/-- C2 fails as stated: the well-formed indexes `A` (block 0) and `B` (block `2^61`) both
decode to `[0]`, because `2^61 * 8` wraps to 0 in 64-bit `int`, while their block ranges
do not overlap and `A.And(B)` is the sentinel. -/
theorem C2_and_wrap_counterexample :
    WellFormed ⟨[1], [], 0, 0⟩ ∧ WellFormed ⟨[1], [], 2 ^ 61, 2 ^ 61⟩ ∧
    Slices (some ⟨[1], [], 0, 0⟩) = .ok [0] ∧
    Slices (some ⟨[1], [], 2 ^ 61, 2 ^ 61⟩) = .ok [0] ∧
    Bitmap.And (some ⟨[1], [], 0, 0⟩) (some ⟨[1], [], 2 ^ 61, 2 ^ 61⟩) = .ok none := by
  refine ⟨by unfold WellFormed; decide, by unfold WellFormed; decide, by decide, by decide,
    by decide⟩

/-- C2, amended. `And` is set intersection on values that fit a 64-bit `int`: for
well-formed indexes `A` and `B` with `-2^63 ≤ Start*8` and `End*8+7 < 2^63`, `A.And(B)`
returns, and it is the sentinel exactly when the decoded sets share no value; otherwise the
result spans the overlap range `[max Start, min End]` and decodes to the intersection of the
two decoded sets. -/
theorem C2_and_is_intersection (A B : BitmapIndex) (hA : WellFormed A) (hB : WellFormed B)
    (hbA : IsBytes A.Data) (rA : InRange64 A) (rB : InRange64 B) :
    Slices (some A) = .ok (slicesList A) ∧ Slices (some B) = .ok (slicesList B) ∧
    ∃ o, Bitmap.And (some A) (some B) = .ok o ∧
      (o = none ↔ ¬ ∃ v, v ∈ slicesList A ∧ v ∈ slicesList B) ∧
      (∀ r, o = some r →
        r.Start = max A.Start B.Start ∧ r.End = min A.End B.End ∧
        ∃ l, Slices (some r) = .ok l ∧ ∀ v, v ∈ l ↔ v ∈ slicesList A ∧ v ∈ slicesList B) := by
  refine ⟨Slices_of_wf A hA, Slices_of_wf B hB, ?_⟩
  rw [slicesList_of_range A hA rA, slicesList_of_range B hB rB]
  obtain ⟨o, ho, hnone, hsome⟩ := and_semantics A B hA hB hbA
  refine ⟨o, ho, hnone, ?_⟩
  intro r hr
  obtain ⟨hs, he, hwf, hmem⟩ := hsome r hr
  have rr : InRange64 r := by
    obtain ⟨a1, a2⟩ := rA
    unfold InRange64
    rw [hs, he]
    constructor <;> omega
  refine ⟨hs, he, slicesList r, Slices_of_wf r hwf, ?_⟩
  rw [slicesList_of_range r hwf rr]
  exact hmem

/-- C2, amended, at `NewBitmapIndex [3, 10, 18]` and `NewBitmapIndex [10, 20]`: the
intersection decodes to `[10]`. -/
theorem C2_and_is_intersection_witness :
    NewBitmapIndex [3, 10, 18] = .ok (some ⟨[4, 4, 8], [], 0, 2⟩) ∧
    NewBitmapIndex [10, 20] = .ok (some ⟨[16, 4], [], 1, 2⟩) ∧
    Bitmap.And (some ⟨[4, 4, 8], [], 0, 2⟩) (some ⟨[16, 4], [], 1, 2⟩)
      = .ok (some ⟨[0, 4], [], 1, 2⟩) ∧
    Slices (some ⟨[0, 4], [], 1, 2⟩) = .ok [10] ∧
    (Slices (some ⟨[4, 4, 8], [], 0, 2⟩) = .ok (slicesList ⟨[4, 4, 8], [], 0, 2⟩) ∧
      Slices (some ⟨[16, 4], [], 1, 2⟩) = .ok (slicesList ⟨[16, 4], [], 1, 2⟩) ∧
      ∃ o, Bitmap.And (some ⟨[4, 4, 8], [], 0, 2⟩) (some ⟨[16, 4], [], 1, 2⟩) = .ok o ∧
        (o = none ↔ ¬ ∃ v, v ∈ slicesList ⟨[4, 4, 8], [], 0, 2⟩ ∧
          v ∈ slicesList ⟨[16, 4], [], 1, 2⟩) ∧
        (∀ r, o = some r →
          r.Start = max (0 : Int) 1 ∧ r.End = min (2 : Int) 2 ∧
          ∃ l, Slices (some r) = .ok l ∧ ∀ v, v ∈ l ↔ v ∈ slicesList ⟨[4, 4, 8], [], 0, 2⟩ ∧
            v ∈ slicesList ⟨[16, 4], [], 1, 2⟩)) :=
  ⟨by decide, by decide, by decide, by decide,
    C2_and_is_intersection ⟨[4, 4, 8], [], 0, 2⟩ ⟨[16, 4], [], 1, 2⟩
      (by unfold WellFormed; decide) (by unfold WellFormed; decide)
      (by unfold IsBytes; decide) (by unfold InRange64; decide) (by unfold InRange64; decide)⟩

/-! ## `Or` on well-formed operands -/

theorem getD_take_of_lt (xs : List Nat) (n i : Nat) (h : i < n) :
    (xs.take n).getD i 0 = xs.getD i 0 := by
  simp only [List.getD_eq_getElem?_getD, List.getElem?_take]
  rw [if_pos h]

/-- Placement of an operand into the zeroed union buffer by `copy`. -/
theorem placed_spec (x : BitmapIndex) (hx : WellFormed x) (start stop : Int)
    (h1 : start ≤ x.Start) (h3 : x.End ≤ stop) (buf : List Nat)
    (hbuf : (buf.length : Int) = stop - start + 1) :
    ∃ out, copyInto buf (stop - x.End) (stop - start + 1 - (x.Start - start)) x.Data = .ok out ∧
      out.length = buf.length ∧
      ∀ p, p < out.length → out.getD p 0 =
        if x.Start ≤ stop - p ∧ stop - p ≤ x.End then blockByte x (stop - p) else buf.getD p 0 := by
  obtain ⟨hx1, hx2⟩ := hx
  refine ⟨_, copyInto_ok _ _ _ _ (by omega), length_overwrite _ _ _, ?_⟩
  intro p hp
  rw [length_overwrite] at hp
  rw [getD_overwrite]
  have hl : (x.Data.take (stop - start + 1 - (x.Start - start) - (stop - x.End)).toNat).length
      = x.Data.length := by
    rw [List.length_take]
    omega
  rw [hl]
  by_cases hk : x.Start ≤ stop - p ∧ stop - p ≤ x.End
  · rw [if_pos hk, if_pos (by omega), getD_take_of_lt _ _ _ (by omega),
      blockByte_of_mem _ _ hk]
    congr 1
    omega
  · rw [if_neg hk, if_neg (by omega)]

theorem Or_spec (A B : BitmapIndex) (hA : WellFormed A) (hB : WellFormed B)
    (hfit : UnionFits A B) :
    ∃ r, Bitmap.Or (some A) (some B) = .ok (some r) ∧
      r.Start = min A.Start B.Start ∧ r.End = max A.End B.End ∧ r.Ext = [] ∧ WellFormed r ∧
      (∀ k, blockByte r k = blockByte A k ||| blockByte B k) := by
  have hA1 := hA.1
  have hB1 := hB.1
  unfold UnionFits at hfit
  have e1 : (if A.Start < B.Start then A.Start else B.Start) = min A.Start B.Start := by
    split <;> omega
  have e2 : (if A.Start < B.Start then B.Start else A.Start) = max A.Start B.Start := by
    split <;> omega
  have e3 : (if A.End < B.End then B.End else A.End) = max A.End B.End := by
    split <;> omega
  have e4 : (if A.End < B.End then A.End else B.End) = min A.End B.End := by
    split <;> omega
  unfold Bitmap.Or
  simp only [e1, e2, e3, e4]
  generalize hstart : min A.Start B.Start = start at hfit ⊢
  generalize hstop : max A.End B.End = stop at hfit ⊢
  generalize hcs : max A.Start B.Start = cStart
  generalize hce : min A.End B.End = cEnd
  have b1 : start ≤ A.Start := by omega
  have b2 : start ≤ B.Start := by omega
  have b3 : A.End ≤ stop := by omega
  have b4 : B.End ≤ stop := by omega
  rw [wrap64_of_alloc _ (by omega) hfit, makeSlice_ok _ (by omega)]
  simp only [bind, Except.bind]
  obtain ⟨buf1, hc1, hl1, hg1⟩ := placed_spec A hA start stop b1 b3
    (List.replicate (stop - start + 1).toNat 0) (by rw [List.length_replicate]; omega)
  rw [List.length_replicate] at hl1
  obtain ⟨buf2, hc2, hl2, hg2⟩ := placed_spec B hB start stop b2 b4 buf1 (by omega)
  rw [hc1]
  simp only
  rw [hc2]
  simp only
  -- after both copies every byte is the union of the two placements, or `B`'s byte
  have hbuf2 : ∀ p, p < buf2.length → buf2.getD p 0 =
      if B.Start ≤ stop - p ∧ stop - p ≤ B.End then blockByte B (stop - p)
      else blockByte A (stop - p) := by
    intro p hp
    rw [hg2 p hp]
    split
    · rfl
    · rw [hg1 p (by omega)]
      split
      · rfl
      · rename_i h
        rw [getD_replicate_zero, blockByte_of_not_mem _ _ h]
  have hfinish : ∀ out : List Nat, out.length = buf2.length →
      (∀ p, p < out.length → out.getD p 0 = blockByte A (stop - p) ||| blockByte B (stop - p)) →
      WellFormed ⟨out, [], start, stop⟩ ∧
      ∀ k, blockByte ⟨out, [], start, stop⟩ k = blockByte A k ||| blockByte B k := by
    intro out hlen hget
    refine ⟨⟨by simp only; omega, by simp only; omega⟩, ?_⟩
    intro k
    by_cases hk : start ≤ k ∧ k ≤ stop
    · rw [blockByte_of_mem _ _ hk]
      simp only
      rw [hget _ (by omega)]
      have e : stop - (((stop - k).toNat : Nat) : Int) = k := by omega
      rw [e]
    · rw [blockByte_of_not_mem _ _ hk, blockByte_of_not_mem A k (by omega),
        blockByte_of_not_mem B k (by omega)]
      rfl
  by_cases hov : A.End < B.Start ∨ B.End < A.Start
  · rw [if_pos hov]
    simp only [pure, Except.pure]
    obtain ⟨hwf, hblock⟩ := hfinish buf2 rfl (by
      intro p hp
      rw [hbuf2 p hp]
      split
      · rw [blockByte_of_not_mem A _ (by omega)]
        simp
      · rename_i h
        rw [blockByte_of_not_mem B _ h]
        simp)
    exact ⟨_, rfl, rfl, rfl, rfl, hwf, hblock⟩
  · rw [if_neg hov]
    have c1 : A.Start ≤ cStart := by omega
    have c2 : B.Start ≤ cStart := by omega
    have c3 : cEnd ≤ A.End := by omega
    have c4 : cEnd ≤ B.End := by omega
    have c5 : cStart ≤ cEnd := by omega
    obtain ⟨w1, hw1, hwl1, hwg1⟩ := window_spec A hA cStart cEnd c1 c5 c3
    obtain ⟨w2, hw2, hwl2, hwg2⟩ := window_spec B hB cStart cEnd c2 c5 c4
    rw [hw1]
    simp only
    rw [hw2]
    simp only
    have ebase : stop - cEnd = (((stop - cEnd).toNat : Nat) : Int) := by omega
    rw [ebase]
    obtain ⟨out, hrun, hlen, hget⟩ := orLoop_spec w2 (stop - cEnd).toNat w1 0 buf2
      (by omega) (by omega)
    rw [hrun]
    simp only [pure, Except.pure]
    obtain ⟨hwf, hblock⟩ := hfinish out hlen (by
      intro p hp
      rw [hget p]
      by_cases hin : (stop - cEnd).toNat + 0 ≤ p ∧ p < (stop - cEnd).toNat + 0 + w1.length
      · have e1 : w1.getD (p - (stop - cEnd).toNat - 0) 0 = blockByte A (stop - p) := by
          rw [hwg1 _ (by omega)]
          congr 1
          omega
        have e2 : w2.getD (p - (stop - cEnd).toNat) 0 = blockByte B (stop - p) := by
          rw [hwg2 _ (by omega)]
          congr 1
          omega
        rw [e1, e2]
        by_cases hc : blockByte A (stop - p) > 0 ∨ blockByte B (stop - p) > 0
        · rw [if_pos ⟨hin.1, hin.2, hc⟩]
        · rw [if_neg (fun h => hc h.2.2)]
          have z1 : blockByte A (stop - p) = 0 := by omega
          have z2 : blockByte B (stop - p) = 0 := by omega
          rw [hbuf2 p (by omega), z1, z2]
          simp
      · rw [if_neg (fun h => hin ⟨h.1, h.2.1⟩), hbuf2 p (by omega)]
        split
        · rw [blockByte_of_not_mem A _ (by omega)]
          simp
        · rename_i h
          rw [blockByte_of_not_mem B _ h]
          simp)
    exact ⟨_, rfl, rfl, rfl, rfl, hwf, hblock⟩

/-- On well-formed operands that are Go values and whose union range exceeds the allocator
limit, `Or` aborts: in `make`, or, when the length wraps to 0, in the first `copy`. -/
theorem Or_aborts (A B : BitmapIndex) (hA : WellFormed A) (hB : WellFormed B)
    (tA : GoTyped A) (tB : GoTyped B) (hfit : ¬ UnionFits A B) :
    ∃ c, Bitmap.Or (some A) (some B) = .error (.crash c) := by
  obtain ⟨hA1, hA2⟩ := hA
  obtain ⟨hB1, hB2⟩ := hB
  obtain ⟨⟨a1, a2⟩, ⟨a3, a4⟩, a5⟩ := tA
  obtain ⟨⟨c1, c2⟩, ⟨c3, c4⟩, c5⟩ := tB
  unfold SliceLen at a5 c5
  unfold UnionFits at hfit
  unfold maxAlloc at hfit a5 c5
  have e1 : (if A.Start < B.Start then A.Start else B.Start) = min A.Start B.Start := by
    split <;> omega
  have e3 : (if A.End < B.End then B.End else A.End) = max A.End B.End := by
    split <;> omega
  unfold Bitmap.Or
  simp only [e1, e3]
  generalize hstart : min A.Start B.Start = start at hfit ⊢
  generalize hstop : max A.End B.End = stop at hfit ⊢
  by_cases hL : stop - start + 1 = 2 ^ 64
  · have hw : wrap64 (stop - start + 1) = 0 := by
      rw [hL]
      decide
    have hm : makeSlice 0 = .ok [] := rfl
    have hc : ∀ hi : Int, copyInto [] (stop - A.End) (hi - (A.Start - start)) A.Data
        = .error (.crash .sliceBounds) ∨ hi ≠ 0 := by
      intro hi
      by_cases h0 : hi = 0
      · left
        unfold copyInto
        rw [if_neg]
        simp only [List.length_nil, Nat.cast_zero]
        omega
      · exact Or.inr h0
    rw [hw, hm]
    simp only [bind, Except.bind]
    rcases hc 0 with h | h
    · rw [h]
      exact ⟨_, rfl⟩
    · exact absurd rfl h
  · have hno : ¬ (0 ≤ wrap64 (stop - start + 1) ∧
        wrap64 (stop - start + 1) ≤ ((2 ^ 48 : Nat) : Int)) := by
      unfold wrap64
      omega
    unfold makeSlice maxAlloc
    rw [if_neg hno]
    exact ⟨_, rfl⟩

theorem or_semantics (A B : BitmapIndex) (hA : WellFormed A) (hB : WellFormed B)
    (r : BitmapIndex) (hwf : WellFormed r)
    (hblock : ∀ k, blockByte r k = blockByte A k ||| blockByte B k) (v : Int) :
    v ∈ slicesList r ↔ v ∈ slicesList A ∨ v ∈ slicesList B := by
  simp only [mem_slicesList, mem_slicesListZ_iff r hwf, mem_slicesListZ_iff A hA,
    mem_slicesListZ_iff B hB, hblock, Nat.testBit_or, Bool.or_eq_true]
  constructor
  · rintro ⟨u, h | h, e⟩
    · exact Or.inl ⟨u, h, e⟩
    · exact Or.inr ⟨u, h, e⟩
  · rintro (⟨u, h, e⟩ | ⟨u, h, e⟩)
    · exact ⟨u, Or.inl h, e⟩
    · exact ⟨u, Or.inr h, e⟩

/-- C3 fails as stated: for the well-formed indexes `A` (block 0) and `B` (block `2^62`)
the union range has `2^62 + 1` bytes, `make` refuses it and `A.Or(B)` aborts. -/
theorem C3_or_aborts_counterexample :
    WellFormed ⟨[1], [], 0, 0⟩ ∧ WellFormed ⟨[1], [], 2 ^ 62, 2 ^ 62⟩ ∧
    Bitmap.Or (some ⟨[1], [], 0, 0⟩) (some ⟨[1], [], 2 ^ 62, 2 ^ 62⟩)
      = .error (.crash .makeLength) := by
  refine ⟨by unfold WellFormed; decide, by unfold WellFormed; decide, by decide⟩

/-- C3, amended. `Or` is set union whenever `make` grants the union range: for well-formed
indexes `A` and `B` with `max End - min Start + 1 ≤ maxAlloc`, `A.Or(B)` returns a
non-sentinel index with `Start = min`, `End = max` of the operands' bounds, and its decoded
list holds exactly the values of either operand, whether the block ranges overlap, touch or
are separated by a gap. -/
theorem C3_or_is_union (A B : BitmapIndex) (hA : WellFormed A) (hB : WellFormed B)
    (hfit : UnionFits A B) :
    Slices (some A) = .ok (slicesList A) ∧ Slices (some B) = .ok (slicesList B) ∧
    ∃ r, Bitmap.Or (some A) (some B) = .ok (some r) ∧
      r.Start = min A.Start B.Start ∧ r.End = max A.End B.End ∧
      ∃ l, Slices (some r) = .ok l ∧ ∀ v, v ∈ l ↔ v ∈ slicesList A ∨ v ∈ slicesList B := by
  refine ⟨Slices_of_wf A hA, Slices_of_wf B hB, ?_⟩
  obtain ⟨r, hrun, hs, he, _, hwf, hblock⟩ := Or_spec A B hA hB hfit
  exact ⟨r, hrun, hs, he, slicesList r, Slices_of_wf r hwf,
    or_semantics A B hA hB r hwf hblock⟩

/-- C3, amended, at `NewBitmapIndex [1]` and `NewBitmapIndex [16]`: the union has
`Start = 0`, `End = 2` and decodes to `[1, 16]`. -/
theorem C3_or_is_union_witness :
    NewBitmapIndex [1] = .ok (some ⟨[2], [], 0, 0⟩) ∧
    NewBitmapIndex [16] = .ok (some ⟨[1], [], 2, 2⟩) ∧
    Bitmap.Or (some ⟨[2], [], 0, 0⟩) (some ⟨[1], [], 2, 2⟩) = .ok (some ⟨[1, 0, 2], [], 0, 2⟩) ∧
    Slices (some ⟨[1, 0, 2], [], 0, 2⟩) = .ok [1, 16] ∧
    (Slices (some ⟨[2], [], 0, 0⟩) = .ok (slicesList ⟨[2], [], 0, 0⟩) ∧
      Slices (some ⟨[1], [], 2, 2⟩) = .ok (slicesList ⟨[1], [], 2, 2⟩) ∧
      ∃ r, Bitmap.Or (some ⟨[2], [], 0, 0⟩) (some ⟨[1], [], 2, 2⟩) = .ok (some r) ∧
        r.Start = min (0 : Int) 2 ∧ r.End = max (0 : Int) 2 ∧
        ∃ l, Slices (some r) = .ok l ∧
          ∀ v, v ∈ l ↔ v ∈ slicesList ⟨[2], [], 0, 0⟩ ∨ v ∈ slicesList ⟨[1], [], 2, 2⟩) :=
  ⟨by decide, by decide, by decide, by decide,
    C3_or_is_union ⟨[2], [], 0, 0⟩ ⟨[1], [], 2, 2⟩
      (by unfold WellFormed; decide) (by unfold WellFormed; decide)
      (by unfold UnionFits maxAlloc; decide)⟩

/-! ## `Not` on well-formed operands -/

theorem testBit_andNot (b1 b2 j : Nat) (hj : j < 8) :
    (andNot b1 b2).testBit j = (b1.testBit j && !b2.testBit j) := by
  unfold andNot
  rw [Nat.testBit_and, Nat.testBit_xor, show (255 : Nat) = 2 ^ 8 - 1 by norm_num,
    Nat.testBit_two_pow_sub_one, show (256 : Nat) = 2 ^ 8 by norm_num, Nat.testBit_mod_two_pow]
  simp [hj]

theorem andNot_zero_right (b1 : Nat) (h : b1 < 256) : andNot b1 0 = b1 := by
  unfold andNot
  have e : (255 : Nat) ^^^ (0 % 256) = 2 ^ 8 - 1 := by decide
  rw [e, Nat.and_pow_two_sub_one_eq_mod]
  exact Nat.mod_eq_of_lt h

theorem andNot_zero_left (b2 : Nat) : andNot 0 b2 = 0 := by
  unfold andNot
  simp

theorem Not_spec (A B : BitmapIndex) (hA : WellFormed A) (hB : WellFormed B) :
    ∃ r, Bitmap.Not (some A) (some B) none = .ok (some r) ∧
      r.Start = A.Start ∧ r.End = A.End ∧ r.Ext = A.Ext ∧ r.Data.length = A.Data.length ∧
      (∀ k, blockByte r k =
        if blockByte A k > 0 ∧ blockByte B k > 0 then andNot (blockByte A k) (blockByte B k)
        else blockByte A k) ∧
      ((A.End < B.Start ∨ B.End < A.Start) → r = A) := by
  have hA1 := hA.1
  have hB1 := hB.1
  have hA2 := hA.2
  by_cases hov : A.End < B.Start ∨ B.End < A.Start
  · refine ⟨A, ?_, rfl, rfl, rfl, rfl, ?_, fun _ => rfl⟩
    · unfold Bitmap.Not
      simp only [if_pos hov]
    · intro k
      rw [if_neg]
      intro h
      by_cases hk : A.Start ≤ k ∧ k ≤ A.End
      · rw [blockByte_of_not_mem B k (by omega)] at h
        exact Nat.lt_irrefl 0 h.2
      · rw [blockByte_of_not_mem A k hk] at h
        exact Nat.lt_irrefl 0 h.1
  · have e2 : (if A.Start < B.Start then B.Start else A.Start) = max A.Start B.Start := by
      split <;> omega
    have e4 : (if A.End < B.End then A.End else B.End) = min A.End B.End := by
      split <;> omega
    unfold Bitmap.Not
    simp only [if_neg hov, e2, e4]
    generalize hcs : max A.Start B.Start = cStart
    generalize hce : min A.End B.End = cEnd
    have c1 : A.Start ≤ cStart := by omega
    have c2 : B.Start ≤ cStart := by omega
    have c3 : cEnd ≤ A.End := by omega
    have c4 : cEnd ≤ B.End := by omega
    have c5 : cStart ≤ cEnd := by omega
    obtain ⟨w1, hw1, hwl1, hwg1⟩ := window_spec A hA cStart cEnd c1 c5 c3
    obtain ⟨w2, hw2, hwl2, hwg2⟩ := window_spec B hB cStart cEnd c2 c5 c4
    simp only [bind, Except.bind]
    rw [hw1]
    try simp only
    rw [hw2]
    try simp only
    have ebase : A.End - cEnd = (((A.End - cEnd).toNat : Nat) : Int) := by omega
    rw [ebase]
    have hread : ∀ (m : List Nat) (t : Nat), t < w2.length →
        operandByte none B.Data (B.End - cEnd) w2.length m t = .ok (w2.getD t 0) := by
      intro m t ht
      rw [operandByte_none _ _ _ _ _ ht, hwg2 t ht, blockByte_of_mem B _ (by omega)]
      congr 2
      omega
    obtain ⟨out, hrun, hlen, hget⟩ := notLoop_spec
      (operandByte none B.Data (B.End - cEnd) w2.length) w2 hread (A.End - cEnd).toNat w1 0
      A.Data (by omega) (by omega)
    rw [hrun]
    simp only [pure, Except.pure]
    refine ⟨_, rfl, rfl, rfl, rfl, hlen, ?_, fun h => absurd h hov⟩
    intro k
    by_cases hk : A.Start ≤ k ∧ k ≤ A.End
    · rw [blockByte_of_mem ⟨out, A.Ext, A.Start, A.End⟩ k hk]
      simp only
      rw [hget]
      by_cases hin : cStart ≤ k ∧ k ≤ cEnd
      · have e1 : w1.getD ((A.End - k).toNat - (A.End - cEnd).toNat - 0) 0 = blockByte A k := by
          rw [hwg1 _ (by omega)]
          congr 1
          omega
        have e2 : w2.getD ((A.End - k).toNat - (A.End - cEnd).toNat) 0 = blockByte B k := by
          rw [hwg2 _ (by omega)]
          congr 1
          omega
        rw [e1, e2]
        by_cases hc : blockByte A k > 0 ∧ blockByte B k > 0
        · rw [if_pos ⟨by omega, by omega, hc⟩, if_pos hc]
        · rw [if_neg (fun h => hc h.2.2), if_neg hc, blockByte_of_mem _ _ hk]
      · rw [if_neg (fun h => hin ⟨by omega, by omega⟩), if_neg, blockByte_of_mem _ _ hk]
        intro h
        rw [blockByte_of_not_mem B k (by omega)] at h
        exact Nat.lt_irrefl 0 h.2
    · rw [blockByte_of_not_mem ⟨out, A.Ext, A.Start, A.End⟩ k hk, blockByte_of_not_mem A k hk,
        if_neg]
      intro h
      exact Nat.lt_irrefl 0 h.1

theorem testBit_not_block (b1 b2 r j : Nat) (hj : j < 8)
    (hr : r = if b1 > 0 ∧ b2 > 0 then andNot b1 b2 else b1) :
    r.testBit j = (b1.testBit j && !b2.testBit j) := by
  subst hr
  by_cases hc : b1 > 0 ∧ b2 > 0
  · rw [if_pos hc, testBit_andNot _ _ _ hj]
  · rw [if_neg hc]
    by_cases h1 : b1 > 0
    · have : b2 = 0 := by
        by_contra h2
        exact hc ⟨h1, Nat.pos_of_ne_zero h2⟩
      subst this
      simp
    · have : b1 = 0 := Nat.eq_zero_of_not_pos h1
      subst this
      simp

theorem blockByte_pos_mem (x : BitmapIndex) (k : Int) (h : blockByte x k > 0) :
    x.Start ≤ k ∧ k ≤ x.End := by
  by_contra hn
  rw [blockByte_of_not_mem _ _ hn] at h
  exact Nat.lt_irrefl 0 h

/-- Whatever the memory relation of the operands, `Not` on well-formed operands returns an
index with the receiver's `Start`, `End`, `Ext` and data length. -/
theorem Not_shape (A B : BitmapIndex) (hA : WellFormed A) (hB : WellFormed B)
    (shared : Option Int) :
    ∃ r, Bitmap.Not (some A) (some B) shared = .ok (some r) ∧
      r.Start = A.Start ∧ r.End = A.End ∧ r.Ext = A.Ext ∧
      r.Data.length = A.Data.length := by
  have hA1 := hA.1
  have hB1 := hB.1
  have hA2 := hA.2
  by_cases hov : A.End < B.Start ∨ B.End < A.Start
  · refine ⟨A, ?_, rfl, rfl, rfl, rfl⟩
    unfold Bitmap.Not
    simp only [if_pos hov]
  · have e2 : (if A.Start < B.Start then B.Start else A.Start) = max A.Start B.Start := by
      split <;> omega
    have e4 : (if A.End < B.End then A.End else B.End) = min A.End B.End := by
      split <;> omega
    unfold Bitmap.Not
    simp only [if_neg hov, e2, e4]
    generalize hcs : max A.Start B.Start = cStart
    generalize hce : min A.End B.End = cEnd
    have c1 : A.Start ≤ cStart := by omega
    have c2 : B.Start ≤ cStart := by omega
    have c3 : cEnd ≤ A.End := by omega
    have c4 : cEnd ≤ B.End := by omega
    have c5 : cStart ≤ cEnd := by omega
    obtain ⟨w1, hw1, hwl1, _⟩ := window_spec A hA cStart cEnd c1 c5 c3
    obtain ⟨w2, hw2, hwl2, _⟩ := window_spec B hB cStart cEnd c2 c5 c4
    simp only [bind, Except.bind]
    rw [hw1]
    try simp only
    rw [hw2]
    try simp only
    have ebase : A.End - cEnd = (((A.End - cEnd).toNat : Nat) : Int) := by omega
    rw [ebase]
    obtain ⟨out, hrun, hlen⟩ := notLoop_length
      (operandByte shared B.Data (B.End - cEnd) w2.length) (A.End - cEnd).toNat w1 0 A.Data
      (fun m t ht => operandByte_ok shared B.Data (B.End - cEnd) w2.length m t (by omega))
      (by omega)
    rw [hrun]
    exact ⟨_, rfl, rfl, rfl, rfl, hlen⟩

theorem mem_slicesListZ_bounds (x : BitmapIndex) (hx : WellFormed x) (u : Int)
    (h : u ∈ slicesListZ x) : x.Start * 8 ≤ u ∧ u ≤ x.End * 8 + 7 := by
  have := mem_slicesListZ_block x hx u h
  constructor <;> omega

/-- C4 fails as stated: the receiver's data `[3, 7]` and the operand's data `[1, 3]` are
the views `buf[1:3]` and `buf[0:2]` of one array `buf = [1, 3, 7]` (`shared = some (-1)`),
both over blocks `0..1`. The write to the first byte changes the operand byte read next, so
the byte of block 0 becomes `7 &^ 2 = 5` instead of `7 &^ 3 = 4`, and the result decodes
to `[0, 2, 9]` although `0` is a value of the operand. -/
theorem C4_not_shared_storage_counterexample :
    WellFormed ⟨[3, 7], [], 0, 1⟩ ∧ WellFormed ⟨[1, 3], [], 0, 1⟩ ∧
    Bitmap.Not (some ⟨[3, 7], [], 0, 1⟩) (some ⟨[1, 3], [], 0, 1⟩) (some (-1))
      = .ok (some ⟨[2, 5], [], 0, 1⟩) ∧
    andNot 3 1 = 2 ∧ andNot 7 3 = 4 ∧
    Slices (some ⟨[3, 7], [], 0, 1⟩) = .ok [0, 1, 2, 8, 9] ∧
    Slices (some ⟨[1, 3], [], 0, 1⟩) = .ok [0, 1, 8] ∧
    Slices (some ⟨[2, 5], [], 0, 1⟩) = .ok [0, 2, 9] := by
  refine ⟨by unfold WellFormed; decide, by unfold WellFormed; decide, by decide, by decide,
    by decide, by decide, by decide, by decide⟩

/-- C4, amended. `Not` is set difference on operands whose `Data` share no storage: for
well-formed `A` and `B` (slices of at most `maxAlloc` bytes), `A.Not(B)` returns an index
with `A`'s `Start`, `End` and data length, whatever the memory relation; when the `Data`
slices share no byte, the byte of every block in the overlap window is
`byteA AND NOT byteB`, every other byte is `A`'s, and when the block ranges overlap the
decoded list holds exactly the values of `A` that are not values of `B`; when the ranges do
not overlap, or `B` is the sentinel, the result is `A` itself. -/
theorem C4_not_is_difference (A B : BitmapIndex) (hA : WellFormed A) (hB : WellFormed B)
    (hbA : IsBytes A.Data) (hlA : SliceLen A.Data) (hlB : SliceLen B.Data) :
    (∀ shared, Bitmap.Not (some A) none shared = .ok (some A)) ∧
    (∀ shared, ∃ r, Bitmap.Not (some A) (some B) shared = .ok (some r) ∧
      r.Start = A.Start ∧ r.End = A.End ∧ r.Data.length = A.Data.length) ∧
    ∃ r, Bitmap.Not (some A) (some B) none = .ok (some r) ∧
      r.Start = A.Start ∧ r.End = A.End ∧ r.Data.length = A.Data.length ∧
      Slices (some r) = .ok (slicesList r) ∧
      (¬ (A.End < B.Start ∨ B.End < A.Start) →
        ∀ v, v ∈ slicesList r ↔ v ∈ slicesList A ∧ ¬ v ∈ slicesList B) ∧
      (∀ k, blockByte r k =
        if max A.Start B.Start ≤ k ∧ k ≤ min A.End B.End then
          andNot (blockByte A k) (blockByte B k)
        else blockByte A k) ∧
      ((A.End < B.Start ∨ B.End < A.Start) → r = A) := by
  refine ⟨fun _ => rfl, ?_, ?_⟩
  · intro shared
    obtain ⟨r, hr, hs, he, _, hl⟩ := Not_shape A B hA hB shared
    exact ⟨r, hr, hs, he, hl⟩
  obtain ⟨r, hrun, hs, he, _, hlen, hblock, hno⟩ := Not_spec A B hA hB
  have hwf : WellFormed r := by
    obtain ⟨h1, h2⟩ := hA
    exact ⟨by rw [hs, he]; exact h1, by rw [hlen, hs, he]; exact h2⟩
  refine ⟨r, hrun, hs, he, hlen, Slices_of_wf r hwf, ?_, ?_, hno⟩
  · intro hov v
    have hZ : ∀ u, u ∈ slicesListZ r ↔ u ∈ slicesListZ A ∧ ¬ u ∈ slicesListZ B := by
      intro u
      rw [mem_slicesListZ_iff r hwf, mem_slicesListZ_iff A hA, mem_slicesListZ_iff B hB,
        testBit_not_block _ _ _ _ (by omega) (hblock (u / 8))]
      simp
    simp only [mem_slicesList, hZ]
    constructor
    · rintro ⟨u, ⟨h1, h2⟩, e⟩
      refine ⟨⟨u, h1, e⟩, ?_⟩
      rintro ⟨w, hw, ew⟩
      have bu := mem_slicesListZ_bounds A hA u h1
      have bw := mem_slicesListZ_bounds B hB w hw
      have lA := hA.2
      have lB := hB.2
      unfold SliceLen maxAlloc at hlA hlB
      have : u = w := wrap64_inj u w (by rw [e, ew]) (by omega) (by omega)
      rw [this] at h2
      exact h2 hw
    · rintro ⟨⟨u, h1, e⟩, hn⟩
      exact ⟨u, ⟨h1, fun h2 => hn ⟨u, h2, e⟩⟩, e⟩
  · intro k
    rw [hblock k]
    by_cases hc : blockByte A k > 0 ∧ blockByte B k > 0
    · have h1 := blockByte_pos_mem A k hc.1
      have h2 := blockByte_pos_mem B k hc.2
      rw [if_pos hc, if_pos (by omega)]
    · rw [if_neg hc]
      split
      · by_cases h1 : blockByte A k > 0
        · have h2 : blockByte B k = 0 := by
            by_contra h2
            exact hc ⟨h1, Nat.pos_of_ne_zero h2⟩
          rw [h2, andNot_zero_right _ (blockByte_lt A hbA k)]
        · have h0 : blockByte A k = 0 := Nat.eq_zero_of_not_pos h1
          rw [h0, andNot_zero_left]
      · rfl

/-- C4, amended, at `NewBitmapIndex [3, 10, 18]` minus `NewBitmapIndex [10, 20]` with
separate storage: the result keeps blocks `0..2` and decodes to `[3, 18]`. -/
theorem C4_not_is_difference_witness :
    Bitmap.Not (some ⟨[4, 4, 8], [], 0, 2⟩) (some ⟨[16, 4], [], 1, 2⟩) none
      = .ok (some ⟨[4, 0, 8], [], 0, 2⟩) ∧
    Slices (some ⟨[4, 0, 8], [], 0, 2⟩) = .ok [3, 18] ∧
    ((∀ shared, Bitmap.Not (some ⟨[4, 4, 8], [], 0, 2⟩) none shared
        = .ok (some ⟨[4, 4, 8], [], 0, 2⟩)) ∧
    (∀ shared, ∃ r,
      Bitmap.Not (some ⟨[4, 4, 8], [], 0, 2⟩) (some ⟨[16, 4], [], 1, 2⟩) shared
        = .ok (some r) ∧
      r.Start = 0 ∧ r.End = 2 ∧ r.Data.length = 3) ∧
    ∃ r, Bitmap.Not (some ⟨[4, 4, 8], [], 0, 2⟩) (some ⟨[16, 4], [], 1, 2⟩) none
        = .ok (some r) ∧
      r.Start = 0 ∧ r.End = 2 ∧ r.Data.length = 3 ∧
      Slices (some r) = .ok (slicesList r) ∧
      (¬ ((2 : Int) < 1 ∨ (2 : Int) < 0) →
        ∀ v, v ∈ slicesList r ↔
          v ∈ slicesList ⟨[4, 4, 8], [], 0, 2⟩ ∧ ¬ v ∈ slicesList ⟨[16, 4], [], 1, 2⟩) ∧
      (∀ k, blockByte r k =
        if max (0 : Int) 1 ≤ k ∧ k ≤ min (2 : Int) 2 then
          andNot (blockByte ⟨[4, 4, 8], [], 0, 2⟩ k) (blockByte ⟨[16, 4], [], 1, 2⟩ k)
        else blockByte ⟨[4, 4, 8], [], 0, 2⟩ k) ∧
      (((2 : Int) < 1 ∨ (2 : Int) < 0) → r = ⟨[4, 4, 8], [], 0, 2⟩)) :=
  ⟨by decide, by decide,
    C4_not_is_difference ⟨[4, 4, 8], [], 0, 2⟩ ⟨[16, 4], [], 1, 2⟩
      (by unfold WellFormed; decide) (by unfold WellFormed; decide)
      (by unfold IsBytes; decide) (by unfold SliceLen maxAlloc; decide)
      (by unfold SliceLen maxAlloc; decide)⟩

/-! ## Header encoding -/

theorem list_ext_getD (l1 l2 : List Nat) (hl : l1.length = l2.length)
    (h : ∀ i, i < l1.length → l1.getD i 0 = l2.getD i 0) : l1 = l2 := by
  apply List.ext_getElem hl
  intro i h1 h2
  have := h i h1
  rw [List.getD_eq_getElem _ _ h1, List.getD_eq_getElem _ _ h2] at this
  exact this

theorem readInt_four (a b c d : Nat) (ha : a < 256) (hb : b < 256) (hc : c < 256)
    (hd : d < 256) :
    ReadIntFromBytes [a, b, c, d] = ((a * 2 ^ 24 + b * 2 ^ 16 + c * 2 ^ 8 + d : Nat) : Int) := by
  have t24 : toUint ((((4 : Nat) : Int) - ((0 : Nat) : Int) - 1) * 8) = 24 := by decide
  have t16 : toUint ((((4 : Nat) : Int) - ((0 + 1 : Nat) : Int) - 1) * 8) = 16 := by decide
  have t8 : toUint ((((4 : Nat) : Int) - ((0 + 1 + 1 : Nat) : Int) - 1) * 8) = 8 := by decide
  have t0 : toUint ((((4 : Nat) : Int) - ((0 + 1 + 1 + 1 : Nat) : Int) - 1) * 8) = 0 := by decide
  unfold ReadIntFromBytes
  simp only [List.length_cons, List.length_nil, readLoop, t24, t16, t8, t0]
  simp only [Nat.shiftLeft_eq, Nat.zero_or]
  have e1 : a * 2 ^ 24 % 2 ^ 64 = 2 ^ 24 * a := by omega
  have e2 : b * 2 ^ 16 % 2 ^ 64 = 2 ^ 16 * b := by omega
  have e3 : c * 2 ^ 8 % 2 ^ 64 = 2 ^ 8 * c := by omega
  have e4 : d * 2 ^ 0 % 2 ^ 64 = d := by omega
  simp only [show (0 : Nat) < 64 by norm_num, show (8 : Nat) < 64 by norm_num,
    show (16 : Nat) < 64 by norm_num, show (24 : Nat) < 64 by norm_num, if_true, e1, e2, e3, e4]
  have f3 : 2 ^ 8 * (2 ^ 16 * a + 2 ^ 8 * b + c) ||| d = 2 ^ 8 * (2 ^ 16 * a + 2 ^ 8 * b + c) + d :=
    (Nat.mul_add_lt_is_or (i := 8) (by omega) _).symm
  have f2 : 2 ^ 16 * (2 ^ 8 * a + b) ||| 2 ^ 8 * c = 2 ^ 16 * (2 ^ 8 * a + b) + 2 ^ 8 * c :=
    (Nat.mul_add_lt_is_or (i := 16) (by omega) _).symm
  have f1 : 2 ^ 24 * a ||| 2 ^ 16 * b = 2 ^ 24 * a + 2 ^ 16 * b :=
    (Nat.mul_add_lt_is_or (i := 24) (by omega) _).symm
  have g2 : 2 ^ 24 * a + 2 ^ 16 * b = 2 ^ 16 * (2 ^ 8 * a + b) := by omega
  have g3 : 2 ^ 16 * (2 ^ 8 * a + b) + 2 ^ 8 * c = 2 ^ 8 * (2 ^ 16 * a + 2 ^ 8 * b + c) := by omega
  rw [f1, g2, f2, g3, f3]
  unfold toInt64
  have hlt : (2 ^ 8 * (2 ^ 16 * a + 2 ^ 8 * b + c) + d) % 2 ^ 64
      = a * 2 ^ 24 + b * 2 ^ 16 + c * 2 ^ 8 + d := by omega
  rw [hlt, if_pos (by omega)]

theorem bigBytes_length_le_four (n : Nat) (hn : n < 2 ^ 32) : (bigBytes n).length ≤ 4 := by
  by_cases h0 : n = 0
  · subst h0; simp [bigBytes_zero]
  · have h1 := bigBytes_ge n h0
    by_contra hgt
    have h2 : 256 ^ 4 ≤ 256 ^ ((bigBytes n).length - 1) :=
      Nat.pow_le_pow_right (by norm_num) (by omega)
    have h3 : (256 : Nat) ^ 4 = 2 ^ 32 := by norm_num
    omega

/-- Byte `i` of the four-byte field that `copy(ib[4-len(bs):4], bs)` fills from the
big-endian bytes of `n`. -/
theorem padded_getD (n : Nat) (hn : n < 2 ^ 32) (i : Nat) (hi : i < 4) :
    (if 4 - (bigBytes n).length ≤ i then (bigBytes n).getD (i - (4 - (bigBytes n).length)) 0
      else 0) = n / 256 ^ (3 - i) % 256 := by
  have hle := bigBytes_length_le_four n hn
  have hlt := bigBytes_lt n
  split
  · rw [bigBytes_getD n _ (by omega)]
    have e : (bigBytes n).length - 1 - (i - (4 - (bigBytes n).length)) = 3 - i := by omega
    rw [e]
  · have h1 : 256 ^ (bigBytes n).length ≤ 256 ^ (3 - i) :=
      Nat.pow_le_pow_right (by norm_num) (by omega)
    rw [Nat.div_eq_of_lt (by omega)]

/-- The four header bytes of `n`, most significant first. -/
theorem header_value (n : Nat) (hn : n < 2 ^ 32) :
    ReadIntFromBytes [n / 256 ^ 3 % 256, n / 256 ^ 2 % 256, n / 256 ^ 1 % 256, n / 256 ^ 0 % 256]
      = (n : Int) := by
  rw [readInt_four _ _ _ _ (Nat.mod_lt _ (by norm_num)) (Nat.mod_lt _ (by norm_num))
    (Nat.mod_lt _ (by norm_num)) (Nat.mod_lt _ (by norm_num))]
  congr 1
  norm_num
  omega

theorem copyInto_full (dst : List Nat) (lo hi : Int) (src : List Nat)
    (h : 0 ≤ lo ∧ hi - lo = (src.length : Int) ∧ hi ≤ (dst.length : Int)) :
    copyInto dst lo hi src = .ok (overwrite dst lo.toNat src) := by
  rw [copyInto_ok _ _ _ _ (by omega), List.take_of_length_le (by omega)]

/-- Output of `Bytes` on an index with data whose header fields fit in 32 bits. -/
theorem Bytes_spec (x : BitmapIndex) (hd : 0 < x.Data.length)
    (hs : 0 ≤ x.Start * 8 ∧ x.Start * 8 < 2 ^ 32) (he : 0 ≤ x.End * 8 ∧ x.End * 8 < 2 ^ 32) :
    ∃ ib, Bytes (some x) = .ok ib ∧ ib.length = 8 + x.Data.length ∧
      (∀ i, i < 4 → ib.getD i 0 = (x.Start * 8).toNat / 256 ^ (3 - i) % 256) ∧
      (∀ i, i < 4 → ib.getD (4 + i) 0 = (x.End * 8).toNat / 256 ^ (3 - i) % 256) ∧
      (∀ i, i < x.Data.length → ib.getD (8 + i) 0 = x.Data.getD i 0) := by
  have e1 : (x.Start * 8).natAbs = (x.Start * 8).toNat := by omega
  have e2 : (x.End * 8).natAbs = (x.End * 8).toNat := by omega
  have n1 : (x.Start * 8).toNat < 2 ^ 32 := by omega
  have n2 : (x.End * 8).toNat < 2 ^ 32 := by omega
  have l1 := bigBytes_length_le_four _ n1
  have l2 := bigBytes_length_le_four _ n2
  have w1 : wrap64 (x.Start * 8) = x.Start * 8 := wrap64_of_range _ (by omega) (by omega)
  have w2 : wrap64 (x.End * 8) = x.End * 8 := wrap64_of_range _ (by omega) (by omega)
  simp only [Bytes, w1, w2, e1, e2]
  rw [if_neg (by omega)]
  have hmk : makeBytes (8 + (x.Data.length : Int)) = .ok (List.replicate (8 + x.Data.length) 0) := by
    rw [makeBytes_ok _ (by omega)]
    congr 2
  simp only [bind, Except.bind, hmk]
  rw [copyInto_full _ _ _ _ (by rw [List.length_replicate]; omega)]
  simp only
  rw [copyInto_full _ _ _ _ (by rw [length_overwrite, List.length_replicate]; omega)]
  simp only
  rw [copyInto_full _ _ _ _ (by
    simp only [length_overwrite, List.length_replicate]; omega)]
  simp only [pure, Except.pure]
  have t1 : (4 - ((bigBytes (x.Start * 8).toNat).length : Int)).toNat
      = 4 - (bigBytes (x.Start * 8).toNat).length := by omega
  have t2 : (8 - ((bigBytes (x.End * 8).toNat).length : Int)).toNat
      = 8 - (bigBytes (x.End * 8).toNat).length := by omega
  have t3 : (8 : Int).toNat = 8 := rfl
  rw [t1, t2, t3]
  refine ⟨_, rfl, by simp only [length_overwrite, List.length_replicate], ?_, ?_, ?_⟩
  · intro i hi
    rw [getD_overwrite, if_neg (by omega), getD_overwrite, if_neg (by omega), getD_overwrite,
      getD_replicate_zero, ← padded_getD _ n1 i hi]
    simp only [List.length_replicate]
    by_cases hc : 4 - (bigBytes (x.Start * 8).toNat).length ≤ i
    · rw [if_pos hc, if_pos (by omega)]
    · rw [if_neg hc, if_neg (by omega)]
  · intro i hi
    rw [getD_overwrite, if_neg (by omega), getD_overwrite, ← padded_getD _ n2 i hi]
    simp only [length_overwrite, List.length_replicate]
    by_cases hc : 4 - (bigBytes (x.End * 8).toNat).length ≤ i
    · rw [if_pos hc, if_pos (by omega)]
      congr 1
      omega
    · rw [if_neg hc, if_neg (by omega), getD_overwrite, if_neg (by omega), getD_replicate_zero]
  · intro i hi
    rw [getD_overwrite, if_pos (by
      simp only [length_overwrite, List.length_replicate]; omega)]
    congr 1
    omega

/-! ## `ReadBitmapIndex` -/

theorem slice_header_lo (ib : List Nat) (h : 8 ≤ ib.length) :
    slice ib 0 4 = .ok [ib.getD 0 0, ib.getD 1 0, ib.getD 2 0, ib.getD 3 0] := by
  rw [slice_ok _ _ _ (by omega)]
  congr 1
  apply list_ext_getD
  · rw [length_take_drop _ _ _ (by simpa using (by omega : 4 ≤ ib.length))]
    rfl
  · intro i hi
    rw [length_take_drop _ _ _ (by simpa using (by omega : 4 ≤ ib.length))] at hi
    have hi4 : i < 4 := hi
    rw [getD_take_drop _ _ _ _ (by simpa using hi4)]
    interval_cases i <;> rfl

theorem slice_header_hi (ib : List Nat) (h : 8 ≤ ib.length) :
    slice ib 4 8 = .ok [ib.getD 4 0, ib.getD 5 0, ib.getD 6 0, ib.getD 7 0] := by
  rw [slice_ok _ _ _ (by omega)]
  congr 1
  apply list_ext_getD
  · rw [length_take_drop _ _ _ (by simpa using h)]
    rfl
  · intro i hi
    rw [length_take_drop _ _ _ (by simpa using h)] at hi
    have hi4 : i < 4 := hi
    rw [getD_take_drop _ _ _ _ (by
      have : (4 : Int).toNat = 4 := rfl
      have : (8 : Int).toNat = 8 := rfl
      omega)]
    interval_cases i <;> rfl

/-- C5. Encode then decode: for a well-formed index `x` (so `Data` is non-empty) with empty
`Ext` and `0 ≤ Start*8 ≤ End*8 < 2^32`, `Bytes` returns a buffer on which
`ReadBitmapIndex` returns an index with the same `Start`, `End` and `Data` and an empty
`Ext`, that is `x` itself. -/
theorem C5_encode_decode_roundtrip (x : BitmapIndex) (hx : WellFormed x) (hext : x.Ext = [])
    (hs : 0 ≤ x.Start * 8) (hse : x.Start * 8 ≤ x.End * 8) (he : x.End * 8 < 2 ^ 32) :
    ∃ ib, Bytes (some x) = .ok ib ∧ ReadBitmapIndex ib = .ok x ∧
      ReadBitmapIndex ib = .ok ⟨x.Data, [], x.Start, x.End⟩ := by
  have hd := wf_data_pos x hx
  obtain ⟨hx1, hx2⟩ := hx
  obtain ⟨ib, hrun, hlen, h1, h2, h3⟩ := Bytes_spec x hd ⟨hs, by omega⟩ ⟨by omega, he⟩
  have key : ReadBitmapIndex ib = .ok ⟨x.Data, [], x.Start, x.End⟩ := by
    unfold ReadBitmapIndex
    simp only
    rw [if_neg (by omega), slice_header_lo ib (by omega), slice_header_hi ib (by omega)]
    simp only [bind, Except.bind]
    rw [h1 0 (by norm_num), h1 1 (by norm_num), h1 2 (by norm_num), h1 3 (by norm_num)]
    have q0 := h2 0 (by norm_num)
    have q1 := h2 1 (by norm_num)
    have q2 := h2 2 (by norm_num)
    have q3 := h2 3 (by norm_num)
    simp only [Nat.add_zero, Nat.reduceAdd] at q0 q1 q2 q3
    rw [q0, q1, q2, q3]
    simp only [Nat.sub_zero, Nat.reduceSub]
    rw [header_value _ (by omega), header_value _ (by omega)]
    have v1 : (((x.Start * 8).toNat : Nat) : Int).tdiv 8 = x.Start := by
      rw [Int.tdiv_eq_ediv (by omega) (by norm_num)]
      omega
    have v2 : (((x.End * 8).toNat : Nat) : Int).tdiv 8 = x.End := by
      rw [Int.tdiv_eq_ediv (by omega) (by norm_num)]
      omega
    rw [v1, v2, slice_ok _ _ _ (by omega), slice_ok _ _ _ (by omega)]
    simp only [pure, Except.pure]
    congr 2
    · apply list_ext_getD
      · rw [length_take_drop _ _ _ (by omega)]
        have : (8 : Int).toNat = 8 := rfl
        omega
      · intro i hi
        rw [length_take_drop _ _ _ (by omega)] at hi
        have e8 : (8 : Int).toNat = 8 := rfl
        rw [getD_take_drop _ _ _ _ (by omega), e8, h3 i (by omega)]
    · apply List.drop_of_length_le
      rw [List.length_take]
      omega
  refine ⟨ib, hrun, ?_, key⟩
  rw [key]
  congr 1
  cases x
  simp only at hext
  rw [hext]

/-- C5, at the index built from `[300, 400]` (blocks `37..50`). -/
theorem C5_encode_decode_roundtrip_witness :
    WellFormed ⟨[1, 0, 0, 0, 0, 0, 0, 0, 0, 0, 0, 0, 0, 16], [], 37, 50⟩ ∧
    Bytes (some ⟨[1, 0, 0, 0, 0, 0, 0, 0, 0, 0, 0, 0, 0, 16], [], 37, 50⟩)
      = .ok [0, 0, 1, 40, 0, 0, 1, 144, 1, 0, 0, 0, 0, 0, 0, 0, 0, 0, 0, 0, 0, 16] ∧
    ReadBitmapIndex [0, 0, 1, 40, 0, 0, 1, 144, 1, 0, 0, 0, 0, 0, 0, 0, 0, 0, 0, 0, 0, 16]
      = .ok ⟨[1, 0, 0, 0, 0, 0, 0, 0, 0, 0, 0, 0, 0, 16], [], 37, 50⟩ ∧
    ∃ ib, Bytes (some ⟨[1, 0, 0, 0, 0, 0, 0, 0, 0, 0, 0, 0, 0, 16], [], 37, 50⟩) = .ok ib ∧
      ReadBitmapIndex ib = .ok ⟨[1, 0, 0, 0, 0, 0, 0, 0, 0, 0, 0, 0, 0, 16], [], 37, 50⟩ ∧
      ReadBitmapIndex ib = .ok ⟨[1, 0, 0, 0, 0, 0, 0, 0, 0, 0, 0, 0, 0, 16], [], 37, 50⟩ :=
  ⟨by unfold WellFormed; decide, by decide, by decide,
    C5_encode_decode_roundtrip ⟨[1, 0, 0, 0, 0, 0, 0, 0, 0, 0, 0, 0, 0, 16], [], 37, 50⟩
      (by unfold WellFormed; decide) rfl (by decide) (by decide) (by decide)⟩

/-! ## Failure paths -/

/-- C6. On the 9-byte buffer `00 00 00 00 00 00 00 08 01` the header gives `Start = 0`,
`End = 1`, `dl = 2`, so `8 + dl = 10 > 9`: `ReadBitmapIndex` does not return the format
error, the slice expression `ib[8:10]` aborts. -/
theorem C6_read_overrun_aborts :
    ([0, 0, 0, 0, 0, 0, 0, 8, 1] : List Nat).length = 9 ∧
    (ReadIntFromBytes [0, 0, 0, 8]).tdiv 8 - (ReadIntFromBytes [0, 0, 0, 0]).tdiv 8 + 1 = 2 ∧
    ReadBitmapIndex [0, 0, 0, 0, 0, 0, 0, 8, 1] = .error (.crash .sliceBounds) ∧
    ReadBitmapIndex [0, 0, 0, 0, 0, 0, 0, 8, 1] ≠ .error (.error .cantRead) := by
  decide

/-- C7. `And` guards only its receiver: `nil.And(A)` is the sentinel for every `A`, while
`A.And(nil)` on a non-nil `A` dereferences the nil operand and aborts. -/
theorem C7_and_nil_operand :
    (∀ A : Option BitmapIndex, Bitmap.And none A = .ok none) ∧
    (∀ a : BitmapIndex, Bitmap.And (some a) none = .error (.crash .nilDereference)) ∧
    NewBitmapIndex [1] = .ok (some ⟨[2], [], 0, 0⟩) ∧
    (NewBitmapIndex [1]).bind (fun a => Bitmap.And a none)
      = .error (.crash .nilDereference) :=
  ⟨fun _ => rfl, fun _ => rfl, by decide, by decide⟩

/-- C8. `NewBitmapIndex` of the empty collection is the sentinel, and `Bytes` on the
sentinel reads `bi.Data` through the nil pointer: it aborts instead of returning the
empty-data error. -/
theorem C8_empty_build_then_bytes :
    NewBitmapIndex [] = .ok none ∧
    (NewBitmapIndex []).bind Bytes = .error (.crash .nilDereference) ∧
    (NewBitmapIndex []).bind Bytes ≠ .error (.error .indexDataEmpty) := by
  decide

/-- C9 fails as stated: `A.Not(A)` for `A = NewBitmapIndex [1]` (operand and receiver are
the same slice, `shared = some 0`) has the non-empty, all-zero data `[0]`, and `Slices` on
it returns the empty list, not the not-found error. -/
theorem C9_slices_all_zero_counterexample :
    NewBitmapIndex [1] = .ok (some ⟨[2], [], 0, 0⟩) ∧
    Bitmap.Not (some ⟨[2], [], 0, 0⟩) (some ⟨[2], [], 0, 0⟩) (some 0)
      = .ok (some ⟨[0], [], 0, 0⟩) ∧
    Slices (some ⟨[0], [], 0, 0⟩) = .ok [] ∧
    Slices (some ⟨[0], [], 0, 0⟩) ≠ .error (.error .notFoundItem) := by
  decide

/-- C9, amended. `Slices` returns the not-found error on the sentinel and on an index whose
`Data` is empty, and on nothing else: on an index with non-empty `Data` it returns the list
of set bits, which is empty exactly when no bit `0..7` of any data byte is set. -/
theorem C9_slices_error_exactly (x : BitmapIndex) :
    Slices none = .error (.error .notFoundItem) ∧
    Slices (some x) =
      (if x.Data = [] then .error (.error .notFoundItem) else .ok (slicesList x)) ∧
    (slicesList x = [] ↔
      ∀ i j, i < x.Data.length → j < 8 → (x.Data.getD i 0).testBit j = false) := by
  refine ⟨rfl, ?_, ?_⟩
  · simp only [Slices]
    by_cases h : x.Data = []
    · rw [if_pos h, if_pos (by rw [h]; exact Nat.le_refl 0)]
    · rw [if_neg h, if_neg (by
        have := List.length_pos.mpr h
        omega)]
  · rw [slicesList_eq_nil_iff, List.eq_nil_iff_forall_not_mem]
    constructor
    · intro h i j hi hj
      by_contra hb
      have hb2 : (x.Data.getD i 0).testBit j = true := by
        cases hc : (x.Data.getD i 0).testBit j
        · exact absurd hc hb
        · rfl
      exact h _ ((mem_slicesListZ x _).mpr ⟨i, j, hi, hj, hb2, rfl⟩)
    · intro h v hv
      obtain ⟨i, j, hi, hj, hb, _⟩ := (mem_slicesListZ x v).mp hv
      rw [h i j hi hj] at hb
      exact Bool.noConfusion hb

/-! ## Associativity of `Or` -/

theorem index_ext (r s : BitmapIndex) (hr : WellFormed r) (hs : WellFormed s)
    (h1 : r.Start = s.Start) (h2 : r.End = s.End) (h3 : r.Ext = s.Ext)
    (h4 : ∀ k, blockByte r k = blockByte s k) : r = s := by
  obtain ⟨hr1, hr2⟩ := hr
  obtain ⟨hs1, hs2⟩ := hs
  have hd : r.Data = s.Data := by
    apply list_ext_getD
    · omega
    · intro i hi
      have := h4 (r.End - i)
      rw [blockByte_of_mem r _ (by omega), blockByte_of_mem s _ (by omega)] at this
      have e1 : (r.End - (r.End - (i : Int))).toNat = i := by omega
      have e2 : (s.End - (r.End - (i : Int))).toNat = i := by omega
      rw [e1, e2] at this
      exact this
  cases r
  cases s
  simp only at h1 h2 h3 hd
  rw [h1, h2, h3, hd]

theorem unionFits_of_span (a b : BitmapIndex) (l : List (Option BitmapIndex))
    (h : SpanFits l) (ha : some a ∈ l) (hb : some b ∈ l) : UnionFits a b := by
  have h1 := h a a ha ha
  have h2 := h a b ha hb
  have h3 := h b a hb ha
  have h4 := h b b hb hb
  unfold UnionFits
  omega

theorem bind_ok_self (x : Except Fail (Option BitmapIndex)) :
    x.bind (fun o => Bitmap.Or none o) = x := by
  cases x <;> rfl

theorem Or_none_right (X : Option BitmapIndex) : Bitmap.Or X none = .ok X := by
  cases X <;> rfl

theorem bind_or_none (x : Except Fail (Option BitmapIndex)) :
    x.bind (fun o => Bitmap.Or o none) = x := by
  cases x with
  | error e => rfl
  | ok o => exact Or_none_right o

/-- Both groupings of three non-nil well-formed operands return the same index when every
range between their blocks can be allocated. -/
theorem or_assoc_some (a b c : BitmapIndex) (ha : WellFormed a) (hb : WellFormed b)
    (hc : WellFormed c) (hspan : SpanFits [some a, some b, some c]) :
    ∃ r, (Bitmap.Or (some a) (some b)).bind (fun ab => Bitmap.Or ab (some c))
        = .ok (some r) ∧
      (Bitmap.Or (some b) (some c)).bind (fun bc => Bitmap.Or (some a) bc) = .ok (some r) := by
  have p := hspan
  unfold SpanFits at p
  have q1 := p a a (by simp) (by simp)
  have q2 := p a b (by simp) (by simp)
  have q3 := p a c (by simp) (by simp)
  have q4 := p b a (by simp) (by simp)
  have q5 := p b b (by simp) (by simp)
  have q6 := p b c (by simp) (by simp)
  have q7 := p c a (by simp) (by simp)
  have q8 := p c b (by simp) (by simp)
  have q9 := p c c (by simp) (by simp)
  have fab : UnionFits a b := unionFits_of_span a b _ hspan (by simp) (by simp)
  have fbc : UnionFits b c := unionFits_of_span b c _ hspan (by simp) (by simp)
  obtain ⟨ab, hab, s1, e1, x1, w1, k1⟩ := Or_spec a b ha hb fab
  obtain ⟨bc, hbc, s3, e3, x3, w3, k3⟩ := Or_spec b c hb hc fbc
  have fabc : UnionFits ab c := by
    unfold UnionFits
    rw [s1, e1]
    omega
  have fa : UnionFits a bc := by
    unfold UnionFits
    rw [s3, e3]
    omega
  obtain ⟨abc, habc, s2, e2, x2, w2, k2⟩ := Or_spec ab c w1 hc fabc
  obtain ⟨abc2, habc2, s4, e4, x4, w4, k4⟩ := Or_spec a bc ha w3 fa
  have heq : abc = abc2 := by
    apply index_ext abc abc2 w2 w4
    · rw [s2, s4, s1, s3]
      omega
    · rw [e2, e4, e1, e3]
      omega
    · rw [x2, x4]
    · intro k
      rw [k2, k4, k1, k3, Nat.lor_assoc]
  refine ⟨abc, ?_, ?_⟩
  · rw [hab]
    exact habc
  · rw [hbc, heq]
    exact habc2

/-- C10 fails as stated: with `A` at block 0, `B` at block `2^62` and `C` the sentinel,
all well-formed or nil, neither `(A.Or(B)).Or(C)` nor `A.Or(B.Or(C))` returns a value:
`make` refuses the union range and both abort. -/
theorem C10_or_assoc_aborts_counterexample :
    WellFormedOpt (some ⟨[1], [], 0, 0⟩) ∧ WellFormedOpt (some ⟨[1], [], 2 ^ 62, 2 ^ 62⟩) ∧
    WellFormedOpt none ∧
    (Bitmap.Or (some ⟨[1], [], 0, 0⟩) (some ⟨[1], [], 2 ^ 62, 2 ^ 62⟩)).bind
        (fun ab => Bitmap.Or ab none) = .error (.crash .makeLength) ∧
    (Bitmap.Or (some ⟨[1], [], 2 ^ 62, 2 ^ 62⟩) none).bind
        (fun bc => Bitmap.Or (some ⟨[1], [], 0, 0⟩) bc) = .error (.crash .makeLength) := by
  refine ⟨by unfold WellFormedOpt WellFormed; decide,
    by unfold WellFormedOpt WellFormed; decide, by unfold WellFormedOpt; decide, by decide,
    by decide⟩

/-- C10, amended. `Or` is associative wherever it returns: for `A`, `B`, `C`, each the
sentinel or a well-formed index, such that every range from the first block of one operand
to the last block of another is at most `maxAlloc`, `(A.Or(B)).Or(C)` and `A.Or(B.Or(C))`
both return, and they return the same value (both nil, or equal in `Start`, `End`, `Data`
and `Ext`). -/
theorem C10_or_assoc (A B C : Option BitmapIndex) (hA : WellFormedOpt A)
    (hB : WellFormedOpt B) (hC : WellFormedOpt C) (hfit : SpanFits [A, B, C]) :
    ∃ r, (Bitmap.Or A B).bind (fun ab => Bitmap.Or ab C) = .ok r ∧
      (Bitmap.Or B C).bind (fun bc => Bitmap.Or A bc) = .ok r := by
  cases A with
  | none =>
    have e : (Bitmap.Or none B).bind (fun ab => Bitmap.Or ab C) = Bitmap.Or B C := rfl
    rw [e, bind_ok_self]
    cases B with
    | none => exact ⟨C, rfl, rfl⟩
    | some b =>
      cases C with
      | none => exact ⟨some b, rfl, rfl⟩
      | some c =>
        obtain ⟨r, hr, _⟩ := Or_spec b c hB hC
          (unionFits_of_span b c _ hfit (by simp) (by simp))
        exact ⟨some r, hr, hr⟩
  | some a =>
    cases B with
    | none =>
      have e1 : (Bitmap.Or (some a) none).bind (fun ab => Bitmap.Or ab C)
          = Bitmap.Or (some a) C := rfl
      have e2 : (Bitmap.Or none C).bind (fun bc => Bitmap.Or (some a) bc)
          = Bitmap.Or (some a) C := rfl
      rw [e1, e2]
      cases C with
      | none => exact ⟨some a, rfl, rfl⟩
      | some c =>
        obtain ⟨r, hr, _⟩ := Or_spec a c hA hC
          (unionFits_of_span a c _ hfit (by simp) (by simp))
        exact ⟨some r, hr, hr⟩
    | some b =>
      cases C with
      | none =>
        have e : (Bitmap.Or (some b) none).bind (fun bc => Bitmap.Or (some a) bc)
            = Bitmap.Or (some a) (some b) := rfl
        rw [e, bind_or_none]
        obtain ⟨r, hr, _⟩ := Or_spec a b hA hB
          (unionFits_of_span a b _ hfit (by simp) (by simp))
        exact ⟨some r, hr, hr⟩
      | some c =>
        obtain ⟨r, h1, h2⟩ := or_assoc_some a b c hA hB hC hfit
        exact ⟨some r, h1, h2⟩

/-- C10, amended, at `[1]`, `[16]` and `[9, 40]`: every range lies inside blocks `0..5`. -/
theorem C10_or_assoc_witness :
    (Bitmap.Or (some ⟨[2], [], 0, 0⟩) (some ⟨[1], [], 2, 2⟩)).bind
        (fun ab => Bitmap.Or ab (some ⟨[1, 0, 0, 0, 2], [], 1, 5⟩))
      = .ok (some ⟨[1, 0, 0, 1, 2, 2], [], 0, 5⟩) ∧
    ∃ r, (Bitmap.Or (some ⟨[2], [], 0, 0⟩) (some ⟨[1], [], 2, 2⟩)).bind
        (fun ab => Bitmap.Or ab (some ⟨[1, 0, 0, 0, 2], [], 1, 5⟩)) = .ok r ∧
      (Bitmap.Or (some ⟨[1], [], 2, 2⟩) (some ⟨[1, 0, 0, 0, 2], [], 1, 5⟩)).bind
        (fun bc => Bitmap.Or (some ⟨[2], [], 0, 0⟩) bc) = .ok r :=
  ⟨by decide,
    C10_or_assoc (some ⟨[2], [], 0, 0⟩) (some ⟨[1], [], 2, 2⟩)
      (some ⟨[1, 0, 0, 0, 2], [], 1, 5⟩)
      (by unfold WellFormedOpt WellFormed; decide) (by unfold WellFormedOpt WellFormed; decide)
      (by unfold WellFormedOpt WellFormed; decide)
      (by
        intro x y hx hy
        simp at hx hy
        rcases hx with rfl | rfl | rfl <;> rcases hy with rfl | rfl | rfl <;>
          simp [maxAlloc])⟩

/-! ## Commutativity -/

/-- C11 fails as stated: for the well-formed `A` at block 0 and `B` at block `2^62`,
neither `A.Or(B)` nor `B.Or(A)` returns a value: `make` refuses the union range and both
abort. -/
theorem C11_or_comm_aborts_counterexample :
    WellFormedOpt (some ⟨[1], [], 0, 0⟩) ∧ WellFormedOpt (some ⟨[1], [], 2 ^ 62, 2 ^ 62⟩) ∧
    Bitmap.Or (some ⟨[1], [], 0, 0⟩) (some ⟨[1], [], 2 ^ 62, 2 ^ 62⟩)
      = .error (.crash .makeLength) ∧
    Bitmap.Or (some ⟨[1], [], 2 ^ 62, 2 ^ 62⟩) (some ⟨[1], [], 0, 0⟩)
      = .error (.crash .makeLength) := by
  refine ⟨by unfold WellFormedOpt WellFormed; decide,
    by unfold WellFormedOpt WellFormed; decide, by decide, by decide⟩

/-- C11, amended. `Or` is commutative wherever it returns: for `A` and `B`, each the sentinel
or a well-formed index, whose union range is at most `maxAlloc`, `A.Or(B)` and `B.Or(A)`
both return, and they return the same value (both nil, or equal in `Start`, `End` and
`Data`), also where the second copy overwrites the first. -/
theorem C11_or_comm (A B : Option BitmapIndex) (hA : WellFormedOpt A) (hB : WellFormedOpt B)
    (hfit : SpanFits [A, B]) :
    ∃ r, Bitmap.Or A B = .ok r ∧ Bitmap.Or B A = .ok r := by
  cases A with
  | none =>
    cases B with
    | none => exact ⟨none, rfl, rfl⟩
    | some b => exact ⟨some b, rfl, rfl⟩
  | some a =>
    cases B with
    | none => exact ⟨some a, rfl, rfl⟩
    | some b =>
      have fab : UnionFits a b := unionFits_of_span a b _ hfit (by simp) (by simp)
      have fba : UnionFits b a := unionFits_of_span b a _ hfit (by simp) (by simp)
      obtain ⟨r, hr, s1, e1, x1, w1, k1⟩ := Or_spec a b hA hB fab
      obtain ⟨s, hs, s2, e2, x2, w2, k2⟩ := Or_spec b a hB hA fba
      have heq : r = s := by
        apply index_ext r s w1 w2
        · rw [s1, s2]
          exact min_comm _ _
        · rw [e1, e2]
          exact max_comm _ _
        · rw [x1, x2]
        · intro k
          rw [k1, k2, Nat.lor_comm]
      exact ⟨some r, hr, by rw [hs, heq]⟩

/-- C11, amended, at `NewBitmapIndex [3, 10, 18]` and `NewBitmapIndex [10, 20]`, whose
block ranges overlap in blocks `1..2`. -/
theorem C11_or_comm_witness :
    Bitmap.Or (some ⟨[4, 4, 8], [], 0, 2⟩) (some ⟨[16, 4], [], 1, 2⟩)
      = .ok (some ⟨[20, 4, 8], [], 0, 2⟩) ∧
    ∃ r, Bitmap.Or (some ⟨[4, 4, 8], [], 0, 2⟩) (some ⟨[16, 4], [], 1, 2⟩) = .ok r ∧
      Bitmap.Or (some ⟨[16, 4], [], 1, 2⟩) (some ⟨[4, 4, 8], [], 0, 2⟩) = .ok r :=
  ⟨by decide,
    C11_or_comm (some ⟨[4, 4, 8], [], 0, 2⟩) (some ⟨[16, 4], [], 1, 2⟩)
      (by unfold WellFormedOpt WellFormed; decide) (by unfold WellFormedOpt WellFormed; decide)
      (by
        intro x y hx hy
        simp at hx hy
        rcases hx with rfl | rfl <;> rcases hy with rfl | rfl <;> simp [maxAlloc])⟩

/-- C12. `And` is commutative: for well-formed `A` and `B`, `A.And(B)` and `B.And(A)` both
return and return the same value (both the sentinel, or equal in `Start`, `End` and
`Data`). -/
theorem C12_and_comm (A B : BitmapIndex) (hA : WellFormed A) (hB : WellFormed B) :
    ∃ o, Bitmap.And (some A) (some B) = .ok o ∧ Bitmap.And (some B) (some A) = .ok o := by
  by_cases hov : A.End < B.Start ∨ B.End < A.Start
  · refine ⟨none, ?_, ?_⟩
    · unfold Bitmap.And
      simp only [if_pos hov]
    · unfold Bitmap.And
      simp only [if_pos (Or.symm hov)]
  · have hov2 : ¬ (B.End < A.Start ∨ A.End < B.Start) := fun h => hov (Or.symm h)
    obtain ⟨r, f, hr, s1, e1, x1, w1, k1, g1⟩ := And_spec A B hA hB hov
    obtain ⟨s, g, hs, s2, e2, x2, w2, k2, g2⟩ := And_spec B A hB hA hov2
    have heq : r = s := by
      apply index_ext r s w1 w2
      · rw [s1, s2]
        exact max_comm _ _
      · rw [e1, e2]
        exact min_comm _ _
      · rw [x1, x2]
      · intro k
        rw [k1, k2, Nat.land_comm]
    have hfg : f = g := by
      have h : f = true ↔ g = true := by
        rw [g1, g2]
        constructor
        · rintro ⟨k, hk⟩
          exact ⟨k, by rw [Nat.land_comm]; exact hk⟩
        · rintro ⟨k, hk⟩
          exact ⟨k, by rw [Nat.land_comm]; exact hk⟩
      cases f <;> cases g <;> simp_all
    refine ⟨_, hr, ?_⟩
    rw [hs, heq, hfg]

/-- C12, at `NewBitmapIndex [3, 10, 18]` and `NewBitmapIndex [10, 20]`. -/
theorem C12_and_comm_witness :
    Bitmap.And (some ⟨[16, 4], [], 1, 2⟩) (some ⟨[4, 4, 8], [], 0, 2⟩)
      = .ok (some ⟨[0, 4], [], 1, 2⟩) ∧
    ∃ o, Bitmap.And (some ⟨[4, 4, 8], [], 0, 2⟩) (some ⟨[16, 4], [], 1, 2⟩) = .ok o ∧
      Bitmap.And (some ⟨[16, 4], [], 1, 2⟩) (some ⟨[4, 4, 8], [], 0, 2⟩) = .ok o :=
  ⟨by decide,
    C12_and_comm ⟨[4, 4, 8], [], 0, 2⟩ ⟨[16, 4], [], 1, 2⟩
      (by unfold WellFormed; decide) (by unfold WellFormed; decide)⟩

/-! ## The sentinel and `Or` -/

theorem Or_some_some_ne_none (a b : BitmapIndex) :
    Bitmap.Or (some a) (some b) ≠ .ok none := by
  intro h
  unfold Bitmap.Or at h
  simp only [bind, Except.bind, pure, Except.pure] at h
  repeat (split at h <;> try (simp at h))

/-- C17. The sentinel is the identity of `Or`: for every pointer `A`, `nil.Or(A)` and
`A.Or(nil)` return `A` itself, and `A.Or(B)` is the sentinel exactly when both operands
are the sentinel. -/
theorem C17_or_sentinel_identity (A B : Option BitmapIndex) :
    Bitmap.Or none A = .ok A ∧ Bitmap.Or A none = .ok A ∧
    (Bitmap.Or A B = .ok none ↔ A = none ∧ B = none) := by
  refine ⟨rfl, by cases A <;> rfl, ?_⟩
  cases A with
  | none =>
    cases B with
    | none => simp [Bitmap.Or]
    | some b => simp [Bitmap.Or]
  | some a =>
    cases B with
    | none => simp [Bitmap.Or]
    | some b =>
      constructor
      · intro h
        exact absurd h (Or_some_some_ne_none a b)
      · rintro ⟨h, _⟩
        cases h

/-! ## Preservation of the data-model invariant -/

theorem And_returns (A B : BitmapIndex) (hA : WellFormed A) (hB : WellFormed B) :
    ∃ o, Bitmap.And (some A) (some B) = .ok o ∧ ∀ r, o = some r → WellFormed r := by
  by_cases hov : A.End < B.Start ∨ B.End < A.Start
  · refine ⟨none, ?_, fun r h => by cases h⟩
    unfold Bitmap.And
    simp only [if_pos hov]
  · obtain ⟨r, f, hr, _, _, _, w1, _, _⟩ := And_spec A B hA hB hov
    refine ⟨_, hr, ?_⟩
    intro r2 h
    cases f with
    | false => simp at h
    | true =>
      simp only [if_true, Option.some.injEq] at h
      rw [← h]
      exact w1

/-- C19. The set algebra preserves the data-model invariant: for well-formed `A` and `B`,
`A.And(B)` and `A.Not(B)` (whatever the memory relation of the operands) return and every
non-sentinel result is well-formed; `A.Or(B)` returns a well-formed non-sentinel index when
the union range is at most `maxAlloc`, and on operands that are Go values (`Start`, `End`
64-bit `int`s, `Data` of at most `maxAlloc` bytes) it returns in no other case, so every
result of `Or` is well-formed; `Slices` decodes every result without leaving a slice. -/
theorem C19_algebra_preserves_wf (A B : BitmapIndex) (hA : WellFormed A) (hB : WellFormed B) :
    (∃ o, Bitmap.And (some A) (some B) = .ok o ∧
      ∀ r, o = some r → WellFormed r ∧ Slices (some r) = .ok (slicesList r)) ∧
    ((UnionFits A B → ∃ r, Bitmap.Or (some A) (some B) = .ok (some r) ∧
        WellFormed r ∧ Slices (some r) = .ok (slicesList r)) ∧
      (GoTyped A → GoTyped B → ∀ o, Bitmap.Or (some A) (some B) = .ok o →
        ∃ r, o = some r ∧ WellFormed r ∧ Slices (some r) = .ok (slicesList r))) ∧
    (∀ shared, ∃ o, Bitmap.Not (some A) (some B) shared = .ok o ∧
      ∀ r, o = some r → WellFormed r ∧ Slices (some r) = .ok (slicesList r)) := by
  refine ⟨?_, ⟨?_, ?_⟩, ?_⟩
  · obtain ⟨o, ho, hw⟩ := And_returns A B hA hB
    exact ⟨o, ho, fun r h => ⟨hw r h, Slices_of_wf r (hw r h)⟩⟩
  · intro fab
    obtain ⟨r, hr, _, _, _, w, _⟩ := Or_spec A B hA hB fab
    exact ⟨r, hr, w, Slices_of_wf r w⟩
  · intro tA tB o ho
    by_cases fab : UnionFits A B
    · obtain ⟨r, hr, _, _, _, w, _⟩ := Or_spec A B hA hB fab
      rw [hr] at ho
      simp only [Except.ok.injEq] at ho
      exact ⟨r, ho.symm, w, Slices_of_wf r w⟩
    · obtain ⟨c, hc⟩ := Or_aborts A B hA hB tA tB fab
      rw [hc] at ho
      cases ho
  · intro shared
    obtain ⟨r, hr, hs, he, _, hlen⟩ := Not_shape A B hA hB shared
    have w : WellFormed r := by
      obtain ⟨h1, h2⟩ := hA
      exact ⟨by rw [hs, he]; exact h1, by rw [hlen, hs, he]; exact h2⟩
    refine ⟨some r, hr, ?_⟩
    intro r2 h
    simp only [Option.some.injEq] at h
    rw [← h]
    exact ⟨w, Slices_of_wf r w⟩

/-- C19, at `NewBitmapIndex [3, 10, 18]` and `NewBitmapIndex [10, 20]`, whose union range
of 3 blocks is granted. -/
theorem C19_algebra_preserves_wf_witness :
    UnionFits ⟨[4, 4, 8], [], 0, 2⟩ ⟨[16, 4], [], 1, 2⟩ ∧
    Bitmap.And (some ⟨[4, 4, 8], [], 0, 2⟩) (some ⟨[16, 4], [], 1, 2⟩)
      = .ok (some ⟨[0, 4], [], 1, 2⟩) ∧
    Bitmap.Or (some ⟨[4, 4, 8], [], 0, 2⟩) (some ⟨[16, 4], [], 1, 2⟩)
      = .ok (some ⟨[20, 4, 8], [], 0, 2⟩) ∧
    Bitmap.Not (some ⟨[4, 4, 8], [], 0, 2⟩) (some ⟨[16, 4], [], 1, 2⟩) none
      = .ok (some ⟨[4, 0, 8], [], 0, 2⟩) ∧
    ((∃ o, Bitmap.And (some ⟨[4, 4, 8], [], 0, 2⟩) (some ⟨[16, 4], [], 1, 2⟩) = .ok o ∧
      ∀ r, o = some r → WellFormed r ∧ Slices (some r) = .ok (slicesList r)) ∧
    ((UnionFits ⟨[4, 4, 8], [], 0, 2⟩ ⟨[16, 4], [], 1, 2⟩ →
        ∃ r, Bitmap.Or (some ⟨[4, 4, 8], [], 0, 2⟩) (some ⟨[16, 4], [], 1, 2⟩)
          = .ok (some r) ∧
        WellFormed r ∧ Slices (some r) = .ok (slicesList r)) ∧
      (GoTyped ⟨[4, 4, 8], [], 0, 2⟩ → GoTyped ⟨[16, 4], [], 1, 2⟩ →
        ∀ o, Bitmap.Or (some ⟨[4, 4, 8], [], 0, 2⟩) (some ⟨[16, 4], [], 1, 2⟩) = .ok o →
        ∃ r, o = some r ∧ WellFormed r ∧ Slices (some r) = .ok (slicesList r))) ∧
    (∀ shared, ∃ o,
      Bitmap.Not (some ⟨[4, 4, 8], [], 0, 2⟩) (some ⟨[16, 4], [], 1, 2⟩) shared = .ok o ∧
      ∀ r, o = some r → WellFormed r ∧ Slices (some r) = .ok (slicesList r))) :=
  ⟨by unfold UnionFits maxAlloc; decide, by decide, by decide, by decide,
    C19_algebra_preserves_wf ⟨[4, 4, 8], [], 0, 2⟩ ⟨[16, 4], [], 1, 2⟩
      (by unfold WellFormed; decide) (by unfold WellFormed; decide)⟩

/-! ## Wire format -/

theorem specBE32_getD (n i : Nat) (hi : i < 4) :
    (specBE32 n).getD i 0 = n / 256 ^ (3 - i) % 256 := by
  unfold specBE32
  interval_cases i <;> norm_num

theorem specBE32_length (n : Nat) : (specBE32 n).length = 4 := rfl

/-- C13. Encoder wire format: for a non-nil index whose `Start*8` and `End*8` lie in
`[0, 2^32)`, `Bytes` returns the empty-data error exactly when `Data` is empty; otherwise it
returns the `8 + len(Data)` bytes made of `Start*8` and `End*8` as big-endian 32-bit fields
followed by `Data`; `Ext` does not enter the output. -/
theorem C13_bytes_wire_format (x : BitmapIndex)
    (hs : 0 ≤ x.Start * 8 ∧ x.Start * 8 < 2 ^ 32) (he : 0 ≤ x.End * 8 ∧ x.End * 8 < 2 ^ 32) :
    (Bytes (some x) = .error (.error .indexDataEmpty) ↔ x.Data.length = 0) ∧
    (x.Data.length ≠ 0 →
      Bytes (some x)
        = .ok (specBE32 (x.Start * 8).toNat ++ specBE32 (x.End * 8).toNat ++ x.Data) ∧
      (specBE32 (x.Start * 8).toNat ++ specBE32 (x.End * 8).toNat ++ x.Data).length
        = 8 + x.Data.length) ∧
    (∀ ext, Bytes (some ⟨x.Data, ext, x.Start, x.End⟩) = Bytes (some x)) := by
  have hfull : x.Data.length ≠ 0 →
      Bytes (some x)
        = .ok (specBE32 (x.Start * 8).toNat ++ specBE32 (x.End * 8).toNat ++ x.Data) := by
    intro hne
    obtain ⟨ib, hrun, hlen, h1, h2, h3⟩ := Bytes_spec x (Nat.pos_of_ne_zero hne) hs he
    rw [hrun]
    congr 1
    apply list_ext_getD
    · simp only [List.length_append, specBE32_length]
      omega
    · intro i hi
      by_cases c1 : i < 4
      · rw [h1 i c1, List.append_assoc, List.getD_append _ _ _ _ (by rw [specBE32_length]; exact c1),
          specBE32_getD _ _ c1]
      · by_cases c2 : i < 8
        · have e : i = 4 + (i - 4) := by omega
          rw [List.append_assoc, List.getD_append_right _ _ _ _ (by rw [specBE32_length]; omega),
            List.getD_append _ _ _ _ (by rw [specBE32_length, specBE32_length]; omega),
            specBE32_length, specBE32_getD _ _ (by omega)]
          rw [e, h2 (i - 4) (by omega)]
          congr 3
          omega
        · have e : i = 8 + (i - 8) := by omega
          rw [List.getD_append_right _ _ _ _ (by
            simp only [List.length_append, specBE32_length]; omega)]
          simp only [List.length_append, specBE32_length]
          rw [e, h3 (i - 8) (by omega)]
          congr 1
          omega
  refine ⟨?_, ?_, fun _ => rfl⟩
  · constructor
    · intro h
      by_contra hne
      rw [hfull hne] at h
      cases h
    · intro h0
      simp only [Bytes]
      rw [if_pos (by omega)]
  · intro hne
    refine ⟨hfull hne, ?_⟩
    rw [List.length_append, List.length_append, specBE32_length, specBE32_length]

/-- C13, at the index built from `[300, 400]` with a non-empty `Ext`. -/
theorem C13_bytes_wire_format_witness :
    Bytes (some ⟨[1, 0, 0, 0, 0, 0, 0, 0, 0, 0, 0, 0, 0, 16], [7, 7], 37, 50⟩)
      = .ok [0, 0, 1, 40, 0, 0, 1, 144, 1, 0, 0, 0, 0, 0, 0, 0, 0, 0, 0, 0, 0, 16] ∧
    ((Bytes (some ⟨[1, 0, 0, 0, 0, 0, 0, 0, 0, 0, 0, 0, 0, 16], [7, 7], 37, 50⟩)
        = .error (.error .indexDataEmpty) ↔
      ([1, 0, 0, 0, 0, 0, 0, 0, 0, 0, 0, 0, 0, 16] : List Nat).length = 0) ∧
    (([1, 0, 0, 0, 0, 0, 0, 0, 0, 0, 0, 0, 0, 16] : List Nat).length ≠ 0 →
      Bytes (some ⟨[1, 0, 0, 0, 0, 0, 0, 0, 0, 0, 0, 0, 0, 16], [7, 7], 37, 50⟩)
        = .ok (specBE32 ((37 : Int) * 8).toNat ++ specBE32 ((50 : Int) * 8).toNat
            ++ [1, 0, 0, 0, 0, 0, 0, 0, 0, 0, 0, 0, 0, 16]) ∧
      (specBE32 ((37 : Int) * 8).toNat ++ specBE32 ((50 : Int) * 8).toNat
            ++ [1, 0, 0, 0, 0, 0, 0, 0, 0, 0, 0, 0, 0, 16]).length
        = 8 + ([1, 0, 0, 0, 0, 0, 0, 0, 0, 0, 0, 0, 0, 16] : List Nat).length) ∧
    (∀ ext, Bytes (some ⟨[1, 0, 0, 0, 0, 0, 0, 0, 0, 0, 0, 0, 0, 16], ext, 37, 50⟩)
      = Bytes (some ⟨[1, 0, 0, 0, 0, 0, 0, 0, 0, 0, 0, 0, 0, 16], [7, 7], 37, 50⟩))) :=
  ⟨by decide,
    C13_bytes_wire_format ⟨[1, 0, 0, 0, 0, 0, 0, 0, 0, 0, 0, 0, 0, 16], [7, 7], 37, 50⟩
      (by decide) (by decide)⟩

theorem take_four (ib : List Nat) (h : 8 ≤ ib.length) :
    ib.take 4 = [ib.getD 0 0, ib.getD 1 0, ib.getD 2 0, ib.getD 3 0] := by
  apply list_ext_getD
  · rw [List.length_take]
    simp only [List.length_cons, List.length_nil]
    omega
  · intro i hi
    rw [List.length_take] at hi
    have hi4 : i < 4 := by omega
    rw [getD_take_of_lt _ _ _ hi4]
    interval_cases i <;> rfl

theorem drop_take_four (ib : List Nat) (h : 8 ≤ ib.length) :
    (ib.drop 4).take 4 = [ib.getD 4 0, ib.getD 5 0, ib.getD 6 0, ib.getD 7 0] := by
  apply list_ext_getD
  · rw [List.length_take, List.length_drop]
    simp only [List.length_cons, List.length_nil]
    omega
  · intro i hi
    rw [List.length_take, List.length_drop] at hi
    have hi4 : i < 4 := by omega
    rw [getD_take_of_lt _ _ _ hi4]
    simp only [List.getD_eq_getElem?_getD, List.getElem?_drop]
    interval_cases i <;> rfl

theorem specBEValue_four (a b c d : Nat) :
    specBEValue [a, b, c, d] = a * 2 ^ 24 + b * 2 ^ 16 + c * 2 ^ 8 + d := by
  simp only [specBEValue, List.foldl_cons, List.foldl_nil]
  ring

/-- C14. Decoder parse: a buffer of length `L ≤ 8` is refused with the format error; a
buffer of bytes with `L > 8` whose header holds the big-endian values `s` and `e`, with
`dl = e/8 - s/8 + 1` and `1 ≤ dl ≤ L - 8`, decodes to `Start = s/8`, `End = e/8`,
`Data = bytes [8, 8+dl)` and `Ext = bytes [8+dl, L)`. -/
theorem C14_read_parse (ib : List Nat) (hb : IsBytes ib) :
    (ib.length ≤ 8 → ReadBitmapIndex ib = .error (.error .cantRead)) ∧
    (8 < ib.length →
      1 ≤ ((specBEValue ((ib.drop 4).take 4) / 8 : Nat) : Int)
            - ((specBEValue (ib.take 4) / 8 : Nat) : Int) + 1 →
      ((specBEValue ((ib.drop 4).take 4) / 8 : Nat) : Int)
            - ((specBEValue (ib.take 4) / 8 : Nat) : Int) + 1 ≤ (ib.length : Int) - 8 →
      ReadBitmapIndex ib = .ok
        ⟨(ib.take (8 + (specBEValue ((ib.drop 4).take 4) / 8 - specBEValue (ib.take 4) / 8 + 1))).drop 8,
         ib.drop (8 + (specBEValue ((ib.drop 4).take 4) / 8 - specBEValue (ib.take 4) / 8 + 1)),
         ((specBEValue (ib.take 4) / 8 : Nat) : Int),
         ((specBEValue ((ib.drop 4).take 4) / 8 : Nat) : Int)⟩) := by
  constructor
  · intro h
    unfold ReadBitmapIndex
    simp only
    rw [if_pos h]
  · intro hL
    rw [take_four ib (by omega), drop_take_four ib (by omega), specBEValue_four, specBEValue_four]
    have b0 := getD_lt_of_isBytes ib hb 0
    have b1 := getD_lt_of_isBytes ib hb 1
    have b2 := getD_lt_of_isBytes ib hb 2
    have b3 := getD_lt_of_isBytes ib hb 3
    have b4 := getD_lt_of_isBytes ib hb 4
    have b5 := getD_lt_of_isBytes ib hb 5
    have b6 := getD_lt_of_isBytes ib hb 6
    have b7 := getD_lt_of_isBytes ib hb 7
    generalize hs : ib.getD 0 0 * 2 ^ 24 + ib.getD 1 0 * 2 ^ 16 + ib.getD 2 0 * 2 ^ 8 + ib.getD 3 0 = s
    generalize hev : ib.getD 4 0 * 2 ^ 24 + ib.getD 5 0 * 2 ^ 16 + ib.getD 6 0 * 2 ^ 8 + ib.getD 7 0 = e
    intro h1 h2
    unfold ReadBitmapIndex
    simp only
    rw [if_neg (by omega), slice_header_lo ib (by omega), slice_header_hi ib (by omega)]
    simp only [bind, Except.bind]
    rw [readInt_four _ _ _ _ b0 b1 b2 b3, readInt_four _ _ _ _ b4 b5 b6 b7, hs, hev]
    have v1 : ((s : Nat) : Int).tdiv 8 = ((s / 8 : Nat) : Int) := by
      rw [Int.tdiv_eq_ediv (by omega) (by norm_num)]
      omega
    have v2 : ((e : Nat) : Int).tdiv 8 = ((e / 8 : Nat) : Int) := by
      rw [Int.tdiv_eq_ediv (by omega) (by norm_num)]
      omega
    rw [v1, v2, slice_ok _ _ _ (by omega), slice_ok _ _ _ (by omega)]
    simp only [pure, Except.pure]
    have t1 : (8 + (((e / 8 : Nat) : Int) - ((s / 8 : Nat) : Int) + 1)).toNat
        = 8 + (e / 8 - s / 8 + 1) := by omega
    have t2 : (8 : Int).toNat = 8 := rfl
    have t3 : ((ib.length : Nat) : Int).toNat = ib.length := by omega
    rw [t1, t2, t3, List.take_of_length_le (Nat.le_refl ib.length)]

/-- C14, at a 12-byte buffer with two data bytes and two trailing bytes, and at an 8-byte
buffer, which is refused. -/
theorem C14_read_parse_witness :
    ReadBitmapIndex [0, 0, 0, 8, 0, 0, 0, 16, 5, 6, 7, 9] = .ok ⟨[5, 6], [7, 9], 1, 2⟩ ∧
    ReadBitmapIndex [0, 0, 0, 8, 0, 0, 0, 16] = .error (.error .cantRead) :=
  ⟨(C14_read_parse [0, 0, 0, 8, 0, 0, 0, 16, 5, 6, 7, 9] (by unfold IsBytes; decide)).2
      (by decide) (by decide) (by decide),
    (C14_read_parse [0, 0, 0, 8, 0, 0, 0, 16] (by unfold IsBytes; decide)).1 (by decide)⟩

/-! ## Layout decoded by `Slices` -/

/-- C15 fails as stated: the well-formed index with data `[1, 1]` over blocks
`2^60-1 .. 2^60` decodes block `2^60` to `2^60 * 8` wrapped to `-2^63`, so `Slices`
returns `[2^63-8, -2^63]`, which is not ascending and holds a value below `Start*8`. -/
theorem C15_slices_wrap_counterexample :
    WellFormed ⟨[1, 1], [], 2 ^ 60 - 1, 2 ^ 60⟩ ∧
    Slices (some ⟨[1, 1], [], 2 ^ 60 - 1, 2 ^ 60⟩) = .ok [2 ^ 63 - 8, -2 ^ 63] ∧
    ¬ ((2 : Int) ^ 63 - 8 < -2 ^ 63) ∧
    ¬ (((2 : Int) ^ 60 - 1) * 8 ≤ -2 ^ 63) := by
  refine ⟨by unfold WellFormed; decide, by decide, by decide, by decide⟩

/-- C15, amended. `Slices` decodes the reversed-block layout of values that fit a 64-bit
`int`: on a well-formed index with `-2^63 ≤ Start*8` and `End*8+7 < 2^63` it returns a
strictly ascending list that holds `v` exactly when `Start*8 ≤ v ≤ End*8+7` and bit
`v mod 8` of the byte `Data[End - v div 8]` is set. -/
theorem C15_slices_layout (x : BitmapIndex) (hx : WellFormed x) (hr : InRange64 x) :
    ∃ l, Slices (some x) = .ok l ∧ l.Sorted (fun a b => a < b) ∧
      ∀ v, v ∈ l ↔
        (x.Start * 8 ≤ v ∧ v ≤ x.End * 8 + 7 ∧
          (x.Data.getD (x.End - v / 8).toNat 0 &&& (1 <<< (v % 8).toNat) > 0)) := by
  refine ⟨slicesList x, Slices_of_wf x hx, ?_, ?_⟩
  · rw [slicesList_of_range x hx hr]
    exact sorted_slicesListZ x
  intro v
  rw [slicesList_of_range x hx hr, mem_slicesListZ_iff x hx, bit_test_iff]
  unfold blockByte
  constructor
  · intro h
    by_cases hc : x.Start ≤ v / 8 ∧ v / 8 ≤ x.End
    · rw [if_pos hc] at h
      exact ⟨by omega, by omega, h⟩
    · rw [if_neg hc] at h
      simp at h
  · rintro ⟨h1, h2, h3⟩
    rw [if_pos (by omega)]
    exact h3

/-- C15, amended, at `NewBitmapIndex [3, 10, 18]`, whose data `[4, 4, 8]` holds block 2
first. -/
theorem C15_slices_layout_witness :
    Slices (some ⟨[4, 4, 8], [], 0, 2⟩) = .ok [3, 10, 18] ∧
    ∃ l, Slices (some ⟨[4, 4, 8], [], 0, 2⟩) = .ok l ∧ l.Sorted (fun a b => a < b) ∧
      ∀ v, v ∈ l ↔
        ((0 : Int) * 8 ≤ v ∧ v ≤ (2 : Int) * 8 + 7 ∧
          (([4, 4, 8] : List Nat).getD ((2 : Int) - v / 8).toNat 0
            &&& (1 <<< (v % 8).toNat) > 0)) :=
  ⟨by decide, C15_slices_layout ⟨[4, 4, 8], [], 0, 2⟩ (by unfold WellFormed; decide)
    (by unfold InRange64; decide)⟩

/-! ## Header not validated -/

/-- Shape of every index that `ReadBitmapIndex` returns: the data length is
`End - Start + 1`, which may be zero. -/
theorem ReadBitmapIndex_shape (ib : List Nat) (x : BitmapIndex)
    (h : ReadBitmapIndex ib = .ok x) :
    (x.Data.length : Int) = x.End - x.Start + 1 ∧ x.Start - 1 ≤ x.End := by
  unfold ReadBitmapIndex at h
  simp only at h
  split at h
  · cases h
  · simp only [bind, Except.bind] at h
    split at h
    · cases h
    · split at h
      · cases h
      · rename_i h1 _ _ h2 _
        split at h
        · cases h
        · rename_i d hd
          split at h
          · cases h
          · rename_i ext hext
            simp only [pure, Except.pure, Except.ok.injEq] at h
            unfold slice at hd
            split at hd
            · rename_i hc
              simp only [Except.ok.injEq] at hd
              rw [← h]
              simp only
              rw [← hd, length_take_drop _ _ _ (by omega)]
              have e8 : (8 : Int).toNat = 8 := rfl
              omega
            · cases hd

/-- C20. On the 9-byte buffer `00 00 00 10 00 00 00 08 01` the header gives `Start = 2`
and `End = 1`: `ReadBitmapIndex` returns without error an index with `End < Start` and no
data byte, which is not well-formed. -/
theorem C20_read_returns_ill_formed :
    ReadBitmapIndex [0, 0, 0, 16, 0, 0, 0, 8, 1] = .ok ⟨[], [1], 2, 1⟩ ∧
    ¬ WellFormed ⟨[], [1], 2, 1⟩ ∧
    ¬ ((1 : Int) ≥ 2) ∧ ([] : List Nat).length = 0 := by
  refine ⟨by unfold ReadBitmapIndex; decide, ?_, by decide, rfl⟩
  unfold WellFormed
  decide

/-! ## Shape of a built index -/

theorem getLastD_mem_cons (l : List Int) : ∀ d : Int, l.getLastD d ∈ d :: l := by
  induction l with
  | nil => intro d; simp [List.getLastD]
  | cons a l ih =>
    intro d
    rw [List.getLastD_cons]
    exact List.mem_cons_of_mem d (ih a)

theorem sorted_le_getLastD (l : List Int) : ∀ d : Int,
    (d :: l).Sorted (fun a b => a ≤ b) → ∀ x ∈ d :: l, x ≤ l.getLastD d := by
  induction l with
  | nil =>
    intro d _ x hx
    rw [List.mem_singleton] at hx
    rw [hx]
    exact le_refl _
  | cons a l ih =>
    intro d hs x hx
    rw [List.getLastD_cons]
    have hs2 : (a :: l).Sorted (fun a b => a ≤ b) := List.Sorted.of_cons hs
    have hda : d ≤ a := List.rel_of_sorted_cons hs a (List.mem_cons_self a l)
    rcases List.mem_cons.mp hx with h | h
    · rw [h]
      exact le_trans hda (ih a hs2 a (List.mem_cons_self a l))
    · exact ih a hs2 x h

theorem sorted_getLastD (s : List Int) (hne : s ≠ []) (hs : s.Sorted (fun a b => a ≤ b)) :
    s.getLastD 0 ∈ s ∧ ∀ x ∈ s, x ≤ s.getLastD 0 := by
  cases s with
  | nil => exact absurd rfl hne
  | cons a l =>
    rw [List.getLastD_cons]
    exact ⟨getLastD_mem_cons l a, sorted_le_getLastD l a hs⟩

/-- Length and leading byte of the data that `NewBitmapIndex` builds from the sorted
values `s`, whose smallest element is `mn` and largest `mx`. -/
theorem built_shape (s : List Int) (hs : ∀ x ∈ s, IsNonNegInt x) (mn mx : Int)
    (hmn : mn ∈ s) (hmx : mx ∈ s) (hmin : ∀ x ∈ s, mn ≤ x) (hmax : ∀ x ∈ s, x ≤ mx) :
    ((bigBytes (s.foldl (fun b sv => b ||| (1 <<< toUint (sv - mn / 8 * 8))) 0)).length : Int)
        = mx / 8 - mn / 8 + 1 ∧
    (bigBytes (s.foldl (fun b sv => b ||| (1 <<< toUint (sv - mn / 8 * 8))) 0)).getD 0 0 ≠ 0 := by
  generalize hb : s.foldl (fun b sv => b ||| (1 <<< toUint (sv - mn / 8 * 8))) 0 = b
  have hbit : ∀ m, b.testBit m = true ↔ ∃ sv ∈ s, toUint (sv - mn / 8 * 8) = m := by
    intro m
    rw [← hb, testBit_foldl_or]
    simp
  have h0 := (hs mn hmn).1
  have hoff : ∀ sv ∈ s, ((toUint (sv - mn / 8 * 8) : Nat) : Int) = sv - mn / 8 * 8 := by
    intro sv hsv
    have h1 := hmin sv hsv
    have h2 := (hs sv hsv).2
    apply toUint_of_nonneg
    · omega
    · omega
  have hM := hoff mx hmx
  generalize hMdef : toUint (mx - mn / 8 * 8) = M at hM
  have hMbit : b.testBit M = true := (hbit M).mpr ⟨mx, hmx, hMdef⟩
  have hle : ∀ m, b.testBit m = true → m ≤ M := by
    intro m hm
    obtain ⟨sv, hsv, he⟩ := (hbit m).mp hm
    have h1 := hoff sv hsv
    have h2 := hmax sv hsv
    omega
  have hlow : 2 ^ M ≤ b := Nat.testBit_implies_ge hMbit
  have hup : b < 2 ^ (M + 1) := by
    apply Nat.lt_pow_two_of_testBit
    intro i hi
    cases hc : b.testBit i
    · rfl
    · have := hle i hc
      omega
  have hbne : b ≠ 0 := by
    have : 0 < 2 ^ M := Nat.pos_pow_of_pos M (by norm_num)
    omega
  have hL1 := bigBytes_ge b hbne
  have hL2 := bigBytes_lt b
  have hLpos : 0 < (bigBytes b).length := List.length_pos.mpr (bigBytes_ne_nil b hbne)
  generalize hLdef : (bigBytes b).length = L at hL1 hL2 hLpos
  have e256 : ∀ n : Nat, (256 : Nat) ^ n = 2 ^ (8 * n) := by
    intro n
    rw [show (256 : Nat) = 2 ^ 8 by norm_num, ← pow_mul]
  rw [e256] at hL1 hL2
  have c1 : 8 * (L - 1) < M + 1 := by
    by_contra hge
    have : 2 ^ (M + 1) ≤ 2 ^ (8 * (L - 1)) :=
      Nat.pow_le_pow_right (by norm_num) (Nat.le_of_not_lt hge)
    omega
  have c2 : M < 8 * L := by
    by_contra hge
    have : 2 ^ (8 * L) ≤ 2 ^ M := Nat.pow_le_pow_right (by norm_num) (Nat.le_of_not_lt hge)
    omega
  constructor
  · omega
  · have hg := bigBytes_getD b 0 (by rw [hLdef]; exact hLpos)
    rw [hLdef] at hg
    rw [hg, Nat.sub_zero, e256]
    have hpos : 0 < 2 ^ (8 * (L - 1)) := Nat.pos_pow_of_pos _ (by norm_num)
    have q1 : 1 ≤ b / 2 ^ (8 * (L - 1)) := (Nat.le_div_iff_mul_le hpos).mpr (by omega)
    have q2 : b / 2 ^ (8 * (L - 1)) < 256 := by
      apply Nat.div_lt_of_lt_mul
      have e : 2 ^ (8 * (L - 1)) * 256 = 2 ^ (8 * L) := by
        rw [show (256 : Nat) = 2 ^ 8 by norm_num, ← pow_add]
        congr 1
        omega
      rw [e]
      exact hL2
    rw [Nat.mod_eq_of_lt q2]
    omega

theorem LshFits_mono (s t : Nat) (h : s ≤ t) (ht : LshFits t) : LshFits s := by
  unfold LshFits at ht ⊢
  have : s / 64 ≤ t / 64 := Nat.div_le_div_right h
  omega

/-- The shifts of a collection fit as soon as the largest one does. -/
theorem pairs_fit (S : List Int) (mn mx : Int) (hmin : ∀ x ∈ S, mn ≤ x)
    (hmax : ∀ x ∈ S, x ≤ mx) (hfit : LshFits (mx - mn / 8 * 8).toNat) :
    ∀ x ∈ S, ∀ y ∈ S, LshFits (y - x / 8 * 8).toNat := by
  intro x hx y hy
  have h1 := hmin x hx
  have h2 := hmax y hy
  exact LshFits_mono _ _ (by omega) hfit

/-- C16 fails as stated: on `[0, 2^62]` (smallest value 0, largest `2^62`) the shift by
`2^62` is refused by the allocator and `NewBitmapIndex` aborts instead of returning an
index of `2^59 + 1` bytes. -/
theorem C16_builder_aborts_counterexample :
    (∀ x ∈ ([0, 2 ^ 62] : List Int), IsNonNegInt x) ∧
    (∀ x ∈ ([0, 2 ^ 62] : List Int), (0 : Int) ≤ x ∧ x ≤ 2 ^ 62) ∧
    (2 : Int) ^ 62 / 8 - 0 / 8 + 1 = 2 ^ 59 + 1 ∧
    NewBitmapIndex [0, 2 ^ 62] = .error (.crash .makeLength) := by
  refine ⟨by unfold IsNonNegInt; decide, by decide, by decide, by decide⟩

/-- C16, amended. Builder shape: for a collection `S` of non-negative Go integers with
smallest element `mn` and largest `mx` whose largest shift `mx - 8*(mn div 8)` the
allocator grants, `NewBitmapIndex S` returns a non-nil index with `Start = mn div 8`,
`End = mx div 8`, exactly `End - Start + 1` data bytes, and a non-zero leading byte
`Data[0]`. -/
theorem C16_builder_shape (S : List Int) (hS : ∀ x ∈ S, IsNonNegInt x) (mn mx : Int)
    (hmn : mn ∈ S) (hmx : mx ∈ S) (hmin : ∀ x ∈ S, mn ≤ x) (hmax : ∀ x ∈ S, x ≤ mx)
    (hfit : LshFits (mx - mn / 8 * 8).toNat) :
    ∃ x, NewBitmapIndex S = .ok (some x) ∧ x.Start = mn / 8 ∧ x.End = mx / 8 ∧
      (x.Data.length : Int) = x.End - x.Start + 1 ∧ x.Data.getD 0 0 ≠ 0 := by
  have hne : S ≠ [] := List.ne_nil_of_mem hmn
  have hperm := List.perm_insertionSort (fun a b : Int => a ≤ b) S
  have hsorted := List.sorted_insertionSort (fun a b : Int => a ≤ b) S
  have hne2 : S.insertionSort (fun a b => a ≤ b) ≠ [] := by
    intro h
    rw [h] at hperm
    exact hne (List.Perm.eq_nil hperm.symm)
  have hhead : (S.insertionSort (fun a b => a ≤ b)).headD 0 = mn := by
    have h1 := sorted_head_le _ hsorted mn (hperm.mem_iff.mpr hmn)
    have h2 := hmin _ (hperm.mem_iff.mp (headD_mem _ hne2))
    omega
  have hlast : (S.insertionSort (fun a b => a ≤ b)).getLastD 0 = mx := by
    obtain ⟨h1, h2⟩ := sorted_getLastD _ hne2 hsorted
    have h3 := h2 mx (hperm.mem_iff.mpr hmx)
    have h4 := hmax _ (hperm.mem_iff.mp h1)
    omega
  have d1 : mn.tdiv 8 = mn / 8 := Int.tdiv_eq_ediv (hS mn hmn).1 (by norm_num)
  have d2 : mx.tdiv 8 = mx / 8 := Int.tdiv_eq_ediv (hS mx hmx).1 (by norm_num)
  obtain ⟨g1, g2⟩ := built_shape (S.insertionSort (fun a b => a ≤ b))
    (fun x hx => hS x (hperm.mem_iff.mp hx)) mn mx (hperm.mem_iff.mpr hmn)
    (hperm.mem_iff.mpr hmx) (fun x hx => hmin x (hperm.mem_iff.mp hx))
    (fun x hx => hmax x (hperm.mem_iff.mp hx))
  rw [NewBitmapIndex_eq S hne hS (pairs_fit S mn mx hmin hmax hfit)]
  simp only [hhead, hlast, d1, d2]
  exact ⟨_, rfl, rfl, rfl, g1, g2⟩

/-- C16, amended, at `[3, 10, 18]` (blocks `0..2`) and `[10, 20]` (blocks `1..2`). -/
theorem C16_builder_shape_witness :
    NewBitmapIndex [3, 10, 18] = .ok (some ⟨[4, 4, 8], [], 0, 2⟩) ∧
    NewBitmapIndex [10, 20] = .ok (some ⟨[16, 4], [], 1, 2⟩) ∧
    (∃ x, NewBitmapIndex [3, 10, 18] = .ok (some x) ∧ x.Start = (3 : Int) / 8 ∧
      x.End = (18 : Int) / 8 ∧
      (x.Data.length : Int) = x.End - x.Start + 1 ∧ x.Data.getD 0 0 ≠ 0) ∧
    (∃ x, NewBitmapIndex [10, 20] = .ok (some x) ∧ x.Start = (10 : Int) / 8 ∧
      x.End = (20 : Int) / 8 ∧
      (x.Data.length : Int) = x.End - x.Start + 1 ∧ x.Data.getD 0 0 ≠ 0) :=
  ⟨by decide, by decide,
    C16_builder_shape [3, 10, 18] (by unfold IsNonNegInt; decide) 3 18 (by decide) (by decide)
      (by decide) (by decide) (by unfold LshFits maxAlloc; decide),
    C16_builder_shape [10, 20] (by unfold IsNonNegInt; decide) 10 20 (by decide) (by decide)
      (by decide) (by decide) (by unfold LshFits maxAlloc; decide)⟩

/-! ## `AndBreak` -/

theorem andBreakLoop_spec (A : BitmapIndex) (hA : WellFormed A) :
    ∀ l : List BitmapIndex, (∀ b ∈ l, WellFormed b) →
      ∃ o, andBreakLoop (some A) (l.map some) = .ok o ∧
        (o = none ↔ ∀ b ∈ l, Bitmap.And (some A) (some b) = .ok none) ∧
        (∀ r, o = some r →
          ∃ (k : Nat) (b : BitmapIndex), l[k]? = some b ∧ Bitmap.And (some A) (some b) = .ok (some r) ∧
            ∀ (j : Nat) (c : BitmapIndex), j < k → l[j]? = some c → Bitmap.And (some A) (some c) = .ok none) := by
  intro l
  induction l with
  | nil =>
    intro _
    refine ⟨none, rfl, ?_, ?_⟩
    · simp
    · intro r h
      cases h
  | cons b rest ih =>
    intro hl
    obtain ⟨o, ho, _⟩ := And_returns A b hA (hl b (List.mem_cons_self b rest))
    obtain ⟨o2, ho2, hn2, hs2⟩ := ih (fun c hc => hl c (List.mem_cons_of_mem b hc))
    simp only [List.map_cons, andBreakLoop, bind, Except.bind, ho]
    cases o with
    | some t =>
      refine ⟨some t, rfl, ?_, ?_⟩
      · constructor
        · intro h
          cases h
        · intro h
          have := h b (List.mem_cons_self b rest)
          rw [ho] at this
          cases this
      · intro r hr
        simp only [Option.some.injEq] at hr
        subst hr
        refine ⟨0, b, List.getElem?_cons_zero, ho, ?_⟩
        intro j c hj
        exact absurd hj (Nat.not_lt_zero j)
    | none =>
      refine ⟨o2, ho2, ?_, ?_⟩
      · rw [hn2]
        constructor
        · intro h c hc
          rcases List.mem_cons.mp hc with e | e
          · rw [e]
            exact ho
          · exact h c e
        · intro h c hc
          exact h c (List.mem_cons_of_mem b hc)
      · intro r hr
        obtain ⟨k, c, hk, hc, hprev⟩ := hs2 r hr
        refine ⟨k + 1, c, by simpa using hk, hc, ?_⟩
        intro j d hj hd
        cases j with
        | zero =>
          simp only [List.getElem?_cons_zero, Option.some.injEq] at hd
          rw [← hd]
          exact ho
        | succ j =>
          simp only [List.getElem?_cons_succ] at hd
          exact hprev j d (by omega) hd

/-- C18. `AndBreak` returns the first match: for a well-formed `A` and a list of well-formed
indexes, `A.AndBreak(list)` returns `A.And(list[k])` for the smallest `k` at which that
intersection is not the sentinel, and the sentinel when there is no such `k` (so for the
empty list); on a nil receiver it returns the sentinel. -/
theorem C18_andBreak_first_match (A : BitmapIndex) (l : List BitmapIndex) (hA : WellFormed A)
    (hl : ∀ b ∈ l, WellFormed b) :
    AndBreak none (l.map some) = .ok none ∧
    AndBreak (some A) [] = .ok none ∧
    ∃ o, AndBreak (some A) (l.map some) = .ok o ∧
      (o = none ↔ ∀ b ∈ l, Bitmap.And (some A) (some b) = .ok none) ∧
      (∀ r, o = some r →
        ∃ (k : Nat) (b : BitmapIndex), l[k]? = some b ∧ Bitmap.And (some A) (some b) = .ok (some r) ∧
          ∀ (j : Nat) (c : BitmapIndex), j < k → l[j]? = some c → Bitmap.And (some A) (some c) = .ok none) := by
  refine ⟨rfl, rfl, ?_⟩
  exact andBreakLoop_spec A hA l hl

/-- C18, at `A = NewBitmapIndex [3, 10, 18]` and the candidates `[40]`, `[10, 20]`,
`[3]`: the first candidate is disjoint, the second gives the result. -/
theorem C18_andBreak_first_match_witness :
    AndBreak (some ⟨[4, 4, 8], [], 0, 2⟩)
        [some ⟨[1], [], 5, 5⟩, some ⟨[16, 4], [], 1, 2⟩, some ⟨[8], [], 0, 0⟩]
      = .ok (some ⟨[0, 4], [], 1, 2⟩) ∧
    (AndBreak none
        (([⟨[1], [], 5, 5⟩, ⟨[16, 4], [], 1, 2⟩, ⟨[8], [], 0, 0⟩] : List BitmapIndex).map some)
      = .ok none ∧
    AndBreak (some ⟨[4, 4, 8], [], 0, 2⟩) [] = .ok none ∧
    ∃ o, AndBreak (some ⟨[4, 4, 8], [], 0, 2⟩)
        (([⟨[1], [], 5, 5⟩, ⟨[16, 4], [], 1, 2⟩, ⟨[8], [], 0, 0⟩] : List BitmapIndex).map some)
        = .ok o ∧
      (o = none ↔
        ∀ b ∈ ([⟨[1], [], 5, 5⟩, ⟨[16, 4], [], 1, 2⟩, ⟨[8], [], 0, 0⟩] : List BitmapIndex),
          Bitmap.And (some ⟨[4, 4, 8], [], 0, 2⟩) (some b) = .ok none) ∧
      (∀ r, o = some r →
        ∃ (k : Nat) (b : BitmapIndex),
          ([⟨[1], [], 5, 5⟩, ⟨[16, 4], [], 1, 2⟩, ⟨[8], [], 0, 0⟩] : List BitmapIndex)[k]?
            = some b ∧
          Bitmap.And (some ⟨[4, 4, 8], [], 0, 2⟩) (some b) = .ok (some r) ∧
          ∀ (j : Nat) (c : BitmapIndex), j < k →
            ([⟨[1], [], 5, 5⟩, ⟨[16, 4], [], 1, 2⟩, ⟨[8], [], 0, 0⟩] : List BitmapIndex)[j]?
              = some c →
            Bitmap.And (some ⟨[4, 4, 8], [], 0, 2⟩) (some c) = .ok none)) :=
  ⟨by decide,
    C18_andBreak_first_match ⟨[4, 4, 8], [], 0, 2⟩
      [⟨[1], [], 5, 5⟩, ⟨[16, 4], [], 1, 2⟩, ⟨[8], [], 0, 0⟩]
      (by unfold WellFormed; decide) (by unfold WellFormed; decide)⟩

/-! ## Union of built indexes -/

/-- What `NewBitmapIndex` builds from a non-empty collection of non-negative Go integers:
a well-formed index over the blocks of the smallest and largest value, decoding to the
collection. -/
theorem built_spec (S : List Int) (hne : S ≠ []) (hS : ∀ x ∈ S, IsNonNegInt x)
    (hfit : ∀ x ∈ S, ∀ y ∈ S, LshFits (y - x / 8 * 8).toNat) :
    ∃ x mn mx, NewBitmapIndex S = .ok (some x) ∧ mn ∈ S ∧ mx ∈ S ∧
      (∀ v ∈ S, mn ≤ v ∧ v ≤ mx) ∧ x.Start = mn / 8 ∧ x.End = mx / 8 ∧ x.Ext = [] ∧
      WellFormed x ∧ IsBytes x.Data ∧ ∀ v, v ∈ slicesListZ x ↔ v ∈ S := by
  have heq := NewBitmapIndex_eq S hne hS hfit
  have hperm := List.perm_insertionSort (fun a b : Int => a ≤ b) S
  have hsorted := List.sorted_insertionSort (fun a b : Int => a ≤ b) S
  have hne2 : S.insertionSort (fun a b => a ≤ b) ≠ [] := by
    intro h
    rw [h] at hperm
    exact hne (List.Perm.eq_nil hperm.symm)
  have hSs : ∀ x ∈ S.insertionSort (fun a b => a ≤ b), IsNonNegInt x :=
    fun x hx => hS x (hperm.mem_iff.mp hx)
  have hmin := sorted_head_le _ hsorted
  obtain ⟨hlastmem, hmax⟩ := sorted_getLastD _ hne2 hsorted
  have hheadmem := headD_mem _ hne2
  have hmem := mem_slices_built _ hne2 hSs hmin
    (((S.insertionSort (fun a b => a ≤ b)).getLastD 0).tdiv 8)
  generalize hmn : (S.insertionSort (fun a b => a ≤ b)).headD 0 = mn at hmin hheadmem hmem
  generalize hmx : (S.insertionSort (fun a b => a ≤ b)).getLastD 0 = mx at hlastmem hmax hmem
  have d1 : mn.tdiv 8 = mn / 8 := Int.tdiv_eq_ediv (hSs mn hheadmem).1 (by norm_num)
  have d2 : mx.tdiv 8 = mx / 8 := Int.tdiv_eq_ediv (hSs mx hlastmem).1 (by norm_num)
  obtain ⟨g1, _⟩ := built_shape (S.insertionSort (fun a b => a ≤ b)) hSs mn mx hheadmem
    hlastmem hmin hmax
  rw [d1, d2] at hmem
  have hle : mn ≤ mx := hmin mx hlastmem
  rw [heq]
  simp only [hmn, hmx, d1, d2]
  refine ⟨_, mn, mx, rfl, hperm.mem_iff.mp hheadmem, hperm.mem_iff.mp hlastmem, ?_, rfl, rfl,
    rfl, ⟨?_, g1⟩, bigBytes_isBytes _, ?_⟩
  · intro v hv
    exact ⟨hmin v (hperm.mem_iff.mpr hv), hmax v (hperm.mem_iff.mpr hv)⟩
  · simp only
    omega
  · intro v
    rw [hmem v, hperm.mem_iff]

theorem testBit_blockByte (x : BitmapIndex) (hx : WellFormed x) (hb : IsBytes x.Data)
    (k : Int) (j : Nat) :
    (blockByte x k).testBit j = true ↔ j < 8 ∧ (k * 8 + (j : Int)) ∈ slicesListZ x := by
  by_cases hj : j < 8
  · rw [mem_slicesListZ_iff x hx]
    have e1 : (k * 8 + (j : Int)) / 8 = k := by omega
    have e2 : ((k * 8 + (j : Int)) % 8).toNat = j := by omega
    rw [e1, e2]
    exact ⟨fun h => ⟨hj, h⟩, fun h => h.2⟩
  · have hlt : blockByte x k < 2 ^ j :=
      lt_of_lt_of_le (blockByte_lt x hb k) (by
        calc 256 = 2 ^ 8 := by norm_num
          _ ≤ 2 ^ j := Nat.pow_le_pow_right (by norm_num) (Nat.le_of_not_lt hj))
    rw [Nat.testBit_lt_two_pow hlt]
    constructor
    · intro h
      exact Bool.noConfusion h
    · intro h
      exact absurd h.1 hj

/-- C21 fails as stated: for `S = [0]` and `T = [2^63-1]` both builds return, but the
union range of the two indexes has `2^60` bytes and `make` refuses it, so `Or` aborts; the
build of `S ++ T` aborts as well, in the shift by `2^63-1`. -/
theorem C21_or_of_built_aborts_counterexample :
    (∀ x ∈ ([0] : List Int), IsNonNegInt x) ∧
    (∀ x ∈ ([2 ^ 63 - 1] : List Int), IsNonNegInt x) ∧
    NewBitmapIndex [0] = .ok (some ⟨[1], [], 0, 0⟩) ∧
    NewBitmapIndex [2 ^ 63 - 1] = .ok (some ⟨[128], [], 2 ^ 60 - 1, 2 ^ 60 - 1⟩) ∧
    Bitmap.Or (some ⟨[1], [], 0, 0⟩) (some ⟨[128], [], 2 ^ 60 - 1, 2 ^ 60 - 1⟩)
      = .error (.crash .makeLength) ∧
    NewBitmapIndex ([0] ++ [2 ^ 63 - 1]) = .error (.crash .makeLength) := by
  refine ⟨by unfold IsNonNegInt; decide, by unfold IsNonNegInt; decide, by decide,
    by decide, by decide, by decide⟩

/-- C21, amended. `Or` commutes with building whenever the allocator grants the build of
the combined values: for non-empty collections `S` and `T` of non-negative Go integers in
which every pair of values of `S ++ T` leaves a shift that `Lsh` can carry out, both builds
return, `NewBitmapIndex(S).Or(NewBitmapIndex(T))` returns, and its result equals
`NewBitmapIndex(S ++ T)` in `Start`, `End`, `Data` and `Ext`. -/
theorem C21_or_of_built (S T : List Int) (hS : S ≠ []) (hT : T ≠ [])
    (hSn : ∀ x ∈ S, IsNonNegInt x) (hTn : ∀ x ∈ T, IsNonNegInt x)
    (hfit : ∀ x ∈ S ++ T, ∀ y ∈ S ++ T, LshFits (y - x / 8 * 8).toNat) :
    ∃ a b r, NewBitmapIndex S = .ok (some a) ∧ NewBitmapIndex T = .ok (some b) ∧
      Bitmap.Or (some a) (some b) = .ok (some r) ∧
      NewBitmapIndex (S ++ T) = .ok (some r) := by
  obtain ⟨a, mnS, mxS, ha, m1, m2, m3, sa, ea, xa, wa, ba, da⟩ := built_spec S hS hSn
    (fun x hx y hy => hfit x (List.mem_append_left T hx) y (List.mem_append_left T hy))
  obtain ⟨b, mnT, mxT, hb, n1, n2, n3, sb, eb, xb, wb, bb, db⟩ := built_spec T hT hTn
    (fun x hx y hy => hfit x (List.mem_append_right S hx) y (List.mem_append_right S hy))
  obtain ⟨c, mn, mx, hc, p1, p2, p3, sc, ec, xc, wc, bc, dc⟩ := built_spec (S ++ T)
    (by
      intro h
      exact hS (List.append_eq_nil.mp h).1)
    (by
      intro x hx
      rcases List.mem_append.mp hx with h | h
      · exact hSn x h
      · exact hTn x h)
    hfit
  have q1 := (p3 mnS (List.mem_append_left T m1)).1
  have q2 := (p3 mnT (List.mem_append_right S n1)).1
  have q3 := (p3 mxS (List.mem_append_left T m2)).2
  have q4 := (p3 mxT (List.mem_append_right S n2)).2
  have hmn : mn = mnS ∨ mn = mnT := by
    rcases List.mem_append.mp p1 with h | h
    · have := (m3 mn h).1
      exact Or.inl (by omega)
    · have := (n3 mn h).1
      exact Or.inr (by omega)
  have hmx : mx = mxS ∨ mx = mxT := by
    rcases List.mem_append.mp p2 with h | h
    · have := (m3 mx h).2
      exact Or.inl (by omega)
    · have := (n3 mx h).2
      exact Or.inr (by omega)
  have hbig := hfit mn p1 mx p2
  have hnn : 0 ≤ mn := by
    rcases List.mem_append.mp p1 with h | h
    · exact (hSn mn h).1
    · exact (hTn mn h).1
  have hle : mn ≤ mx := (p3 mx p2).1
  have fab : UnionFits a b := by
    unfold UnionFits
    unfold LshFits at hbig
    unfold maxAlloc at hbig ⊢
    rw [sa, sb, ea, eb]
    omega
  obtain ⟨r, hr, sr, er, xr, wr, kr⟩ := Or_spec a b wa wb fab
  have heq : r = c := by
    apply index_ext r c wr wc
    · rw [sr, sa, sb, sc]
      omega
    · rw [er, ea, eb, ec]
      omega
    · rw [xr, xc]
    · intro k
      rw [kr]
      apply Nat.eq_of_testBit_eq
      intro j
      rw [Bool.eq_iff_iff, Nat.testBit_or, Bool.or_eq_true, testBit_blockByte a wa ba,
        testBit_blockByte b wb bb, testBit_blockByte c wc bc, da, db, dc, List.mem_append]
      tauto
  exact ⟨a, b, r, ha, hb, hr, by rw [hc, heq]⟩

/-- C21, amended, at `[3, 10, 18]` and `[10, 20]`: the union and the index built from
`[3, 10, 18, 10, 20]` are both `Start = 0`, `End = 2`, `Data = [20, 4, 8]`. -/
theorem C21_or_of_built_witness :
    Bitmap.Or (some ⟨[4, 4, 8], [], 0, 2⟩) (some ⟨[16, 4], [], 1, 2⟩)
      = .ok (some ⟨[20, 4, 8], [], 0, 2⟩) ∧
    NewBitmapIndex [3, 10, 18, 10, 20] = .ok (some ⟨[20, 4, 8], [], 0, 2⟩) ∧
    ∃ a b r, NewBitmapIndex [3, 10, 18] = .ok (some a) ∧
      NewBitmapIndex [10, 20] = .ok (some b) ∧
      Bitmap.Or (some a) (some b) = .ok (some r) ∧
      NewBitmapIndex ([3, 10, 18] ++ [10, 20]) = .ok (some r) :=
  ⟨by decide, by decide,
    C21_or_of_built [3, 10, 18] [10, 20] (by decide) (by decide)
      (by unfold IsNonNegInt; decide) (by unfold IsNonNegInt; decide)
      (by unfold LshFits maxAlloc; decide)⟩

end Bitmap
